import Mathlib

/-!
Verification development for the Brand Studio service
(`venom_module_brand_studio/services/service.py`).

The Python source is shallowly embedded: pure helper functions become Lean
functions over `List Char` / `String` / `ℚ` / `Int`, the stateful service
becomes explicit state passing, Python `float` scores are modelled as exact
rationals, wall-clock timestamps as integer seconds, and external
collaborators (channel connectors, the LLM client) as explicit oracle
parameters.  Python's `uuid4`-generated identifiers are modelled as
explicitly supplied fresh-name arguments.
-/

namespace BrandStudio

/-! ## Small utilities -/

/-- Python `in` on strings at the character-list level:
`listContains hay pat` is true when `pat` occurs as a contiguous substring
of `hay`. -/
def listContains (hay pat : List Char) : Bool :=
  match hay with
  | [] => pat.isEmpty
  | _ :: t => pat.isPrefixOf hay || listContains t pat

/-- Python `needle in text` for strings. -/
def strContains (text needle : String) : Bool :=
  listContains text.data needle.data

/-- ASCII lower-casing of one character, as Python `str.lower` acts on the
ASCII range (the embedding restricts Unicode lower-casing to ASCII; every
keyword and scheme character the service compares is ASCII). -/
def asciiLower (c : Char) : Char :=
  if 'A' ≤ c ∧ c ≤ 'Z' then Char.ofNat (c.toNat + 32) else c

def lowerList (l : List Char) : List Char := l.map asciiLower

def lowerStr (s : String) : String := ⟨lowerList s.data⟩

/-- Python `str.strip()` used by the service on topic/summary fields:
drops leading and trailing whitespace. -/
def isPySpace (c : Char) : Bool :=
  c = ' ' ∨ c = '\t' ∨ c = '\n' ∨ c = '\r' ∨ c = '\x0b' ∨ c = '\x0c'

def stripList (l : List Char) : List Char :=
  ((l.dropWhile isPySpace).reverse.dropWhile isPySpace).reverse

def stripStr (s : String) : String := ⟨stripList s.data⟩

def rstripStr (s : String) : String :=
  ⟨(s.data.reverse.dropWhile isPySpace).reverse⟩

/-- `service._clip_01`: clamp a rational to the unit interval. -/
def clip01 (x : ℚ) : ℚ := max 0 (min 1 x)

/-! ## SHA-256 (model of Python `hashlib.sha256(...).hexdigest()`)

Implemented over byte lists (`List Nat`, each entry `< 256`), with 32-bit
words as `Nat` reduced `% 2^32`. -/

def w32 : Nat := 4294967296

def rotr32 (n x : Nat) : Nat := ((x >>> n) ||| (x <<< (32 - n))) % w32

def sha256K : List Nat :=
  [1116352408, 1899447441, 3049323471, 3921009573,
   961987163, 1508970993, 2453635748, 2870763221,
   3624381080, 310598401, 607225278, 1426881987,
   1925078388, 2162078206, 2614888103, 3248222580,
   3835390401, 4022224774, 264347078, 604807628,
   770255983, 1249150122, 1555081692, 1996064986,
   2554220882, 2821834349, 2952996808, 3210313671,
   3336571891, 3584528711, 113926993, 338241895,
   666307205, 773529912, 1294757372, 1396182291,
   1695183700, 1986661051, 2177026350, 2456956037,
   2730485921, 2820302411, 3259730800, 3345764771,
   3516065817, 3600352804, 4094571909, 275423344,
   430227734, 506948616, 659060556, 883997877,
   958139571, 1322822218, 1537002063, 1747873779,
   1955562222, 2024104815, 2227730452, 2361852424,
   2428436474, 2756734187, 3204031479, 3329325298]

def smallSigma0 (x : Nat) : Nat := (rotr32 7 x) ^^^ (rotr32 18 x) ^^^ (x >>> 3)
def smallSigma1 (x : Nat) : Nat := (rotr32 17 x) ^^^ (rotr32 19 x) ^^^ (x >>> 10)
def bigSigma0 (x : Nat) : Nat := (rotr32 2 x) ^^^ (rotr32 13 x) ^^^ (rotr32 22 x)
def bigSigma1 (x : Nat) : Nat := (rotr32 6 x) ^^^ (rotr32 11 x) ^^^ (rotr32 25 x)

structure Hash8 where
  a : Nat
  b : Nat
  c : Nat
  d : Nat
  e : Nat
  f : Nat
  g : Nat
  h : Nat
deriving Repr, DecidableEq

def sha256Init : Hash8 :=
  ⟨1779033703, 3144134277, 1013904242, 2773480762,
   1359893119, 2600822924, 528734635, 1541459225⟩

/-- Message-schedule extension: given the first 16 words, produce all 64. -/
def sha256Extend (w : List Nat) : Nat → List Nat
  | 0 => w
  | n + 1 =>
    let w' := sha256Extend w n
    let i := w'.length
    w' ++ [(w'.getD (i - 16) 0 + smallSigma0 (w'.getD (i - 15) 0)
            + w'.getD (i - 7) 0 + smallSigma1 (w'.getD (i - 2) 0)) % w32]

def sha256Round (s : Hash8) (kw : Nat × Nat) : Hash8 :=
  let ch := (s.e &&& s.f) ^^^ ((w32 - 1 - s.e % w32) &&& s.g)
  let t1 := (s.h + bigSigma1 s.e + ch + kw.1 + kw.2) % w32
  let maj := (s.a &&& s.b) ^^^ (s.a &&& s.c) ^^^ (s.b &&& s.c)
  let t2 := (bigSigma0 s.a + maj) % w32
  ⟨(t1 + t2) % w32, s.a, s.b, s.c, (s.d + t1) % w32, s.e, s.f, s.g⟩

def sha256Block (s : Hash8) (block : List Nat) : Hash8 :=
  let ws := sha256Extend block 48
  let r := (sha256K.zip ws).foldl sha256Round s
  ⟨(s.a + r.a) % w32, (s.b + r.b) % w32, (s.c + r.c) % w32, (s.d + r.d) % w32,
   (s.e + r.e) % w32, (s.f + r.f) % w32, (s.g + r.g) % w32, (s.h + r.h) % w32⟩

/-- Big-endian packing of bytes into 32-bit words (input length divisible
by 4; stray tail bytes cannot occur after padding). -/
def bytesToWords : List Nat → List Nat
  | b0 :: b1 :: b2 :: b3 :: rest =>
    (((b0 * 256 + b1) * 256 + b2) * 256 + b3) :: bytesToWords rest
  | _ => []

def wordsToBlocks : List Nat → List (List Nat)
  | w0 :: w1 :: w2 :: w3 :: w4 :: w5 :: w6 :: w7 ::
    w8 :: w9 :: w10 :: w11 :: w12 :: w13 :: w14 :: w15 :: rest =>
    [w0, w1, w2, w3, w4, w5, w6, w7, w8, w9, w10, w11, w12, w13, w14, w15]
      :: wordsToBlocks rest
  | _ => []

def sha256Pad (msg : List Nat) : List Nat :=
  let len := msg.length
  let zeros := (64 - (len + 9) % 64) % 64
  let bitLen := len * 8
  msg ++ [0x80] ++ List.replicate zeros 0 ++
    [(bitLen >>> 56) % 256, (bitLen >>> 48) % 256, (bitLen >>> 40) % 256,
     (bitLen >>> 32) % 256, (bitLen >>> 24) % 256, (bitLen >>> 16) % 256,
     (bitLen >>> 8) % 256, bitLen % 256]

def hexCharLower (n : Nat) : Char :=
  if n < 10 then Char.ofNat (48 + n) else Char.ofNat (87 + n)

def wordToHex (x : Nat) : List Char :=
  [28, 24, 20, 16, 12, 8, 4, 0].map fun s => hexCharLower ((x >>> s) % 16)

/-- SHA-256 hex digest of a byte list. -/
def sha256HexBytes (msg : List Nat) : String :=
  let blocks := wordsToBlocks (bytesToWords (sha256Pad msg))
  let s := blocks.foldl sha256Block sha256Init
  ⟨[s.a, s.b, s.c, s.d, s.e, s.f, s.g, s.h].foldr (fun x acc => wordToHex x ++ acc) []⟩

/-! ## UTF-8 encoding (Python `str.encode("utf-8")`) -/

/-- UTF-8 encoding of one scalar value. -/
def utf8Encode (c : Char) : List Nat :=
  let v := c.toNat
  if v < 0x80 then [v]
  else if v < 0x800 then [0xC0 + v / 64, 0x80 + v % 64]
  else if v < 0x10000 then
    [0xE0 + v / 4096, 0x80 + (v / 64) % 64, 0x80 + v % 64]
  else
    [0xF0 + v / 262144, 0x80 + (v / 4096) % 64, 0x80 + (v / 64) % 64, 0x80 + v % 64]

def utf8EncodeStr (s : String) : List Nat := s.data.flatMap utf8Encode

/-! ## Percent-encoding and query strings

Models of `urllib.parse.quote_plus` / `unquote` / `parse_qsl` /
`urlencode` as used by `_canonical_url` (`parse_qsl` with
`keep_blank_values=True` and the default `&` separator; `urlencode` with its
default `quote_plus` quoting).  The UTF-8 decoder substitutes U+FFFD on
malformed byte sequences; its malformed-input branches approximate the
codec's maximal-subpart substitution and are never exercised by round trips
of the encoder. -/

/-- Characters Python's `quote` never escapes (`_ALWAYS_SAFE`). -/
def isAlwaysSafe (c : Char) : Bool :=
  ('A' ≤ c ∧ c ≤ 'Z') ∨ ('a' ≤ c ∧ c ≤ 'z') ∨ ('0' ≤ c ∧ c ≤ '9') ∨
    c = '_' ∨ c = '.' ∨ c = '-' ∨ c = '~'

def hexCharUpper (n : Nat) : Char :=
  if n < 10 then Char.ofNat (48 + n) else Char.ofNat (55 + n)

def pctEncodeByte (b : Nat) : List Char :=
  ['%', hexCharUpper (b / 16), hexCharUpper (b % 16)]

def quotePlusChar (c : Char) : List Char :=
  if isAlwaysSafe c then [c]
  else if c = ' ' then ['+']
  else (utf8Encode c).flatMap pctEncodeByte

/-- `urllib.parse.quote_plus` with `safe=''`. -/
def quotePlus (l : List Char) : List Char := l.flatMap quotePlusChar

def hexVal? (c : Char) : Option Nat :=
  if '0' ≤ c ∧ c ≤ '9' then some (c.toNat - 48)
  else if 'A' ≤ c ∧ c ≤ 'F' then some (c.toNat - 55)
  else if 'a' ≤ c ∧ c ≤ 'f' then some (c.toNat - 87)
  else none

/-- Lower bound of the first continuation byte's legal range: `0xE0` and
`0xF0` leads exclude overlong encodings. -/
def utf8Cont1Lo (b0 : Nat) : Nat :=
  if b0 = 0xE0 then 0xA0 else if b0 = 0xF0 then 0x90 else 0x80

/-- Upper bound of the first continuation byte's legal range: `0xED`
excludes surrogates, `0xF4` values above U+10FFFF. -/
def utf8Cont1Hi (b0 : Nat) : Nat :=
  if b0 = 0xED then 0x9F else if b0 = 0xF4 then 0x8F else 0xBF

/-- UTF-8 decoding with `errors='replace'` semantics as CPython's codec
implements them (substitution of maximal subparts, Unicode 15 §3.9): each
maximal prefix of a valid sequence that cannot be completed is replaced by
one U+FFFD and decoding resumes at the offending byte; a stray or invalid
lead byte is replaced on its own.  Valid sequences — the only ones the
encoder produces — decode exactly. -/
def utf8DecodeAll : List Nat → List Char
  | [] => []
  | b0 :: rest =>
    if b0 < 0x80 then Char.ofNat b0 :: utf8DecodeAll rest
    else if 0xC2 ≤ b0 ∧ b0 ≤ 0xDF then
      match rest with
      | [] => [Char.ofNat 0xFFFD]
      | b1 :: rest1 =>
        if 0x80 ≤ b1 ∧ b1 ≤ 0xBF then
          Char.ofNat ((b0 - 0xC0) * 64 + (b1 - 0x80)) :: utf8DecodeAll rest1
        else Char.ofNat 0xFFFD :: utf8DecodeAll (b1 :: rest1)
    else if 0xE0 ≤ b0 ∧ b0 ≤ 0xEF then
      match rest with
      | [] => [Char.ofNat 0xFFFD]
      | [b1] =>
        if utf8Cont1Lo b0 ≤ b1 ∧ b1 ≤ utf8Cont1Hi b0 then [Char.ofNat 0xFFFD]
        else Char.ofNat 0xFFFD :: utf8DecodeAll [b1]
      | b1 :: b2 :: rest2 =>
        if utf8Cont1Lo b0 ≤ b1 ∧ b1 ≤ utf8Cont1Hi b0 then
          if 0x80 ≤ b2 ∧ b2 ≤ 0xBF then
            Char.ofNat ((b0 - 0xE0) * 4096 + (b1 - 0x80) * 64 + (b2 - 0x80))
              :: utf8DecodeAll rest2
          else Char.ofNat 0xFFFD :: utf8DecodeAll (b2 :: rest2)
        else Char.ofNat 0xFFFD :: utf8DecodeAll (b1 :: b2 :: rest2)
    else if 0xF0 ≤ b0 ∧ b0 ≤ 0xF4 then
      match rest with
      | [] => [Char.ofNat 0xFFFD]
      | [b1] =>
        if utf8Cont1Lo b0 ≤ b1 ∧ b1 ≤ utf8Cont1Hi b0 then [Char.ofNat 0xFFFD]
        else Char.ofNat 0xFFFD :: utf8DecodeAll [b1]
      | [b1, b2] =>
        if utf8Cont1Lo b0 ≤ b1 ∧ b1 ≤ utf8Cont1Hi b0 then
          if 0x80 ≤ b2 ∧ b2 ≤ 0xBF then [Char.ofNat 0xFFFD]
          else Char.ofNat 0xFFFD :: utf8DecodeAll [b2]
        else Char.ofNat 0xFFFD :: utf8DecodeAll [b1, b2]
      | b1 :: b2 :: b3 :: rest3 =>
        if utf8Cont1Lo b0 ≤ b1 ∧ b1 ≤ utf8Cont1Hi b0 then
          if 0x80 ≤ b2 ∧ b2 ≤ 0xBF then
            if 0x80 ≤ b3 ∧ b3 ≤ 0xBF then
              Char.ofNat ((b0 - 0xF0) * 262144 + (b1 - 0x80) * 4096
                  + (b2 - 0x80) * 64 + (b3 - 0x80)) :: utf8DecodeAll rest3
            else Char.ofNat 0xFFFD :: utf8DecodeAll (b3 :: rest3)
          else Char.ofNat 0xFFFD :: utf8DecodeAll (b2 :: b3 :: rest3)
        else Char.ofNat 0xFFFD :: utf8DecodeAll (b1 :: b2 :: b3 :: rest3)
    else Char.ofNat 0xFFFD :: utf8DecodeAll rest

/-- Core scanner of `urllib.parse.unquote`: maximal runs of `%XX` escapes
are collected as bytes and UTF-8-decoded; other characters pass through. -/
def unquoteAux : List Nat → List Char → List Char
  | acc, '%' :: h1 :: h2 :: rest =>
    (match hexVal? h1, hexVal? h2 with
     | some a, some b => unquoteAux (acc ++ [16 * a + b]) rest
     | _, _ => utf8DecodeAll acc ++ '%' :: unquoteAux [] (h1 :: h2 :: rest))
  | acc, c :: rest => utf8DecodeAll acc ++ c :: unquoteAux [] rest
  | acc, [] => utf8DecodeAll acc

def unquoteL (l : List Char) : List Char := unquoteAux [] l

def plusToSpace (l : List Char) : List Char :=
  l.map fun c => if c = '+' then ' ' else c

/-- Split at the first occurrence of `sep`: Python `l.split(sep, 1)`,
returning `none` as second component when `sep` is absent. -/
def splitOnce? (sep : Char) (l : List Char) : List Char × Option (List Char) :=
  let pre := l.takeWhile (· ≠ sep)
  if pre.length < l.length then (pre, some (l.drop (pre.length + 1))) else (l, none)

/-- Python `str.split(sep)` for a one-character separator. -/
def splitChar (sep : Char) : List Char → List (List Char)
  | [] => [[]]
  | c :: t =>
    if c = sep then [] :: splitChar sep t
    else
      match splitChar sep t with
      | [] => [[c]]
      | h :: r => (c :: h) :: r

/-- `urllib.parse.parse_qsl(qs, keep_blank_values=True)` (with the default
`&` separator). -/
def parseQsl (qs : List Char) : List (List Char × List Char) :=
  (splitChar '&' qs).filterMap fun field =>
    if field.isEmpty then none
    else
      let nv := splitOnce? '=' field
      some (unquoteL (plusToSpace nv.1), unquoteL (plusToSpace (nv.2.getD [])))

/-- `urllib.parse.urlencode` over decoded pairs (default `quote_plus`). -/
def urlencodePairs (l : List (List Char × List Char)) : List Char :=
  List.intercalate ['&'] (l.map fun p => quotePlus p.1 ++ '=' :: quotePlus p.2)

/-! ## `urllib.parse.urlsplit` / `urlunsplit` -/

structure UrlSplitResult where
  scheme : List Char
  netloc : List Char
  path : List Char
  query : List Char
  fragment : List Char
deriving DecidableEq, Repr

def isC0OrSpace (c : Char) : Bool := c.toNat ≤ 0x20

def removeUnsafeBytes (l : List Char) : List Char :=
  l.filter fun c => ¬(c = '\t' ∨ c = '\r' ∨ c = '\n')

def isAsciiAlphaChar (c : Char) : Bool :=
  ('A' ≤ c ∧ c ≤ 'Z') ∨ ('a' ≤ c ∧ c ≤ 'z')

def isSchemeChar (c : Char) : Bool :=
  isAsciiAlphaChar c ∨ ('0' ≤ c ∧ c ≤ '9') ∨ c = '+' ∨ c = '-' ∨ c = '.'

def validSchemePre (pre : List Char) : Bool :=
  match pre with
  | [] => false
  | c :: t => isAsciiAlphaChar c && t.all isSchemeChar

/-- Scheme extraction of `urlsplit`: the prefix before the first `:`
qualifies when it is nonempty, starts with an ASCII letter and consists of
scheme characters; it is returned lower-cased. -/
def schemeSplit (url : List Char) : List Char × List Char :=
  let pre := url.takeWhile (· ≠ ':')
  if pre.length < url.length && validSchemePre pre then
    (lowerList pre, url.drop (pre.length + 1))
  else ([], url)

def isNetlocDelim (c : Char) : Bool := c = '/' ∨ c = '?' ∨ c = '#'

/-- `_splitnetloc`: the netloc runs to the first `/`, `?` or `#`. -/
def netlocSplit (rest : List Char) : List Char × List Char :=
  (rest.takeWhile (fun c => ¬ isNetlocDelim c),
   rest.dropWhile (fun c => ¬ isNetlocDelim c))

/-- `splitOnce?` collapsed to Python's `split(sep, 1)` with `''` default. -/
def splitOnce (sep : Char) (l : List Char) : List Char × List Char :=
  let p := splitOnce? sep l
  (p.1, p.2.getD [])

/-- The component computation of `urllib.parse.urlsplit` (with
`allow_fragments=True`): lstrip of C0 controls and space, removal of
tab/CR/LF, scheme split, netloc split, fragment split, query split.  The
`ValueError`-raising netloc validation of `urlsplit` is layered on top of
this in `urlsplitE` below, exactly as the source interleaves it with these
pure steps. -/
def urlsplitL (url0 : List Char) : UrlSplitResult :=
  let url1 := removeUnsafeBytes (url0.dropWhile isC0OrSpace)
  let sp := schemeSplit url1
  let np := if sp.2.take 2 = ['/', '/'] then netlocSplit (sp.2.drop 2) else ([], sp.2)
  let fp := splitOnce '#' np.2
  let qp := splitOnce '?' fp.1
  ⟨sp.1, np.1, qp.1, qp.2, fp.2⟩

/-- `urllib.parse.urlunsplit`. -/
def urlunsplitL (s : UrlSplitResult) : List Char :=
  let url := s.path
  let url :=
    if s.netloc ≠ [] ∨ (url ≠ [] ∧ url.take 2 = ['/', '/']) then
      ['/', '/'] ++ s.netloc ++ (if url ≠ [] ∧ url.take 1 ≠ ['/'] then '/' :: url else url)
    else url
  let url := if s.scheme ≠ [] then s.scheme ++ ':' :: url else url
  let url := if s.query ≠ [] then url ++ '?' :: s.query else url
  if s.fragment ≠ [] then url ++ '#' :: s.fragment else url

/-- Python `str.isascii`. -/
def isAsciiChar (c : Char) : Bool := c.toNat < 128

/-- `netloc.partition('[')[2].partition(']')[0]`: the text between the
first `[` and the next `]`, handed to `_check_bracketed_host`. -/
def bracketedHostOf (n : List Char) : List Char :=
  ((n.dropWhile (· ≠ '[')).drop 1).takeWhile (· ≠ ']')

/-- Outcomes of the two netloc validators whose bodies live outside the
embedded fragment: `_check_bracketed_host` (which defers to
`ipaddress.ip_address` and the IPvFuture grammar) and the NFKC comparison
in `_checknetloc` (which defers to `unicodedata.normalize`).  Both are pure
functions of the strings they receive; like the service's connectors and
LLM client they are supplied as environment parameters, `none` meaning the
check passes and `some e` that it raises `ValueError e`.  The theorems
below hold for every environment. -/
structure UrlCheckEnv where
  bracketed_host_error : List Char → Option String
  nfkc_error : List Char → Option String

/-- The `ValueError` paths of `urlsplit`, in source order: the unbalanced
square-bracket check (`"Invalid IPv6 URL"`), then `_check_bracketed_host`
on the text between the brackets (only when both brackets occur), then
`_checknetloc`, whose NFKC branch is only entered for a nonempty netloc
that is not pure ASCII.  All three depend only on the netloc; the
fragment/query splitting between them in the source is pure, so running
them consecutively is observationally the same. -/
def netlocChecks (env : UrlCheckEnv) (n : List Char) : Option String :=
  if ('[' ∈ n ∧ ']' ∉ n) ∨ (']' ∈ n ∧ '[' ∉ n) then some "Invalid IPv6 URL"
  else
    match (if '[' ∈ n ∧ ']' ∈ n then env.bracketed_host_error (bracketedHostOf n)
           else none) with
    | some e => some e
    | none => if n ≠ [] ∧ ¬ n.all isAsciiChar then env.nfkc_error n else none

/-- `urllib.parse.urlsplit` with its `ValueError` raises: the component
computation of `urlsplitL` plus the netloc validation.  In the source the
bracket checks run inside the `//` branch; when that branch is not taken
the netloc is empty and every check passes, so guarding on the computed
netloc is equivalent. -/
def urlsplitE (env : UrlCheckEnv) (url0 : List Char) : Except String UrlSplitResult :=
  let r := urlsplitL url0
  match netlocChecks env r.netloc with
  | some e => .error e
  | none => .ok r

/-- The environment that reports no validator error; even under it the
unbalanced-bracket raise still fires, since that check is fully embedded. -/
def envAllOk : UrlCheckEnv := ⟨fun _ => none, fun _ => none⟩

/-! ## `service._canonical_url` -/

/-- The tracking keys removed by `_canonical_url`: keys starting with
`utm_` or equal to `ref`, `source`, `fbclid`, `gclid`. -/
def isTrackingKey (k : List Char) : Bool :=
  ['u', 't', 'm', '_'].isPrefixOf k ∨ k = "ref".data ∨ k = "source".data ∨
    k = "fbclid".data ∨ k = "gclid".data

/-- The value `_canonical_url` computes when `urlsplit` does not raise
(the normalizer's dedup key is built from this value). -/
def canonicalUrlL (raw : List Char) : List Char :=
  let parsed := urlsplitL raw
  let cleaned := (parseQsl parsed.query).filter fun kv => ¬ isTrackingKey kv.1
  urlunsplitL ⟨parsed.scheme, parsed.netloc, parsed.path, urlencodePairs cleaned, []⟩

def canonicalUrl (s : String) : String := ⟨canonicalUrlL s.data⟩

/-- `service._canonical_url` with `urlsplit`'s `ValueError` propagated, as
the service does (it installs no handler around the call). -/
def canonicalUrlE (env : UrlCheckEnv) (raw : List Char) : Except String (List Char) :=
  match urlsplitE env raw with
  | .error e => .error e
  | .ok parsed =>
    .ok (urlunsplitL ⟨parsed.scheme, parsed.netloc, parsed.path,
      urlencodePairs ((parseQsl parsed.query).filter fun kv => ¬ isTrackingKey kv.1), []⟩)

/-! ## `service._score_breakdown` and friends -/

structure OpportunityScoreBreakdown where
  relevance : ℚ
  timeliness : ℚ
  authority_fit : ℚ
  risk_penalty : ℚ
  final_score : ℚ
  reasons : List String
deriving DecidableEq, Repr

def relevanceKeywords : List String :=
  ["ai", "agent", "llm", "governance", "routing", "memory", "module"]

def authorityKeywords : List String :=
  ["engineering", "runtime", "python", "devops", "architecture", "platform"]

def riskKeywords : List String := ["giveaway", "crypto moon", "viral trick", "spam"]

/-- `sum(1 for kw in kws if kw in text)`. -/
def keywordHits (text : String) (kws : List String) : Nat :=
  (kws.filter fun kw => strContains text kw).length

def scoreBreakdown (topic summary : String) (age_minutes : Int) : OpportunityScoreBreakdown :=
  let text := lowerStr (topic ++ " " ++ summary)
  let relevance_hits := keywordHits text relevanceKeywords
  let authority_hits := keywordHits text authorityKeywords
  let risk_hits := keywordHits text riskKeywords
  let relevance := clip01 ((relevance_hits : ℚ) / 6)
  let timeliness := clip01 (1 - (age_minutes : ℚ) / 1440)
  let authority_fit := clip01 ((authority_hits : ℚ) / 5)
  let risk_penalty := clip01 ((risk_hits : ℚ) / 2)
  let final_score := clip01
    ((40 / 100) * relevance + (25 / 100) * timeliness
      + (25 / 100) * authority_fit - (20 / 100) * risk_penalty)
  let reasons :=
    (if relevance ≥ 60 / 100 then ["high topical relevance"] else []) ++
    (if timeliness ≥ 70 / 100 then ["fresh discussion"] else []) ++
    (if authority_fit ≥ 60 / 100 then ["strong authority fit"] else []) ++
    (if risk_penalty ≥ 30 / 100 then ["elevated risk"] else [])
  let reasons := if reasons.isEmpty then ["balanced opportunity"] else reasons
  ⟨relevance, timeliness, authority_fit, risk_penalty, final_score, reasons⟩

/-! ## `service._normalize_and_rank_candidates` -/

structure ContentCandidate where
  id : String
  source : String
  url : String
  topic : String
  summary : String
  language : String
  score : ℚ
  age_minutes : Int
  score_breakdown : OpportunityScoreBreakdown
  reasons : List String
deriving DecidableEq, Repr

/-- One raw record handed to the normalizer (`id` optional as in the
source; an absent or empty id is replaced by a generated one, modelled as
the supplied fresh name). -/
structure RawCandidate where
  id : Option String
  source : String
  url : String
  topic : String
  summary : String
  language : String
  age_minutes : Int
deriving DecidableEq, Repr

def normalizeLang (raw : String) : String :=
  let lowered := lowerStr (stripStr raw)
  if lowered = "pl" ∨ lowered = "en" then lowered else "other"

/-- The dedup key: sha256 of `canonical_url|topic.lower()|summary.lower()`. -/
def dedupeKeyOf (canonical_url topic summary : String) : String :=
  sha256HexBytes (utf8EncodeStr (canonical_url ++ "|" ++ lowerStr topic ++ "|" ++ lowerStr summary))

def mkCandidate (fresh : String) (raw : RawCandidate) : ContentCandidate :=
  let canonical_url := canonicalUrl raw.url
  let topic := stripStr raw.topic
  let summary := stripStr raw.summary
  let breakdown := scoreBreakdown topic summary raw.age_minutes
  { id := match raw.id with | some s => if s = "" then fresh else s | none => fresh
    source := raw.source
    url := canonical_url
    topic := topic
    summary := summary
    language := normalizeLang raw.language
    score := breakdown.final_score
    age_minutes := raw.age_minutes
    score_breakdown := breakdown
    reasons := breakdown.reasons }

/-- The dedup key of an already-normalized candidate (the loop computes it
from `canonical_url` and the stripped topic/summary, which are exactly the
candidate's stored fields). -/
def candKey (c : ContentCandidate) : String := dedupeKeyOf c.url c.topic c.summary

/-- One step of the `by_dedupe_key` dict build: a new key is appended, an
existing key is overwritten in place only by a strictly higher score. -/
def upsertMax (m : List ContentCandidate) (c : ContentCandidate) : List ContentCandidate :=
  match m.find? (fun e => candKey e = candKey c) with
  | none => m ++ [c]
  | some e =>
    if e.score < c.score then
      m.map fun e' => if candKey e' = candKey c then c else e'
    else m

def dedupeCandidates (cands : List ContentCandidate) : List ContentCandidate :=
  cands.foldl upsertMax []

/-- The sort order of the normalizer: `(score, -age_minutes)` descending. -/
def rankLE (a b : ContentCandidate) : Bool :=
  decide (b.score < a.score ∨ (b.score = a.score ∧ a.age_minutes ≤ b.age_minutes))

def normalizeAndRankCandidates (fresh : Nat → String) (raws : List RawCandidate) :
    List ContentCandidate :=
  let cands := raws.enum.map fun p => mkCandidate (fresh p.1) p.2
  (dedupeCandidates cands).mergeSort rankLE

/-! ## Service data model

State-carrying part of `BrandStudioService`.  Python dicts become
insertion-ordered association lists, timestamps become integer seconds,
generated ids become explicit fresh-name parameters and the external
connectors / LLM become oracle functions. -/

inductive PublishStatus
  | draft
  | ready
  | queued
  | published
  | failed
  | cancelled
deriving DecidableEq, Repr, Inhabited

inductive PublishMode
  | manual
  | auto
deriving DecidableEq, Repr, Inhabited

structure PublishQueueItem where
  item_id : String
  draft_id : String
  target_channel : String
  target_language : Option String
  target : Option String
  target_repo : Option String
  target_path : Option String
  account_id : Option String
  account_display_name : Option String
  payload : String
  status : PublishStatus
  created_at : Int
  updated_at : Int
  campaign_id : Option String
  scheduled_at : Option Int
  publish_mode : PublishMode
deriving DecidableEq, Repr

structure ChannelAccount where
  account_id : String
  channel : String
  display_name : String
  target : Option String
  enabled : Bool
  is_default : Bool
  role : String
  successful_publishes : Nat
  failed_publishes : Nat
  last_published_at : Option Int
  last_publish_status : Option String
  last_publish_message : Option String
deriving DecidableEq, Repr

structure DraftVariant where
  channel : String
  language : String
  content : String
  account_id : Option String := none
deriving DecidableEq, Repr

structure DraftBundle where
  draft_id : String
  candidate_id : String
  variants : List DraftVariant
  campaign_id : Option String
deriving DecidableEq, Repr, Inhabited

/-- One audit row as appended by `_add_audit`; the generated row id,
payload hash and timestamp are elided (no claim depends on them). -/
structure AuditEntry where
  actor : String
  action : String
  status : String
  payload : String
deriving DecidableEq, Repr

structure StrategyConfig where
  id : String
  name : String
  discovery_mode : String
  rss_urls : List String
  topic_keywords : List String
  cache_ttl_seconds : Int
  min_score : ℚ
  limit : Nat
  active_channels : List String
  draft_languages : List String
  default_accounts : List (String × String)
deriving DecidableEq, Repr

/-- The draft-cache key.  `_draft_cache_key` serializes the tuple as
canonical JSON with `tone or ""` and `campaign_id or ""`; two keys are
equal exactly when those serializations are, so the key is modelled as the
tuple itself with the `None → ""` collapses applied. -/
structure DraftCacheKey where
  candidate_id : String
  channels : List String
  languages : List String
  tone : String
  campaign_id : String
deriving DecidableEq, Repr

def draftCacheKey (candidate_id : String) (channels languages : List String)
    (tone campaign_id : Option String) : DraftCacheKey :=
  ⟨candidate_id, channels, languages, tone.getD "", campaign_id.getD ""⟩

structure ServiceState where
  candidates : List ContentCandidate
  drafts : List (String × DraftBundle)
  draft_cache : List (DraftCacheKey × String × Int)
  queue : List PublishQueueItem
  accounts : List (String × List ChannelAccount)
  audit : List AuditEntry
  activeStrategy : StrategyConfig
deriving DecidableEq, Repr

def SUPPORTED_CHANNELS : List String :=
  ["x", "github", "blog", "linkedin", "medium", "hf_blog", "hf_spaces",
   "reddit", "devto", "hashnode"]

/-- Python `a or b` on optional strings (`""` and `None` are falsy). -/
def orStr : Option String → Option String → Option String
  | some s, b => if s = "" then b else some s
  | none, b => b

/-- Dict write `d[k] = v` on an insertion-ordered association list. -/
def aupsert {α β : Type} [DecidableEq α] (k : α) (v : β) :
    List (α × β) → List (α × β)
  | [] => [(k, v)]
  | (k', v') :: t => if k' = k then (k, v) :: t else (k', v') :: aupsert k v t

/-! ## Account helpers -/

/-- `service._default_account_for_channel`. -/
def defaultAccountForChannel (accounts : List (String × List ChannelAccount))
    (channel : String) : Option ChannelAccount :=
  let accs := (accounts.lookup channel).getD []
  if accs.isEmpty then none
  else
    match accs.find? (fun a => a.is_default && a.enabled) with
    | some a => some a
    | none => accs.find? (fun a => a.enabled)

inductive QueueError
  | draftNotFound
  | variantNotFound
  | accountNotFound
deriving DecidableEq, Repr

/-- The fallback chain of `_resolve_account_for_queue` when no explicit
account id is given: the active strategy's configured default for the
channel when that id exists there, else `_default_account_for_channel`. -/
def resolveAccountFallback (accounts : List (String × List ChannelAccount))
    (strategy : StrategyConfig) (channel : String) : Option ChannelAccount :=
  let accs := (accounts.lookup channel).getD []
  match strategy.default_accounts.lookup channel with
  | some sid =>
    if sid ≠ "" then
      match accs.find? (fun a => a.account_id = sid) with
      | some a => some a
      | none => defaultAccountForChannel accounts channel
    else defaultAccountForChannel accounts channel
  | none => defaultAccountForChannel accounts channel

/-- `service._resolve_account_for_queue`. -/
def resolveAccountForQueue (accounts : List (String × List ChannelAccount))
    (strategy : StrategyConfig) (target_channel : String) (account_id : Option String) :
    Except QueueError (Option ChannelAccount) :=
  if target_channel ∈ SUPPORTED_CHANNELS then
    let accs := (accounts.lookup target_channel).getD []
    match account_id with
    | some aid =>
      if aid ≠ "" then
        match accs.find? (fun a => a.account_id = aid) with
        | none => .error .accountNotFound
        | some a => .ok (some a)
      else .ok (resolveAccountFallback accounts strategy target_channel)
    | none => .ok (resolveAccountFallback accounts strategy target_channel)
  else .ok none

/-! ## Variant selection and queueing -/

/-- `service._choose_variant`. -/
def chooseVariant (bundle : DraftBundle) (target_channel : String)
    (target_language : Option String) (account_id : Option String) : Option DraftVariant :=
  let variants := bundle.variants.filter fun (v : DraftVariant) =>
    decide (v.channel = target_channel)
  let variants :=
    match target_language with
    | some lang =>
      if lang ≠ "" then
        let lang_match := variants.filter fun (v : DraftVariant) => decide (v.language = lang)
        if lang_match.isEmpty then variants else lang_match
      else variants
    | none => variants
  if variants.isEmpty then none
  else
    let primaryOrFirst :=
      match variants.find? (fun (v : DraftVariant) => decide (v.account_id = none)) with
      | some v => some v
      | none => variants.head?
    match account_id with
    | some aid =>
      if aid ≠ "" then
        match variants.find? (fun (v : DraftVariant) => decide (v.account_id = some aid)) with
        | some v => some v
        | none => primaryOrFirst
      else primaryOrFirst
    | none => primaryOrFirst

/-- `service._default_target_path` (the current date stamp is passed in). -/
def defaultTargetPath (dateStamp channel : String) : String :=
  if channel = "blog" then "content/brand-studio/" ++ dateStamp ++ "-brand-studio.md"
  else "notes/brand-studio/" ++ dateStamp ++ "-brand-studio.md"

/-- `service.queue_draft`.  Returns the created item and the new state, or
the typed error raised before any mutation. -/
def queueDraft (S : ServiceState) (now : Int) (dateStamp fresh_item_id : String)
    (draft_id target_channel : String)
    (target_language target target_repo target_path payload_override : Option String)
    (actor : String) (account_id : Option String) (campaign_id : Option String)
    (scheduled_at : Option Int) (publish_mode : PublishMode)
    (env_brand_target_repo : Option String) :
    Except QueueError (PublishQueueItem × ServiceState) :=
  match S.drafts.lookup draft_id with
  | none => .error .draftNotFound
  | some bundle =>
    match chooseVariant bundle target_channel target_language account_id with
    | none => .error .variantNotFound
    | some variant =>
      match resolveAccountForQueue S.accounts S.activeStrategy target_channel account_id with
      | .error e => .error e
      | .ok selected =>
        let payload := (orStr payload_override (some variant.content)).getD ""
        let resolved_target :=
          orStr target (orStr target_repo
            (orStr (selected.bind fun a => a.target) env_brand_target_repo))
        let item : PublishQueueItem :=
          { item_id := fresh_item_id
            draft_id := draft_id
            target_channel := target_channel
            target_language := some variant.language
            target := resolved_target
            target_repo := resolved_target
            target_path := some ((orStr target_path
              (some (defaultTargetPath dateStamp target_channel))).getD "")
            account_id := selected.map fun a => a.account_id
            account_display_name := selected.map fun a => a.display_name
            payload := payload
            status := .queued
            created_at := now
            updated_at := now
            campaign_id := campaign_id
            scheduled_at := scheduled_at
            publish_mode := publish_mode }
        let audit_payload :=
          match campaign_id with
          | some cid =>
            if cid ≠ "" then target_channel ++ ":" ++ fresh_item_id ++ ":campaign=" ++ cid
            else target_channel ++ ":" ++ fresh_item_id
          | none => target_channel ++ ":" ++ fresh_item_id
        .ok (item,
          { S with
            queue := S.queue ++ [item]
            audit := S.audit ++ [⟨actor, "queue.create", "queued", audit_payload⟩] })

/-! ## Publishing -/

structure ConnectorResult where
  external_id : Option String
  url : Option String
  message : String
deriving DecidableEq, Repr

/-- External connector oracles: `none` models an unconfigured publisher,
`.error msg` a raised connector exception with text `msg`. -/
structure PublishEnv where
  github : Option (PublishQueueItem → Except String ConnectorResult)
  devto : Option (PublishQueueItem → Except String ConnectorResult)
  reddit : Option (PublishQueueItem → Except String ConnectorResult)
  hashnode : Option (PublishQueueItem → Except String ConnectorResult)
  linkedin : Option (PublishQueueItem → Except String ConnectorResult)
  medium : Option (PublishQueueItem → Except String ConnectorResult)
  hf : Option (PublishQueueItem → Except String ConnectorResult)

structure PublishResult where
  success : Bool
  status : PublishStatus
  published_at : Int
  external_id : Option String := none
  url : Option String := none
  message : String
deriving DecidableEq, Repr, Inhabited

inductive PublishError
  | itemNotFound
  | confirmRequired
  | alreadyPublished
deriving DecidableEq, Repr

/-- `service._record_account_publish_result`. -/
def recordAccountPublishResult (accounts : List (String × List ChannelAccount))
    (item : PublishQueueItem) (status message : String) (published_at : Int) :
    List (String × List ChannelAccount) :=
  match item.account_id with
  | none => accounts
  | some aid =>
    if aid = "" ∨ item.target_channel ∉ SUPPORTED_CHANNELS then accounts
    else
      let accs := (accounts.lookup item.target_channel).getD []
      match accs.find? (fun a => a.account_id = aid) with
      | none => accounts
      | some account =>
        let account' :=
          { account with
            last_published_at := some published_at
            last_publish_status := some (if status = "published" then "published" else "failed")
            last_publish_message := some message
            successful_publishes :=
              if status = "published" then account.successful_publishes + 1
              else account.successful_publishes
            failed_publishes :=
              if status = "published" then account.failed_publishes
              else account.failed_publishes + 1 }
        aupsert item.target_channel
          (accs.map fun a => if a.account_id = aid then account' else a) accounts

/-- The per-branch outcome of the publish dispatch: the item's new status,
the audit row written, the arguments of the account bookkeeping call, and
the returned `PublishResult`. -/
structure DispatchOutcome where
  newStatus : PublishStatus
  auditStatus : String
  auditPayload : String
  accountMessage : String
  result : PublishResult
deriving Repr

/-- The block repeated verbatim for every real connector channel in
`publish_queue_item` (missing publisher ⇒ failed with a channel-specific
"not configured" message; present publisher ⇒ success marks published with
the returned ids, an exception marks failed with the exception text). -/
def dispatchReal (publisher : Option (PublishQueueItem → Except String ConnectorResult))
    (item : PublishQueueItem) (now : Int)
    (notConfiguredResultMsg notConfiguredAuditTag notConfiguredAccountMsg failMsgHead : String) :
    DispatchOutcome :=
  match publisher with
  | none =>
    { newStatus := .failed
      auditStatus := "failed"
      auditPayload := item.item_id ++ ":" ++ notConfiguredAuditTag
      accountMessage := notConfiguredAccountMsg
      result := { success := false, status := .failed, published_at := now
                  message := notConfiguredResultMsg } }
  | some pub =>
    match pub item with
    | .ok r =>
      { newStatus := .published
        auditStatus := "published"
        auditPayload := item.target_channel ++ ":" ++ item.item_id
        accountMessage := r.message
        result := { success := true, status := .published, published_at := now
                    external_id := r.external_id, url := r.url, message := r.message } }
    | .error exc =>
      { newStatus := .failed
        auditStatus := "failed"
        auditPayload := item.item_id ++ ":" ++ exc
        accountMessage := failMsgHead ++ exc
        result := { success := false, status := .failed, published_at := now
                    message := failMsgHead ++ exc } }

/-- The channel dispatch of `publish_queue_item` (everything after the
three guard checks). -/
def dispatchChannel (env : PublishEnv) (item : PublishQueueItem) (now : Int) :
    DispatchOutcome :=
  let ch := item.target_channel
  if ch = "github" ∨ ch = "blog" then
    dispatchReal env.github item now
      "GitHub publisher not configured (set GITHUB_TOKEN_BRAND and BRAND_TARGET_REPO)"
      "github_not_configured" "GitHub publisher not configured" "GitHub publish failed: "
  else if ch = "devto" then
    dispatchReal env.devto item now
      "Dev.to publisher not configured (set DEVTO_API_KEY)"
      "devto_not_configured" "Dev.to publisher not configured" "Dev.to publish failed: "
  else if ch = "reddit" then
    dispatchReal env.reddit item now
      "Reddit publisher not configured (set REDDIT_CLIENT_ID, REDDIT_CLIENT_SECRET, REDDIT_REFRESH_TOKEN)"
      "reddit_not_configured" "Reddit publisher not configured" "Reddit publish failed: "
  else if ch = "hashnode" then
    dispatchReal env.hashnode item now
      "Hashnode publisher not configured (set HASHNODE_TOKEN)"
      "hashnode_not_configured" "Hashnode publisher not configured" "Hashnode publish failed: "
  else if ch = "linkedin" then
    dispatchReal env.linkedin item now
      "LinkedIn publisher not configured (set LINKEDIN_ACCESS_TOKEN)"
      "linkedin_not_configured" "LinkedIn publisher not configured" "LinkedIn publish failed: "
  else if ch = "medium" then
    dispatchReal env.medium item now
      "Medium publisher not configured (set MEDIUM_TOKEN)"
      "medium_not_configured" "Medium publisher not configured" "Medium publish failed: "
  else if ch = "hf_blog" ∨ ch = "hf_spaces" then
    dispatchReal env.hf item now
      "HF publisher not configured (set HF_TOKEN)"
      "hf_not_configured" "HF publisher not configured" "HF publish failed: "
  else if ch = "x" then
    { newStatus := .published
      auditStatus := "manual"
      auditPayload := item.item_id ++ ":" ++ ch
      accountMessage := "X publish marked as manual-complete in MVP"
      result := { success := true, status := .published, published_at := now
                  external_id := some ("manual-" ++ item.item_id)
                  message := "X publish marked as manual-complete in MVP" } }
  else
    { newStatus := .failed
      auditStatus := "failed"
      auditPayload := item.item_id ++ ":" ++ ch ++ "_connector_not_implemented"
      accountMessage := "Connector for channel '" ++ ch ++ "' is not implemented yet"
      result := { success := false, status := .failed, published_at := now
                  message := "Connector for channel '" ++ ch ++ "' is not implemented yet" } }

def setItemStatus (queue : List PublishQueueItem) (item_id : String)
    (st : PublishStatus) (now : Int) : List PublishQueueItem :=
  queue.map fun it =>
    if it.item_id = item_id then { it with status := st, updated_at := now } else it

/-- The account-bookkeeping status string passed by the source at each
outcome (`"published"` on success branches, `"failed"` otherwise). -/
def accountStatusOf (st : PublishStatus) : String :=
  if st = .published then "published" else "failed"

/-- `service.publish_queue_item`.  Returns the `PublishResult` (or the
typed error, raised before any mutation) together with the new state. -/
def publishQueueItem (env : PublishEnv) (S : ServiceState) (now : Int)
    (item_id : String) (confirm_publish : Bool) (actor : String) :
    Except PublishError PublishResult × ServiceState :=
  match S.queue.find? (fun it => it.item_id = item_id) with
  | none => (.error .itemNotFound, S)
  | some item =>
    if ¬confirm_publish then (.error .confirmRequired, S)
    else if item.status = .published then (.error .alreadyPublished, S)
    else
      let o := dispatchChannel env item now
      let S' :=
        { S with
          queue := setItemStatus S.queue item_id o.newStatus now
          audit := S.audit ++ [⟨actor, "queue.publish", o.auditStatus, o.auditPayload⟩]
          accounts := recordAccountPublishResult S.accounts item
            (accountStatusOf o.newStatus) o.accountMessage now }
      (.ok o.result, S')

/-! ## Scheduler -/

def isDue (now : Int) (it : PublishQueueItem) : Bool :=
  decide (it.status = .queued) && decide (it.publish_mode = .auto) &&
    (match it.scheduled_at with
     | some t => decide (t ≤ now)
     | none => false)

/-- One iteration of the `process_scheduled_queue` loop: publish the item
through the normal path with `confirm_publish=True` and actor
`"system:scheduler"`; count the call when it did not raise. -/
def schedulerStep (env : PublishEnv) (now : Int) (acc : Nat × ServiceState)
    (iid : String) : Nat × ServiceState :=
  let r := publishQueueItem env acc.2 now iid true "system:scheduler"
  match r.1 with
  | .ok _ => (acc.1 + 1, r.2)
  | .error _ => (acc.1, r.2)

/-- `service.process_scheduled_queue`: sweep all due auto-publish items. -/
def processScheduledQueue (env : PublishEnv) (S : ServiceState) (now : Int) :
    Nat × ServiceState :=
  let due_item_ids := (S.queue.filter (isDue now)).map fun it => it.item_id
  due_item_ids.foldl (schedulerStep env now) (0, S)

/-! ## Draft generation (`service.generate_draft`) -/

inductive DraftError
  | candidateNotFound
deriving DecidableEq, Repr

/-- The LLM collaborator: `enabled` mirrors `self._llm_client.enabled`;
`generate` returns the generated text or the text of the raised
exception. -/
structure LlmEnv where
  enabled : Bool
  generate : String → Except String String

/-- `service._fallback_primary_content`. -/
def fallbackPrimaryContent (candidate_topic candidate_summary language : String)
    (tone : Option String) : String :=
  let tone_suffix :=
    match tone with
    | some t => if t ≠ "" then " (" ++ t ++ ")" else ""
    | none => ""
  if language = "pl" then
    stripStr (candidate_topic ++ ": " ++ candidate_summary ++ " " ++
      "Moja perspektywa inżynierska i praktyczne wnioski." ++ tone_suffix)
  else
    stripStr (candidate_topic ++ ": " ++ candidate_summary ++ " " ++
      "My engineering perspective with practical takeaways." ++ tone_suffix)

/-- `service._build_primary_prompt`. -/
def buildPrimaryPrompt (candidate_topic candidate_summary candidate_url channel
    language : String) (tone : Option String) : String :=
  let toneStr := (orStr tone (some "expert")).getD ""
  if language = "pl" then
    "Role: primary\n" ++
    "Jesteś ekspertem budującym markę osobistą inżyniera AI.\n" ++
    "Napisz merytoryczny post ekspercki do publikacji.\n" ++
    "Kanał: " ++ channel ++ "\n" ++
    "Język: " ++ language ++ "\n" ++
    "Ton: " ++ toneStr ++ "\n" ++
    "Temat: " ++ candidate_topic ++ "\n" ++
    "Streszczenie: " ++ candidate_summary ++ "\n" ++
    "Źródło: " ++ candidate_url ++ "\n" ++
    "Wymagania: 1) konkret i praktyczne wnioski, 2) naturalny styl, " ++
    "3) bez nagłówków markdown i bez list numerowanych."
  else
    "Role: primary\n" ++
    "You are an AI engineering expert building a personal brand.\n" ++
    "Write a full expert post ready for publication.\n" ++
    "Channel: " ++ channel ++ "\n" ++
    "Language: " ++ language ++ "\n" ++
    "Tone: " ++ toneStr ++ "\n" ++
    "Topic: " ++ candidate_topic ++ "\n" ++
    "Summary: " ++ candidate_summary ++ "\n" ++
    "Source: " ++ candidate_url ++ "\n" ++
    "Requirements: 1) practical insight, 2) professional engaging tone, " ++
    "3) no markdown headers and no numbered lists."

/-- `service._truncate_for_supporting_prompt`. -/
def truncateForSupportingPrompt (text : String) : String :=
  let trimmed := stripStr text
  if trimmed.length ≤ 1000 then trimmed
  else rstripStr ⟨trimmed.data.take 1000⟩ ++ "..."

/-- `service._fallback_supporting_content`. -/
def fallbackSupportingContent (source_ref candidate_topic candidate_url
    primary_content language : String) : String :=
  if language = "pl" then
    stripStr ("Cytując " ++ source_ref ++ ": " ++ candidate_topic ++ ". " ++
      "Oryginalne źródło wiedzy: " ++ candidate_url ++ " | " ++ primary_content)
  else
    stripStr ("Quoting " ++ source_ref ++ ": " ++ candidate_topic ++ ". " ++
      "Original knowledge source: " ++ candidate_url ++ " | " ++ primary_content)

/-- `service._build_supporting_prompt`. -/
def buildSupportingPrompt (source_ref candidate_topic candidate_summary candidate_url
    primary_content channel language : String) (tone : Option String) : String :=
  let shortened_primary := truncateForSupportingPrompt primary_content
  let toneStr := (orStr tone (some "short")).getD ""
  if language = "pl" then
    "Role: supporting\n" ++
    "Napisz teaser/cytat promujący główny wpis.\n" ++
    "Kanał: " ++ channel ++ "\n" ++
    "Język: " ++ language ++ "\n" ++
    "Ton: " ++ toneStr ++ "\n" ++
    "Marka źródłowa: " ++ source_ref ++ "\n" ++
    "Temat: " ++ candidate_topic ++ "\n" ++
    "Streszczenie: " ++ candidate_summary ++ "\n" ++
    "Oryginalny wpis URL: " ++ candidate_url ++ "\n" ++
    "Kontekst głównego wpisu: " ++ shortened_primary ++ "\n" ++
    "Wymagania: max 2-3 zdania, musi zawierać zwrot 'Oryginalne źródło wiedzy: <URL>'."
  else
    "Role: supporting\n" ++
    "Write a short teaser/quote that redirects traffic to the primary post.\n" ++
    "Channel: " ++ channel ++ "\n" ++
    "Language: " ++ language ++ "\n" ++
    "Tone: " ++ toneStr ++ "\n" ++
    "Primary source brand: " ++ source_ref ++ "\n" ++
    "Topic: " ++ candidate_topic ++ "\n" ++
    "Summary: " ++ candidate_summary ++ "\n" ++
    "Original post URL: " ++ candidate_url ++ "\n" ++
    "Primary post context: " ++ shortened_primary ++ "\n" ++
    "Requirements: max 2-3 sentences, include 'Original knowledge source: <URL>'."

/-- `service._ensure_supporting_attribution`. -/
def ensureSupportingAttribution (text language candidate_url : String) : String :=
  let normalized := lowerStr text
  let normalized_url := lowerStr candidate_url
  let has_url := strContains normalized normalized_url
  if language = "pl" then
    let has_phrase := strContains normalized "oryginalne źródło wiedzy"
    if has_phrase && has_url then text
    else rstripStr text ++ "\n\nOryginalne źródło wiedzy: " ++ candidate_url
  else
    let has_phrase := strContains normalized "original knowledge source"
    if has_phrase && has_url then text
    else rstripStr text ++ "\n\nOriginal knowledge source: " ++ candidate_url

/-- `service._generate_many_draft_texts_with_llm_fallback`.  Jobs are
`(job_key, prompt, fallback, audit_context)` tuples; a failed generation
is replaced by its fallback and logged.  The worker-pool completion order
is collapsed to job order (results are keyed, so the resolved mapping is
order-independent). -/
def generateManyDraftTexts (llm : LlmEnv) (actor : String)
    (jobs : List (String × String × String × String)) :
    List (String × String) × List AuditEntry :=
  if jobs.isEmpty then ([], [])
  else if !llm.enabled then (jobs.map fun j => (j.1, j.2.2.1), [])
  else
    jobs.foldl
      (fun acc j =>
        match llm.generate j.2.1 with
        | .ok t => (acc.1 ++ [(j.1, t)], acc.2)
        | .error exc =>
          (acc.1 ++ [(j.1, j.2.2.1)],
           acc.2 ++ [⟨actor, "draft.generate.llm", "fallback", j.2.2.2 ++ ":" ++ exc⟩]))
      ([], [])

/-- `service._get_cached_draft`: returns the live cached bundle for the
key, and the cache after the stale/orphan eviction it performs. -/
def getCachedDraft (cache : List (DraftCacheKey × String × Int))
    (drafts : List (String × DraftBundle)) (key : DraftCacheKey) (now ttl : Int) :
    Option DraftBundle × List (DraftCacheKey × String × Int) :=
  match cache.find? (fun e => decide (e.1 = key)) with
  | none => (none, cache)
  | some e =>
    if now - e.2.2 > ttl then (none, cache.filter fun e' => !decide (e'.1 = key))
    else
      match drafts.lookup e.2.1 with
      | none => (none, cache.filter fun e' => !decide (e'.1 = key))
      | some bundle => (some bundle, cache)

/-- `service._cleanup_draft_cache`. -/
def cleanupDraftCache (cache : List (DraftCacheKey × String × Int))
    (drafts : List (String × DraftBundle)) (now ttl : Int) :
    List (DraftCacheKey × String × Int) :=
  cache.filter fun e => (drafts.lookup e.2.1).isSome && !decide (now - e.2.2 > ttl)

/-- `service.generate_draft`. -/
def generateDraft (llm : LlmEnv) (S : ServiceState) (now ttl : Int)
    (fresh_draft_id : String) (candidate_id : String) (channels languages : List String)
    (tone : Option String) (actor : String) (campaign_id : Option String)
    (refresh : Bool) : Except DraftError (DraftBundle × ServiceState) :=
  match S.candidates.find? (fun c => decide (c.id = candidate_id)) with
  | none => .error .candidateNotFound
  | some candidate =>
    let cache_key := draftCacheKey candidate_id channels languages tone campaign_id
    let hit :=
      if refresh then (none, S.draft_cache)
      else getCachedDraft S.draft_cache S.drafts cache_key now ttl
    match hit.1 with
    | some cached =>
      .ok (cached,
        { S with
          draft_cache := hit.2
          audit := S.audit ++ [⟨actor, "draft.generate", "cached", cached.draft_id⟩] })
    | none =>
      let primary_jobs := channels.flatMap fun ch => languages.map fun lang =>
        (ch ++ ":" ++ lang,
         buildPrimaryPrompt candidate.topic candidate.summary candidate.url ch lang tone,
         fallbackPrimaryContent candidate.topic candidate.summary lang tone,
         "primary:" ++ ch ++ ":" ++ lang)
      let pr := generateManyDraftTexts llm actor primary_jobs
      let primary_content := pr.1
      let primaryVariants : List DraftVariant :=
        channels.flatMap fun ch => languages.map fun lang =>
          { channel := ch, language := lang
            content := (primary_content.lookup (ch ++ ":" ++ lang)).getD ""
            account_id := none }
      let supporting_jobs := channels.flatMap fun ch =>
        let channel_accounts := (S.accounts.lookup ch).getD []
        let primary_account := channel_accounts.find? fun a =>
          decide (a.role = "primary") && a.enabled
        (channel_accounts.filter fun a => decide (a.role = "supporting") && a.enabled).flatMap
          fun acc =>
            let source_ref :=
              match primary_account with
              | some pa => pa.display_name
              | none => candidate.url
            languages.map fun lang =>
              let base := (primary_content.lookup (ch ++ ":" ++ lang)).getD ""
              (ch ++ ":" ++ lang ++ ":" ++ acc.account_id,
               buildSupportingPrompt source_ref candidate.topic candidate.summary
                 candidate.url base ch lang tone,
               fallbackSupportingContent source_ref candidate.topic candidate.url base lang,
               "supporting:" ++ ch ++ ":" ++ lang ++ ":" ++ acc.account_id)
      let sr := generateManyDraftTexts llm actor supporting_jobs
      let supporting_content := sr.1
      let supportingVariants : List DraftVariant :=
        channels.flatMap fun ch =>
          (((S.accounts.lookup ch).getD []).filter fun a =>
            decide (a.role = "supporting") && a.enabled).flatMap fun acc =>
              languages.filterMap fun lang =>
                match supporting_content.lookup (ch ++ ":" ++ lang ++ ":" ++ acc.account_id) with
                | none => none
                | some teaser =>
                  some { channel := ch, language := lang
                         content := ensureSupportingAttribution teaser lang candidate.url
                         account_id := some acc.account_id }
      let variants := primaryVariants ++ supportingVariants
      let bundle : DraftBundle := ⟨fresh_draft_id, candidate_id, variants, campaign_id⟩
      let drafts' := aupsert fresh_draft_id bundle S.drafts
      let cache2 := cleanupDraftCache (aupsert cache_key (fresh_draft_id, now) hit.2)
        drafts' now ttl
      let audit_payload :=
        match campaign_id with
        | some cid =>
          if cid ≠ "" then fresh_draft_id ++ ":campaign=" ++ cid else fresh_draft_id
        | none => fresh_draft_id
      .ok (bundle,
        { S with
          drafts := drafts'
          draft_cache := cache2
          audit := S.audit ++ pr.2 ++ sr.2 ++
            [⟨actor, "draft.generate", "ok", audit_payload⟩] })

/-! ## Candidate listing filter (`service.list_candidates`) -/

/-- `service._channel_match`. -/
def channelMatch (source : String) (channel : Option String) : Bool :=
  match channel with
  | none => true
  | some ch =>
    let normalized : String := ⟨(lowerStr ch).data.filter fun c => 'a' ≤ c ∧ c ≤ 'z'⟩
    if normalized = "x" then source = "hn" ∨ source = "github" ∨ source = "rss"
    else if normalized = "github" then source = "github" ∨ source = "arxiv"
    else if normalized = "blog" then true
    else true

/-- `service._matches_topic_keywords`. -/
def matchesTopicKeywords (item : ContentCandidate) (keywords : List String) : Bool :=
  let normalized := keywords.filterMap fun v =>
    let s := stripStr v
    if s = "" then none else some (lowerStr s)
  if normalized.isEmpty then true
  else
    let text := String.intercalate " "
      [lowerStr item.topic, lowerStr item.summary, lowerStr item.url,
       String.intercalate " " (item.reasons.map lowerStr)]
    normalized.any fun kw => strContains text kw

/-- The pure filter/sort/limit core of `service.list_candidates` (the
refresh and scheduler side effects that precede it act on other state). -/
def listCandidatesFilter (cands : List ContentCandidate) (strategy : StrategyConfig)
    (channel lang : Option String) (limit : Nat) (min_score : Option ℚ) :
    List ContentCandidate :=
  let effective_min_score := min_score.getD strategy.min_score
  let effective_limit := min limit strategy.limit
  let items := cands.filter fun it =>
    decide (effective_min_score ≤ it.score) &&
    (match lang with
     | none => true
     | some l => decide (it.language = l)) &&
    channelMatch it.source channel &&
    matchesTopicKeywords it strategy.topic_keywords
  (items.mergeSort fun a b => decide (b.score ≤ a.score)).take effective_limit

/-! ## Publish state-machine lemmas -/

theorem dispatchReal_newStatus (pub : Option (PublishQueueItem → Except String ConnectorResult))
    (item : PublishQueueItem) (now : Int) (m t am f : String) :
    (dispatchReal pub item now m t am f).newStatus = .published ∨
      (dispatchReal pub item now m t am f).newStatus = .failed := by
  unfold dispatchReal
  cases pub with
  | none => simp
  | some p => cases hp : p item <;> simp [hp]

theorem dispatchChannel_newStatus (env : PublishEnv) (item : PublishQueueItem)
    (now : Int) :
    (dispatchChannel env item now).newStatus = .published ∨
      (dispatchChannel env item now).newStatus = .failed := by
  unfold dispatchChannel
  dsimp only
  split_ifs <;> first
    | exact dispatchReal_newStatus ..
    | simp

theorem dispatchReal_success (pub : Option (PublishQueueItem → Except String ConnectorResult))
    (item : PublishQueueItem) (now : Int) (m t am f : String)
    (h : (dispatchReal pub item now m t am f).result.success = true) :
    (dispatchReal pub item now m t am f).newStatus = .published := by
  cases pub with
  | none => simp [dispatchReal] at h
  | some p =>
    cases hp : p item with
    | ok r => simp [dispatchReal, hp]
    | error e => simp [dispatchReal, hp] at h

theorem dispatchChannel_success (env : PublishEnv) (item : PublishQueueItem) (now : Int)
    (h : (dispatchChannel env item now).result.success = true) :
    (dispatchChannel env item now).newStatus = .published := by
  unfold dispatchChannel at h ⊢
  dsimp only at h ⊢
  split_ifs at h ⊢ <;> first
    | exact dispatchReal_success _ _ _ _ _ _ _ h
    | rfl

theorem find?_setItemStatus (queue : List PublishQueueItem) (item_id : String)
    (st : PublishStatus) (now : Int) (item : PublishQueueItem)
    (h : queue.find? (fun it => it.item_id = item_id) = some item) :
    (setItemStatus queue item_id st now).find? (fun it => it.item_id = item_id)
      = some { item with status := st, updated_at := now } := by
  induction queue with
  | nil => simp at h
  | cons a t ih =>
    by_cases ha : a.item_id = item_id
    · rw [List.find?_cons_of_pos _ (by simp [ha])] at h
      cases h
      simp only [setItemStatus, List.map_cons]
      rw [if_pos ha, List.find?_cons_of_pos _ (by simp [ha])]
    · rw [List.find?_cons_of_neg _ (by simp [ha])] at h
      simp only [setItemStatus, List.map_cons]
      rw [if_neg ha, List.find?_cons_of_neg _ (by simp [ha])]
      exact ih h

/-- Structure of a successful `publish_queue_item` call: the found item,
the guard facts, and the exact shape of the new state. -/
theorem publishQueueItem_ok (env : PublishEnv) (S : ServiceState) (now : Int)
    (item_id actor : String) (r : PublishResult) (S' : ServiceState)
    (h : publishQueueItem env S now item_id true actor = (.ok r, S')) :
    ∃ item, S.queue.find? (fun it => it.item_id = item_id) = some item ∧
      item.status ≠ .published ∧
      r = (dispatchChannel env item now).result ∧
      S' = { S with
        queue := setItemStatus S.queue item_id (dispatchChannel env item now).newStatus now
        audit := S.audit ++ [⟨actor, "queue.publish", (dispatchChannel env item now).auditStatus,
          (dispatchChannel env item now).auditPayload⟩]
        accounts := recordAccountPublishResult S.accounts item
          (accountStatusOf (dispatchChannel env item now).newStatus)
          (dispatchChannel env item now).accountMessage now } := by
  unfold publishQueueItem at h
  cases hfind : S.queue.find? (fun it => it.item_id = item_id) with
  | none => rw [hfind] at h; simp at h
  | some item =>
    rw [hfind] at h
    by_cases hp : item.status = .published
    · simp [hp] at h
    · simp only [hp, if_false, not_true_eq_false, if_neg, ite_false] at h
      simp at h
      exact ⟨item, rfl, hp, h.1.symm, h.2.symm⟩

/-! ## Shared concrete fixtures for witnesses and counterexamples -/

deriving instance DecidableEq for Except

def exceptOk {ε α : Type} [Inhabited α] : Except ε α → α
  | .ok a => a
  | .error _ => default

def strategyZero : StrategyConfig :=
  { id := "default", name := "Default", discovery_mode := "stub", rss_urls := [],
    topic_keywords := [], cache_ttl_seconds := 600, min_score := 0, limit := 20,
    active_channels := ["x"], draft_languages := ["en"], default_accounts := [] }

def envNone : PublishEnv := ⟨none, none, none, none, none, none, none⟩

def mkItem (iid ch : String) (st : PublishStatus) (mode : PublishMode)
    (sched : Option Int) : PublishQueueItem :=
  { item_id := iid, draft_id := "draft-1", target_channel := ch,
    target_language := some "en", target := none, target_repo := none,
    target_path := some "notes/brand-studio/2026-01-01-brand-studio.md",
    account_id := none, account_display_name := none, payload := "content",
    status := st, created_at := 0, updated_at := 0, campaign_id := none,
    scheduled_at := sched, publish_mode := mode }

def stateWith (queue : List PublishQueueItem) : ServiceState :=
  { candidates := [], drafts := [], draft_cache := [], queue := queue,
    accounts := [], audit := [], activeStrategy := strategyZero }

/-! ## Claim C1 -/

set_option maxRecDepth 20000 in
/-- C1 counterexample: `publish_queue_item` does transition an item whose
status is `failed` (only `published` is guarded), so the claim that no item
outside status `queued` is ever transitioned by a publish call is false:
a concrete `failed` item on channel `x` is moved to `published`. -/
theorem publish_transitions_failed_item :
    (mkItem "queue-1" "x" .failed .manual none).status = .failed ∧
    ((publishQueueItem envNone (stateWith [mkItem "queue-1" "x" .failed .manual none]) 5
        "queue-1" true "tester").2.queue.map fun it => it.status) = [.published] := by
  with_unfolding_all decide

/-- C1 (amended): a successful `publish_queue_item` call starts only from
an item whose status is not `published` (in particular `queued` or a
re-publishable `failed`), ends with that item in `published` or `failed`,
and leaves every other queue item untouched. -/
theorem publish_status_transition (env : PublishEnv) (S : ServiceState) (now : Int)
    (item_id actor : String) (r : PublishResult) (S' : ServiceState)
    (item : PublishQueueItem)
    (hfind : S.queue.find? (fun it => it.item_id = item_id) = some item)
    (h : publishQueueItem env S now item_id true actor = (.ok r, S')) :
    item.status ≠ .published ∧
      (∀ it' ∈ S'.queue, it'.item_id = item_id →
        it'.status = .published ∨ it'.status = .failed) ∧
      (∀ it ∈ S.queue, it.item_id ≠ item_id → it ∈ S'.queue) := by
  obtain ⟨item', hfind', hst, hr, hS⟩ := publishQueueItem_ok env S now item_id actor r S' h
  rw [hfind] at hfind'
  cases hfind'
  refine ⟨hst, ?_, ?_⟩
  · intro it' hmem hid
    rw [hS] at hmem
    simp only [setItemStatus, List.mem_map] at hmem
    obtain ⟨it0, _, heq⟩ := hmem
    by_cases h0 : it0.item_id = item_id
    · rw [if_pos h0] at heq
      rw [← heq]
      exact dispatchChannel_newStatus env item now
    · rw [if_neg h0] at heq
      rw [← heq] at hid
      exact absurd hid h0
  · intro it hmem hid
    rw [hS]
    simp only [setItemStatus, List.mem_map]
    exact ⟨it, hmem, by rw [if_neg hid]⟩

def c1wState : ServiceState := stateWith [mkItem "queue-1" "x" .queued .manual none]

def c1wRun : Except PublishError PublishResult × ServiceState :=
  publishQueueItem envNone c1wState 0 "queue-1" true "tester"

set_option maxRecDepth 20000 in
theorem publish_status_transition_witness :
    (mkItem "queue-1" "x" .queued .manual none).status ≠ .published ∧
      (∀ it' ∈ c1wRun.2.queue, it'.item_id = "queue-1" →
        it'.status = .published ∨ it'.status = .failed) ∧
      (∀ it ∈ c1wState.queue, it.item_id ≠ "queue-1" → it ∈ c1wRun.2.queue) :=
  publish_status_transition envNone c1wState 0 "queue-1" "tester"
    (exceptOk c1wRun.1) c1wRun.2 (mkItem "queue-1" "x" .queued .manual none)
    (by with_unfolding_all decide) (by with_unfolding_all decide)

/-! ## Claim C2 -/

/-- C2: publishing a queue item twice with `confirm_publish=true` succeeds
at most once: after any successful publish (`success = true`), a second
publish of the same id is rejected with the distinct `already published`
error — regardless of the connector environment, time or actor of the
second call — and mutates nothing. -/
theorem publish_twice_rejected (env env2 : PublishEnv) (S : ServiceState)
    (now now2 : Int) (item_id actor actor2 : String) (r : PublishResult)
    (S' : ServiceState)
    (h : publishQueueItem env S now item_id true actor = (.ok r, S'))
    (hs : r.success = true) :
    publishQueueItem env2 S' now2 item_id true actor2
      = (.error .alreadyPublished, S') := by
  obtain ⟨item, hfind, hst, hr, hS⟩ := publishQueueItem_ok env S now item_id actor r S' h
  rw [hr] at hs
  have hpub : (dispatchChannel env item now).newStatus = .published :=
    dispatchChannel_success env item now hs
  have hfind2 : S'.queue.find? (fun it => it.item_id = item_id)
      = some { item with status := .published, updated_at := now } := by
    rw [hS]
    dsimp only
    rw [hpub]
    exact find?_setItemStatus S.queue item_id .published now item hfind
  unfold publishQueueItem
  rw [hfind2]
  simp

def c2wRun : Except PublishError PublishResult × ServiceState := c1wRun

set_option maxRecDepth 20000 in
theorem publish_twice_rejected_witness :
    publishQueueItem envNone c2wRun.2 7 "queue-1" true "tester2"
      = (.error .alreadyPublished, c2wRun.2) :=
  publish_twice_rejected envNone envNone c1wState 0 7 "queue-1" "tester" "tester2"
    (exceptOk c2wRun.1) c2wRun.2 (by with_unfolding_all decide)
    (by with_unfolding_all decide)

/-! ## Claim C3 -/

/-- C3: for every existing queue item, `publish_queue_item` with
`confirm_publish=false` fails with the distinct confirmation-required
error and returns the state entirely unchanged (the error is raised before
any dispatch or mutation, whatever the item's status). -/
theorem publish_requires_confirmation (env : PublishEnv) (S : ServiceState)
    (now : Int) (item_id actor : String) (item : PublishQueueItem)
    (h : S.queue.find? (fun it => it.item_id = item_id) = some item) :
    publishQueueItem env S now item_id false actor = (.error .confirmRequired, S) := by
  unfold publishQueueItem
  rw [h]
  simp

set_option maxRecDepth 20000 in
theorem publish_requires_confirmation_witness :
    publishQueueItem envNone c1wState 3 "queue-1" false "tester"
      = (.error .confirmRequired, c1wState) :=
  publish_requires_confirmation envNone c1wState 3 "queue-1" "tester"
    (mkItem "queue-1" "x" .queued .manual none) (by with_unfolding_all decide)

/-! ## Scheduler lemmas (claim C8) -/

theorem publishQueueItem_error (env : PublishEnv) (S : ServiceState) (now : Int)
    (iid : String) (confirm : Bool) (actor : String) (e : PublishError)
    (h : (publishQueueItem env S now iid confirm actor).1 = .error e) :
    (publishQueueItem env S now iid confirm actor).2 = S := by
  unfold publishQueueItem at h ⊢
  cases hfind : S.queue.find? (fun it => it.item_id = iid) with
  | none => simp
  | some item =>
    by_cases hc : confirm
    · by_cases hp : item.status = .published
      · simp [hc, hp, hfind]
      · simp [hc, hp, hfind] at h
    · simp [hc, hfind]

theorem find?_setItemStatus_ne (queue : List PublishQueueItem)
    (iid iid' : String) (st : PublishStatus) (now : Int) (hne : iid' ≠ iid) :
    (setItemStatus queue iid st now).find? (fun it => it.item_id = iid')
      = queue.find? (fun it => it.item_id = iid') := by
  induction queue with
  | nil => simp [setItemStatus]
  | cons a t ih =>
    simp only [setItemStatus, List.map_cons] at ih ⊢
    by_cases ha : a.item_id = iid
    · rw [if_pos ha]
      have hne' : ¬(a.item_id = iid') := by
        intro hcon
        exact hne (by rw [← hcon, ha])
      rw [List.find?_cons_of_neg _ (by simpa using hne'),
        List.find?_cons_of_neg _ (by simpa using hne')]
      exact ih
    · rw [if_neg ha]
      by_cases h' : a.item_id = iid'
      · rw [List.find?_cons_of_pos _ (by simpa using h'),
          List.find?_cons_of_pos _ (by simpa using h')]
      · rw [List.find?_cons_of_neg _ (by simpa using h'),
          List.find?_cons_of_neg _ (by simpa using h')]
        exact ih

theorem mem_setItemStatus_of_ne (queue : List PublishQueueItem)
    (iid : String) (st : PublishStatus) (now : Int) (it : PublishQueueItem)
    (hmem : it ∈ queue) (hne : it.item_id ≠ iid) :
    it ∈ setItemStatus queue iid st now := by
  simp only [setItemStatus, List.mem_map]
  exact ⟨it, hmem, by rw [if_neg hne]⟩

theorem schedulerStep_ok (env : PublishEnv) (now : Int) (n : Nat) (T : ServiceState)
    (iid : String) (item : PublishQueueItem)
    (hfind : T.queue.find? (fun it => it.item_id = iid) = some item)
    (hst : item.status ≠ .published) :
    ∃ st, (st = .published ∨ st = .failed) ∧
      (schedulerStep env now (n, T) iid).1 = n + 1 ∧
      (schedulerStep env now (n, T) iid).2.queue = setItemStatus T.queue iid st now ∧
      ∃ e : AuditEntry, e.actor = "system:scheduler" ∧
        (schedulerStep env now (n, T) iid).2.audit = T.audit ++ [e] := by
  have hrun : publishQueueItem env T now iid true "system:scheduler"
      = (.ok (dispatchChannel env item now).result,
        { T with
          queue := setItemStatus T.queue iid (dispatchChannel env item now).newStatus now
          audit := T.audit ++ [⟨"system:scheduler", "queue.publish",
            (dispatchChannel env item now).auditStatus,
            (dispatchChannel env item now).auditPayload⟩]
          accounts := recordAccountPublishResult T.accounts item
            (accountStatusOf (dispatchChannel env item now).newStatus)
            (dispatchChannel env item now).accountMessage now }) := by
    unfold publishQueueItem
    rw [hfind]
    simp [hst]
  refine ⟨(dispatchChannel env item now).newStatus,
    dispatchChannel_newStatus env item now, ?_, ?_, ?_⟩
  · simp [schedulerStep, hrun]
  · simp [schedulerStep, hrun]
  · exact ⟨⟨"system:scheduler", "queue.publish",
      (dispatchChannel env item now).auditStatus,
      (dispatchChannel env item now).auditPayload⟩, rfl, by simp [schedulerStep, hrun]⟩

/-- The scheduler's fold, generalized: from any state in which every listed
id names an item that is not already published, the sweep counts every id,
moves each listed item to a terminal status, leaves every other item
untouched and appends one `system:scheduler` audit row per id. -/
theorem scheduler_fold (env : PublishEnv) (now : Int) :
    ∀ (ids : List String) (T : ServiceState) (n0 : Nat),
    ids.Nodup →
    (∀ iid ∈ ids, ∃ item, T.queue.find? (fun it => it.item_id = iid) = some item ∧
        item.status ≠ .published) →
    (ids.foldl (schedulerStep env now) (n0, T)).1 = n0 + ids.length ∧
    (∀ iid, iid ∉ ids →
      (ids.foldl (schedulerStep env now) (n0, T)).2.queue.find?
        (fun it => it.item_id = iid) = T.queue.find? (fun it => it.item_id = iid)) ∧
    (∀ it ∈ T.queue, it.item_id ∉ ids →
      it ∈ (ids.foldl (schedulerStep env now) (n0, T)).2.queue) ∧
    (∀ iid ∈ ids, ∃ it',
      (ids.foldl (schedulerStep env now) (n0, T)).2.queue.find?
        (fun it => it.item_id = iid) = some it' ∧
      (it'.status = .published ∨ it'.status = .failed)) ∧
    (∃ es : List AuditEntry, (∀ e ∈ es, e.actor = "system:scheduler") ∧
      (ids.foldl (schedulerStep env now) (n0, T)).2.audit = T.audit ++ es ∧
      es.length = ids.length) := by
  intro ids
  induction ids with
  | nil =>
    intro T n0 _ _
    refine ⟨by simp, by simp, by simp, by simp, ⟨[], by simp, by simp, by simp⟩⟩
  | cons iid tl ih =>
    intro T n0 hnodup hids
    obtain ⟨item, hfind, hnp⟩ := hids iid (by simp)
    obtain ⟨st, hstterm, hn, hq, e, he, ha⟩ :=
      schedulerStep_ok env now n0 T iid item hfind hnp
    have hnodup' := (List.nodup_cons.mp hnodup).2
    have hhead : iid ∉ tl := (List.nodup_cons.mp hnodup).1
    set T' := (schedulerStep env now (n0, T) iid).2 with hT'
    have hids' : ∀ iid' ∈ tl, ∃ item',
        T'.queue.find? (fun it => it.item_id = iid') = some item' ∧
        item'.status ≠ .published := by
      intro iid' hmem
      obtain ⟨item', hfind', hnp'⟩ := hids iid' (by simp [hmem])
      have hne : iid' ≠ iid := fun hcon => hhead (hcon ▸ hmem)
      refine ⟨item', ?_, hnp'⟩
      rw [hq, find?_setItemStatus_ne T.queue iid iid' st now hne]
      exact hfind'
    have hfold : (iid :: tl).foldl (schedulerStep env now) (n0, T)
        = tl.foldl (schedulerStep env now) ((schedulerStep env now (n0, T) iid).1, T') := by
      simp [List.foldl_cons]
    obtain ⟨iha, ihb, ihc, ihd, ihe⟩ := ih T' ((schedulerStep env now (n0, T) iid).1)
      hnodup' hids'
    refine ⟨?_, ?_, ?_, ?_, ?_⟩
    · rw [hfold, iha, hn]
      simp [Nat.add_assoc, Nat.add_comm 1 tl.length]
    · intro iid' hnot
      have h1 : iid' ∉ tl := fun hc => hnot (by simp [hc])
      have h2 : iid' ≠ iid := fun hc => hnot (by simp [hc])
      rw [hfold, ihb iid' h1, hq, find?_setItemStatus_ne T.queue iid iid' st now h2]
    · intro it hmem hnot
      have h1 : it.item_id ∉ tl := fun hc => hnot (by simp [hc])
      have h2 : it.item_id ≠ iid := fun hc => hnot (by simp [hc])
      rw [hfold]
      refine ihc it ?_ h1
      rw [hq]
      exact mem_setItemStatus_of_ne T.queue iid st now it hmem h2
    · intro iid' hmem
      rcases List.mem_cons.mp hmem with hcase | hcase
      · subst hcase
        refine ⟨{ item with status := st, updated_at := now }, ?_, ?_⟩
        · rw [hfold, ihb iid' hhead, hq]
          exact find?_setItemStatus T.queue iid' st now item hfind
        · simpa using hstterm
      · exact hfold ▸ ihd iid' hcase
    · obtain ⟨es, hes1, hes2, hes3⟩ := ihe
      refine ⟨e :: es, ?_, ?_, by simp [hes3]⟩
      · intro x hx
        rcases List.mem_cons.mp hx with hc | hc
        · rw [hc]; exact he
        · exact hes1 x hc
      · rw [hfold, hes2, ha]
        simp

theorem find?_id_of_mem (q : List PublishQueueItem) (it : PublishQueueItem)
    (hmem : it ∈ q) (hnodup : (q.map fun x => x.item_id).Nodup) :
    q.find? (fun x => x.item_id = it.item_id) = some it := by
  induction q with
  | nil => simp at hmem
  | cons a t ih =>
    rw [List.map_cons, List.nodup_cons] at hnodup
    rcases List.mem_cons.mp hmem with rfl | hmem'
    · rw [List.find?_cons_of_pos _ (by simp)]
    · have hna : a.item_id ≠ it.item_id := by
        intro hc
        exact hnodup.1 (hc ▸ List.mem_map_of_mem _ hmem')
      rw [List.find?_cons_of_neg _ (by simpa using hna)]
      exact ih hmem' hnodup.2

theorem isDue_fields (now : Int) (it : PublishQueueItem) (h : isDue now it = true) :
    it.status = .queued ∧ it.publish_mode = .auto := by
  simp only [isDue, Bool.and_eq_true, decide_eq_true_eq] at h
  exact ⟨h.1.1, h.1.2⟩

/-! ## Claim C8 -/

def c8State : ServiceState := stateWith [mkItem "queue-1" "devto" .queued .auto (some 50)]

set_option maxRecDepth 20000 in
/-- C8 counterexample: `process_scheduled_queue` counts every publish call
that returns without raising, and a dispatch failure is returned as a
failed result, not an exception.  With one due `devto` item and no Dev.to
publisher configured, the sweep publishes nothing (the item ends `failed`)
yet returns `1`, so the returned value is the count of items attempted,
not of items successfully processed. -/
theorem scheduler_counts_failed_attempt :
    (processScheduledQueue envNone c8State 100).1 = 1 ∧
      ((processScheduledQueue envNone c8State 100).2.queue.map fun it => it.status)
        = [.failed] := by
  with_unfolding_all decide

/-- C8 (amended): `process_scheduled_queue` attempts exactly the items with
status `queued`, publish mode `auto` and a non-null `scheduled_at ≤ now`,
each through the normal publish path with `confirm_publish=true` and actor
`"system:scheduler"` (one scheduler audit row per attempt); a failure of
one item does not block the others; items not due are left untouched; every
due item ends in `published` or `failed`; and the returned count is the
number of attempts that did not raise — equal to the number of due items,
including those whose dispatch failed. -/
theorem process_scheduled_queue_spec (env : PublishEnv) (S : ServiceState) (now : Int)
    (hnodup : (S.queue.map fun it => it.item_id).Nodup) :
    (processScheduledQueue env S now).1 = (S.queue.filter (isDue now)).length ∧
    (∀ it ∈ S.queue, isDue now it = false →
      it ∈ (processScheduledQueue env S now).2.queue) ∧
    (∀ it ∈ S.queue, isDue now it = true → ∃ it',
      (processScheduledQueue env S now).2.queue.find? (fun x => x.item_id = it.item_id)
        = some it' ∧ (it'.status = .published ∨ it'.status = .failed)) ∧
    (∃ es : List AuditEntry, (∀ e ∈ es, e.actor = "system:scheduler") ∧
      (processScheduledQueue env S now).2.audit = S.audit ++ es ∧
      es.length = (S.queue.filter (isDue now)).length) := by
  have hsub : ((S.queue.filter (isDue now)).map fun it => it.item_id).Sublist
      (S.queue.map fun it => it.item_id) := (S.queue.filter_sublist).map _
  have hidsnodup : ((S.queue.filter (isDue now)).map fun it => it.item_id).Nodup :=
    hnodup.sublist hsub
  have hids : ∀ iid ∈ (S.queue.filter (isDue now)).map fun it => it.item_id,
      ∃ item, S.queue.find? (fun it => it.item_id = iid) = some item ∧
        item.status ≠ .published := by
    intro iid hmem
    obtain ⟨it, hit, rfl⟩ := List.mem_map.mp hmem
    have hdue := List.of_mem_filter hit
    have hq := (isDue_fields now it hdue).1
    refine ⟨it, find?_id_of_mem S.queue it (List.mem_of_mem_filter hit) hnodup, ?_⟩
    rw [hq]
    simp
  obtain ⟨ha, hb, hc, hd, he⟩ := scheduler_fold env now
    ((S.queue.filter (isDue now)).map fun it => it.item_id) S 0 hidsnodup hids
  have hnotmem : ∀ it ∈ S.queue, isDue now it = false →
      it.item_id ∉ (S.queue.filter (isDue now)).map fun x => x.item_id := by
    intro it hmem hnd hcon
    obtain ⟨it2, hit2, hid2⟩ := List.mem_map.mp hcon
    have heq : it2 = it := List.inj_on_of_nodup_map hnodup
      (List.mem_of_mem_filter hit2) hmem hid2
    rw [heq] at hit2
    rw [List.of_mem_filter hit2] at hnd
    simp at hnd
  have hP : processScheduledQueue env S now
      = ((S.queue.filter (isDue now)).map fun it => it.item_id).foldl
        (schedulerStep env now) (0, S) := rfl
  refine ⟨?_, ?_, ?_, ?_⟩
  · rw [hP, ha]
    simp
  · intro it hmem hnd
    rw [hP]
    exact hc it hmem (hnotmem it hmem hnd)
  · intro it hmem hdue
    rw [hP]
    exact hd it.item_id (List.mem_map_of_mem _ (List.mem_filter_of_mem hmem hdue))
  · obtain ⟨es, h1, h2, h3⟩ := he
    rw [hP]
    exact ⟨es, h1, h2, by simpa using h3⟩

def c8wState : ServiceState :=
  stateWith [mkItem "queue-1" "x" .queued .auto (some 10),
             mkItem "queue-2" "x" .queued .manual none]

theorem process_scheduled_queue_spec_witness :
    (processScheduledQueue envNone c8wState 100).1
        = (c8wState.queue.filter (isDue 100)).length ∧
    (∀ it ∈ c8wState.queue, isDue 100 it = false →
      it ∈ (processScheduledQueue envNone c8wState 100).2.queue) ∧
    (∀ it ∈ c8wState.queue, isDue 100 it = true → ∃ it',
      (processScheduledQueue envNone c8wState 100).2.queue.find?
        (fun x => x.item_id = it.item_id) = some it' ∧
      (it'.status = .published ∨ it'.status = .failed)) ∧
    (∃ es : List AuditEntry, (∀ e ∈ es, e.actor = "system:scheduler") ∧
      (processScheduledQueue envNone c8wState 100).2.audit = c8wState.audit ++ es ∧
      es.length = (c8wState.queue.filter (isDue 100)).length) :=
  process_scheduled_queue_spec envNone c8wState 100 (by with_unfolding_all decide)

/-! ## Account-resolution lemmas (claim C9) -/

theorem defaultAccount_none (accounts : List (String × List ChannelAccount))
    (channel : String) (h : defaultAccountForChannel accounts channel = none) :
    ∀ a ∈ (accounts.lookup channel).getD [], a.enabled = false := by
  intro a ha
  unfold defaultAccountForChannel at h
  by_cases he : ((accounts.lookup channel).getD []).isEmpty
  · rw [List.isEmpty_iff] at he
    rw [he] at ha
    simp at ha
  · simp only [he, if_false, ite_false, Bool.false_eq_true] at h
    cases hf : ((accounts.lookup channel).getD []).find?
        (fun a => a.is_default && a.enabled) with
    | some b => rw [hf] at h; simp at h
    | none =>
      rw [hf] at h
      simp only [] at h
      have := List.find?_eq_none.mp h a ha
      simpa using this

theorem defaultAccount_some (accounts : List (String × List ChannelAccount))
    (channel : String) (a : ChannelAccount)
    (h : defaultAccountForChannel accounts channel = some a) :
    a ∈ (accounts.lookup channel).getD [] ∧ a.enabled = true := by
  unfold defaultAccountForChannel at h
  by_cases he : ((accounts.lookup channel).getD []).isEmpty
  · simp [he] at h
  · simp only [he, if_false, ite_false, Bool.false_eq_true] at h
    cases hf : ((accounts.lookup channel).getD []).find?
        (fun a => a.is_default && a.enabled) with
    | some b =>
      rw [hf] at h
      simp only [Option.some.injEq] at h
      subst h
      refine ⟨List.mem_of_find?_eq_some hf, ?_⟩
      have := List.find?_some hf
      simp at this
      exact this.2
    | none =>
      rw [hf] at h
      simp only [] at h
      refine ⟨List.mem_of_find?_eq_some h, ?_⟩
      have := List.find?_some h
      simpa using this

theorem resolveFallback_none (accounts : List (String × List ChannelAccount))
    (strategy : StrategyConfig) (channel : String)
    (h : resolveAccountFallback accounts strategy channel = none) :
    ∀ a ∈ (accounts.lookup channel).getD [], a.enabled = false := by
  unfold resolveAccountFallback at h
  cases hs : strategy.default_accounts.lookup channel with
  | none =>
    rw [hs] at h
    dsimp only at h
    exact defaultAccount_none accounts channel h
  | some sid =>
    rw [hs] at h
    dsimp only at h
    by_cases hsid : sid = ""
    · rw [if_neg (by simp [hsid])] at h
      exact defaultAccount_none accounts channel h
    · rw [if_pos hsid] at h
      cases hf : ((accounts.lookup channel).getD []).find?
          (fun a => a.account_id = sid) with
      | some b => rw [hf] at h; simp at h
      | none => rw [hf] at h; exact defaultAccount_none accounts channel h

theorem resolveFallback_some (accounts : List (String × List ChannelAccount))
    (strategy : StrategyConfig) (channel : String) (a : ChannelAccount)
    (h : resolveAccountFallback accounts strategy channel = some a) :
    a ∈ (accounts.lookup channel).getD [] ∧
      (strategy.default_accounts.lookup channel = some a.account_id ∨
        a.enabled = true) := by
  unfold resolveAccountFallback at h
  cases hs : strategy.default_accounts.lookup channel with
  | none =>
    rw [hs] at h
    dsimp only at h
    obtain ⟨h1, h2⟩ := defaultAccount_some accounts channel a h
    exact ⟨h1, Or.inr h2⟩
  | some sid =>
    rw [hs] at h
    dsimp only at h
    by_cases hsid : sid = ""
    · rw [if_neg (by simp [hsid])] at h
      obtain ⟨h1, h2⟩ := defaultAccount_some accounts channel a h
      exact ⟨h1, Or.inr h2⟩
    · rw [if_pos hsid] at h
      cases hf : ((accounts.lookup channel).getD []).find?
          (fun x => x.account_id = sid) with
      | some b =>
        rw [hf] at h
        dsimp only at h
        cases h
        refine ⟨List.mem_of_find?_eq_some hf, Or.inl ?_⟩
        have := List.find?_some hf
        simp at this
        rw [this]
      | none =>
        rw [hf] at h
        dsimp only at h
        obtain ⟨h1, h2⟩ := defaultAccount_some accounts channel a h
        exact ⟨h1, Or.inr h2⟩

/-! ## Claim C9 -/

def c9acc1 : ChannelAccount :=
  { account_id := "acc-1", channel := "devto", display_name := "Main",
    target := none, enabled := false, is_default := true, role := "primary",
    successful_publishes := 0, failed_publishes := 0, last_published_at := none,
    last_publish_status := none, last_publish_message := none }

def c9acc2 : ChannelAccount :=
  { account_id := "acc-2", channel := "devto", display_name := "Second",
    target := none, enabled := true, is_default := false, role := "primary",
    successful_publishes := 0, failed_publishes := 0, last_published_at := none,
    last_publish_status := none, last_publish_message := none }

/-- C9 counterexample: with no strategy-configured default and no enabled
marked-default account for the channel, `_resolve_account_for_queue`
returns the first *enabled* account — here one that is not marked default —
rather than none, refuting the claimed fallback chain "strategy default,
else the channel's marked default account, else none". -/
theorem resolve_account_first_enabled_fallback :
    resolveAccountForQueue [("devto", [c9acc1, c9acc2])] strategyZero "devto" none
      = .ok (some c9acc2) ∧
    c9acc2.is_default = false ∧ c9acc1.is_default = true ∧
    strategyZero.default_accounts = [] := by
  with_unfolding_all decide

/-- C9 (amended): on a supported channel, a `queue_draft` call passing an
explicit account id that does not exist for that channel fails with the
account-not-found error — raised before any queue item is created (the
call returns no new state).  When no account id is passed, resolution never
fails; it yields either the strategy-configured default for the channel, or
an *enabled* account of the channel (the enabled marked-default first, else
the first enabled account), or none exactly when the channel has no enabled
account. -/
theorem queue_draft_account_resolution
    (S : ServiceState) (now : Int) (dateStamp fresh draft_id ch : String)
    (tl tgt trepo tpath po : Option String) (actor aid : String)
    (cid : Option String) (sch : Option Int) (pm : PublishMode)
    (envrepo : Option String) (bundle : DraftBundle) (variant : DraftVariant)
    (hch : ch ∈ SUPPORTED_CHANNELS) (haid : aid ≠ "")
    (hd : S.drafts.lookup draft_id = some bundle)
    (hv : chooseVariant bundle ch tl (some aid) = some variant)
    (hmissing : ((S.accounts.lookup ch).getD []).find?
        (fun a => a.account_id = aid) = none) :
    (queueDraft S now dateStamp fresh draft_id ch tl tgt trepo tpath po actor
      (some aid) cid sch pm envrepo = .error .accountNotFound) ∧
    (∀ accounts strategy channel,
      resolveAccountFallback accounts strategy channel = none →
      ∀ a ∈ (accounts.lookup channel).getD [], a.enabled = false) ∧
    (∀ accounts strategy channel a,
      resolveAccountFallback accounts strategy channel = some a →
      a ∈ (accounts.lookup channel).getD [] ∧
        (strategy.default_accounts.lookup channel = some a.account_id ∨
          a.enabled = true)) := by
  refine ⟨?_, resolveFallback_none, resolveFallback_some⟩
  unfold queueDraft
  simp only [hd, hv]
  simp [resolveAccountForQueue, hch, haid, hmissing]

def c9wVariant : DraftVariant :=
  { channel := "devto", language := "en", content := "text", account_id := none }

def c9wBundle : DraftBundle := ⟨"draft-1", "cand-1", [c9wVariant], none⟩

def c9wState : ServiceState :=
  { candidates := [], drafts := [("draft-1", c9wBundle)], draft_cache := [],
    queue := [], accounts := [], audit := [], activeStrategy := strategyZero }

theorem queue_draft_account_resolution_witness :
    (queueDraft c9wState 0 "2026-01-01" "queue-9" "draft-1" "devto" none none none
      none none "tester" (some "ghost") none none .manual none
      = .error .accountNotFound) ∧
    (∀ accounts strategy channel,
      resolveAccountFallback accounts strategy channel = none →
      ∀ a ∈ (accounts.lookup channel).getD [], a.enabled = false) ∧
    (∀ accounts strategy channel a,
      resolveAccountFallback accounts strategy channel = some a →
      a ∈ (accounts.lookup channel).getD [] ∧
        (strategy.default_accounts.lookup channel = some a.account_id ∨
          a.enabled = true)) :=
  queue_draft_account_resolution c9wState 0 "2026-01-01" "queue-9" "draft-1" "devto"
    none none none none none "tester" "ghost" none none .manual none c9wBundle
    c9wVariant (by decide) (by decide) (by decide) (by decide) (by decide)

/-! ## Draft-cache lemmas (claim C4) -/

instance : Inhabited ServiceState := ⟨stateWith []⟩

theorem lookup_aupsert {α β : Type} [DecidableEq α] [BEq α] [LawfulBEq α]
    (k : α) (v : β) (l : List (α × β)) : (aupsert k v l).lookup k = some v := by
  induction l with
  | nil => simp [aupsert, List.lookup]
  | cons q t ih =>
    obtain ⟨k', v'⟩ := q
    by_cases hk : k' = k
    · simp [aupsert, hk, List.lookup]
    · simp only [aupsert, hk, if_false, ite_false, List.lookup]
      rw [show (k == k') = false from beq_eq_false_iff_ne.mpr fun hc => hk hc.symm]
      exact ih

theorem find?_filter_aupsert {α β : Type} [DecidableEq α]
    (k : α) (v : β) (l : List (α × β)) (p : α × β → Bool) (hp : p (k, v) = true) :
    ((aupsert k v l).filter p).find? (fun e => decide (e.1 = k)) = some (k, v) := by
  induction l with
  | nil =>
    simp only [aupsert, List.filter_cons, hp, if_true, ite_true, List.filter_nil]
    rw [List.find?_cons_of_pos _ (by simp)]
  | cons q t ih =>
    obtain ⟨k', v'⟩ := q
    by_cases hk : k' = k
    · subst hk
      simp only [aupsert, if_pos rfl, List.filter_cons, hp, if_true, ite_true]
      rw [List.find?_cons_of_pos _ (by simp)]
    · simp only [aupsert, hk, if_false, ite_false, List.filter_cons]
      by_cases hq : p (k', v') = true
      · simp only [hq, if_true, ite_true]
        rw [List.find?_cons_of_neg _ (by simpa using hk)]
        exact ih
      · simp only [hq, if_false, Bool.false_eq_true, ite_false]
        exact ih

theorem generateDraft_miss (llm : LlmEnv) (S : ServiceState) (t1 ttl : Int)
    (fresh cid : String) (chans langs : List String) (tone : Option String)
    (actor : String) (camp : Option String) (cand : ContentCandidate)
    (b : DraftBundle) (S1 : ServiceState)
    (hcand : S.candidates.find? (fun c => c.id = cid) = some cand)
    (hmiss : (getCachedDraft S.draft_cache S.drafts
        (draftCacheKey cid chans langs tone camp) t1 ttl).1 = none)
    (h1 : generateDraft llm S t1 ttl fresh cid chans langs tone actor camp false
        = .ok (b, S1)) :
    b.draft_id = fresh ∧
    S1.candidates = S.candidates ∧
    S1.drafts = aupsert fresh b S.drafts ∧
    S1.draft_cache = cleanupDraftCache
      (aupsert (draftCacheKey cid chans langs tone camp) (fresh, t1)
        (getCachedDraft S.draft_cache S.drafts
          (draftCacheKey cid chans langs tone camp) t1 ttl).2)
      (aupsert fresh b S.drafts) t1 ttl := by
  unfold generateDraft at h1
  rw [hcand] at h1
  dsimp only at h1
  simp only [Bool.false_eq_true, ite_false, if_false] at h1
  rw [hmiss] at h1
  simp only [Except.ok.injEq, Prod.mk.injEq] at h1
  obtain ⟨hb, hs⟩ := h1
  subst hb
  subst hs
  exact ⟨rfl, rfl, rfl, rfl⟩

/-! ## Claim C4 -/

/-- C4 (amended): the cached-draft idempotence window is anchored at the
moment the cached bundle was *created*, not at the previous call.  When a
`generate_draft` call at time `t1` misses the cache and creates a bundle,
any identical call (same candidate, channels, languages, tone, campaign)
at `t2` with `t1 ≤ t2 ≤ t1 + ttl` returns the very same bundle — same
`draft_id` — mutating nothing but the audit log (no new bundle is
created). -/
theorem generate_draft_idempotent (llm llm2 : LlmEnv) (S : ServiceState)
    (t1 t2 ttl : Int) (fresh fresh2 cid : String) (chans langs : List String)
    (tone : Option String) (actor actor2 : String) (camp : Option String)
    (cand : ContentCandidate) (b : DraftBundle) (S1 : ServiceState)
    (hcand : S.candidates.find? (fun c => c.id = cid) = some cand)
    (hmiss : (getCachedDraft S.draft_cache S.drafts
        (draftCacheKey cid chans langs tone camp) t1 ttl).1 = none)
    (h1 : generateDraft llm S t1 ttl fresh cid chans langs tone actor camp false
        = .ok (b, S1))
    (h2 : t1 ≤ t2) (h3 : t2 - t1 ≤ ttl) :
    generateDraft llm2 S1 t2 ttl fresh2 cid chans langs tone actor2 camp false
      = .ok (b, { S1 with
          audit := S1.audit ++ [⟨actor2, "draft.generate", "cached", b.draft_id⟩] }) := by
  obtain ⟨hid, hcands, hdrafts, hcache⟩ := generateDraft_miss llm S t1 ttl fresh cid
    chans langs tone actor camp cand b S1 hcand hmiss h1
  have httl : (0 : Int) ≤ ttl := by omega
  have hlookup : (aupsert fresh b S.drafts).lookup fresh = some b := lookup_aupsert ..
  have hfind : S1.draft_cache.find?
      (fun e => decide (e.1 = draftCacheKey cid chans langs tone camp))
      = some (draftCacheKey cid chans langs tone camp, fresh, t1) := by
    rw [hcache]
    unfold cleanupDraftCache
    refine find?_filter_aupsert _ _ _ _ ?_
    simp only [hlookup, Option.isSome_some, Bool.true_and]
    simp only [Bool.not_eq_true', decide_eq_false_iff_not]
    omega
  have hget : getCachedDraft S1.draft_cache S1.drafts
      (draftCacheKey cid chans langs tone camp) t2 ttl = (some b, S1.draft_cache) := by
    unfold getCachedDraft
    rw [hfind]
    dsimp only
    rw [if_neg (by omega)]
    rw [hdrafts, hlookup]
  unfold generateDraft
  rw [show S1.candidates = S.candidates from hcands, hcand]
  dsimp only
  simp only [Bool.false_eq_true, ite_false, if_false]
  rw [hget]

def llmOff : LlmEnv := ⟨false, fun _ => .error "llm disabled"⟩

def c4Cand : ContentCandidate :=
  { id := "cand-1", source := "github", url := "https://example.org/a", topic := "t",
    summary := "s", language := "en", score := 0, age_minutes := 0,
    score_breakdown := ⟨0, 0, 0, 0, 0, []⟩, reasons := [] }

def c4State0 : ServiceState := { stateWith [] with candidates := [c4Cand] }

def c4run0 : Except DraftError (DraftBundle × ServiceState) :=
  generateDraft llmOff c4State0 0 86400 "draft-a" "cand-1" ["x"] ["en"] none
    "tester" none false

def c4S0 : ServiceState := (exceptOk c4run0).2

def c4run1 : Except DraftError (DraftBundle × ServiceState) :=
  generateDraft llmOff c4S0 86400 86400 "draft-b" "cand-1" ["x"] ["en"] none
    "tester" none false

def c4S1 : ServiceState := (exceptOk c4run1).2

def c4run2 : Except DraftError (DraftBundle × ServiceState) :=
  generateDraft llmOff c4S1 86401 86400 "draft-c" "cand-1" ["x"] ["en"] none
    "tester" none false

set_option maxRecDepth 40000 in
/-- C4 counterexample: the cache window is anchored at bundle creation, not
at the previous call.  A bundle is created at `t=0` with a 86400-second
TTL; an identical call at `t=86400` still hits the cache and returns
`draft-a`; a further identical call at `t=86401` — only one second after
the previous call, well within the TTL of "the first [call]" of the two —
misses (the bundle is now older than the TTL), evicts the entry and
creates a new bundle `draft-c`.  So two identical calls, the second within
the draft-cache TTL of the first, returned different `draft_id`s and a new
bundle was created. -/
theorem generate_draft_ttl_counterexample :
    (exceptOk c4run1).1.draft_id = "draft-a" ∧
    (exceptOk c4run2).1.draft_id = "draft-c" ∧
    ((86401 : Int) - 86400 ≤ 86400) ∧
    (c4S1.drafts.map fun p => p.1) = ["draft-a"] ∧
    ((exceptOk c4run2).2.drafts.map fun p => p.1) = ["draft-a", "draft-c"] := by
  with_unfolding_all decide

set_option maxRecDepth 40000 in
theorem generate_draft_idempotent_witness :
    generateDraft llmOff c4S0 3600 86400 "draft-b" "cand-1" ["x"] ["en"] none
      "tester2" none false
      = .ok ((exceptOk c4run0).1, { c4S0 with
          audit := c4S0.audit ++ [⟨"tester2", "draft.generate", "cached",
            (exceptOk c4run0).1.draft_id⟩] }) :=
  generate_draft_idempotent llmOff llmOff c4State0 0 3600 86400 "draft-a" "draft-b"
    "cand-1" ["x"] ["en"] none "tester" "tester2" none c4Cand (exceptOk c4run0).1 c4S0
    (by with_unfolding_all decide) (by with_unfolding_all decide)
    (by with_unfolding_all decide) (by decide) (by decide)

/-! ## Scorer lemmas (claims C6, C10) -/

theorem clip01_nonneg (x : ℚ) : 0 ≤ clip01 x := le_max_left 0 _

theorem clip01_le_one (x : ℚ) : clip01 x ≤ 1 :=
  max_le (by norm_num) (min_le_left 1 x)

theorem clip01_combo_le (r t a k : ℚ) (hr : r ≤ 1) (ht : t ≤ 1) (ha : a ≤ 1)
    (hk : 0 ≤ k) :
    clip01 ((40 / 100) * r + (25 / 100) * t + (25 / 100) * a - (20 / 100) * k)
      ≤ 9 / 10 := by
  unfold clip01
  apply max_le (by norm_num)
  exact le_trans (min_le_right _ _) (by linarith)

/-! ## Claim C6 -/

/-- C6: the scorer deterministically computes, from case-insensitive
substring hits of the fixed keyword sets over `topic ++ " " ++ summary`,
`relevance = clip(hits/6)`, `timeliness = clip(1 - age/1440)`,
`authority = clip(hits/5)`, `risk = clip(hits/2)` and
`final = clip(0.40·relevance + 0.25·timeliness + 0.25·authority −
0.20·risk)`, each sub-score clipped to [0,1]. -/
theorem score_breakdown_spec (topic summary : String) (age : Int) :
    (scoreBreakdown topic summary age).relevance
      = clip01 (((((["ai", "agent", "llm", "governance", "routing", "memory",
          "module"] : List String).filter fun kw =>
          strContains (lowerStr (topic ++ " " ++ summary)) kw).length : ℚ)) / 6) ∧
    (scoreBreakdown topic summary age).timeliness
      = clip01 (1 - (age : ℚ) / 1440) ∧
    (scoreBreakdown topic summary age).authority_fit
      = clip01 (((((["engineering", "runtime", "python", "devops", "architecture",
          "platform"] : List String).filter fun kw =>
          strContains (lowerStr (topic ++ " " ++ summary)) kw).length : ℚ)) / 5) ∧
    (scoreBreakdown topic summary age).risk_penalty
      = clip01 (((((["giveaway", "crypto moon", "viral trick", "spam"] :
          List String).filter fun kw =>
          strContains (lowerStr (topic ++ " " ++ summary)) kw).length : ℚ)) / 2) ∧
    (scoreBreakdown topic summary age).final_score
      = clip01 ((40 / 100) * (scoreBreakdown topic summary age).relevance
          + (25 / 100) * (scoreBreakdown topic summary age).timeliness
          + (25 / 100) * (scoreBreakdown topic summary age).authority_fit
          - (20 / 100) * (scoreBreakdown topic summary age).risk_penalty) ∧
    (0 ≤ (scoreBreakdown topic summary age).relevance ∧
      (scoreBreakdown topic summary age).relevance ≤ 1) ∧
    (0 ≤ (scoreBreakdown topic summary age).timeliness ∧
      (scoreBreakdown topic summary age).timeliness ≤ 1) ∧
    (0 ≤ (scoreBreakdown topic summary age).authority_fit ∧
      (scoreBreakdown topic summary age).authority_fit ≤ 1) ∧
    (0 ≤ (scoreBreakdown topic summary age).risk_penalty ∧
      (scoreBreakdown topic summary age).risk_penalty ≤ 1) ∧
    (0 ≤ (scoreBreakdown topic summary age).final_score ∧
      (scoreBreakdown topic summary age).final_score ≤ 1) :=
  ⟨rfl, rfl, rfl, rfl, rfl,
    ⟨clip01_nonneg _, clip01_le_one _⟩, ⟨clip01_nonneg _, clip01_le_one _⟩,
    ⟨clip01_nonneg _, clip01_le_one _⟩, ⟨clip01_nonneg _, clip01_le_one _⟩,
    ⟨clip01_nonneg _, clip01_le_one _⟩⟩

/-! ## Claim C10 -/

theorem mem_upsertMax (m : List ContentCandidate) (c x : ContentCandidate)
    (hx : x ∈ upsertMax m c) : x ∈ m ∨ x = c := by
  unfold upsertMax at hx
  cases hf : m.find? (fun e => candKey e = candKey c) with
  | none =>
    rw [hf] at hx
    rcases List.mem_append.mp hx with h | h
    · exact Or.inl h
    · exact Or.inr (by simpa using h)
  | some e =>
    rw [hf] at hx
    dsimp only at hx
    by_cases hs : e.score < c.score
    · rw [if_pos hs] at hx
      obtain ⟨y, hy, hxy⟩ := List.mem_map.mp hx
      by_cases hk : candKey y = candKey c
      · rw [if_pos hk] at hxy
        exact Or.inr hxy.symm
      · rw [if_neg hk] at hxy
        exact Or.inl (hxy ▸ hy)
    · rw [if_neg hs] at hx
      exact Or.inl hx

theorem foldl_upsert_subset (l : List ContentCandidate) :
    ∀ acc, ∀ x ∈ l.foldl upsertMax acc, x ∈ acc ∨ x ∈ l := by
  induction l with
  | nil => intro acc x hx; exact Or.inl hx
  | cons c t ih =>
    intro acc x hx
    rw [List.foldl_cons] at hx
    rcases ih (upsertMax acc c) x hx with h | h
    · rcases mem_upsertMax acc c x h with h' | h'
      · exact Or.inl h'
      · exact Or.inr (by simp [h'])
    · exact Or.inr (by simp [h])

theorem mem_dedupe (l : List ContentCandidate) (x : ContentCandidate)
    (hx : x ∈ dedupeCandidates l) : x ∈ l := by
  rcases foldl_upsert_subset l [] x hx with h | h
  · simp at h
  · exact h

theorem mem_normalizeAndRank (fresh : Nat → String) (raws : List RawCandidate)
    (c : ContentCandidate) (hc : c ∈ normalizeAndRankCandidates fresh raws) :
    ∃ p ∈ raws.enum, c = mkCandidate (fresh p.1) p.2 := by
  unfold normalizeAndRankCandidates at hc
  have hmem := (List.mergeSort_perm _ rankLE).mem_iff.mp hc
  have := mem_dedupe _ c hmem
  obtain ⟨p, hp, hpc⟩ := List.mem_map.mp this
  exact ⟨p, hp, hpc.symm⟩

/-- C10: every final score lies in [0, 9/10] — the positive weights sum to
0.90 and each sub-score is clipped to [0,1] before weighting — so every
candidate produced by the normalizer has score at most 9/10, and the
`list_candidates` filter with any `min_score` above 9/10 yields an empty
list. -/
theorem final_score_bounded :
    (∀ (topic summary : String) (age : Int),
      0 ≤ (scoreBreakdown topic summary age).final_score ∧
        (scoreBreakdown topic summary age).final_score ≤ 9 / 10) ∧
    (∀ (fresh : Nat → String) (raws : List RawCandidate),
      ∀ c ∈ normalizeAndRankCandidates fresh raws, c.score ≤ 9 / 10) ∧
    (∀ (cands : List ContentCandidate) (strategy : StrategyConfig)
      (channel lang : Option String) (limit : Nat) (m : ℚ),
      (∀ c ∈ cands, c.score ≤ 9 / 10) → 9 / 10 < m →
      listCandidatesFilter cands strategy channel lang limit (some m) = []) := by
  have hmain : ∀ (topic summary : String) (age : Int),
      0 ≤ (scoreBreakdown topic summary age).final_score ∧
        (scoreBreakdown topic summary age).final_score ≤ 9 / 10 := by
    intro topic summary age
    constructor
    · exact clip01_nonneg _
    · exact clip01_combo_le _ _ _ _ (clip01_le_one _) (clip01_le_one _)
        (clip01_le_one _) (clip01_nonneg _)
  refine ⟨hmain, ?_, ?_⟩
  · intro fresh raws c hc
    obtain ⟨p, _, hpc⟩ := mem_normalizeAndRank fresh raws c hc
    rw [hpc]
    exact (hmain _ _ _).2
  · intro cands strategy channel lang limit m hle hm
    have hfil : ∀ (p : ContentCandidate → Bool),
        (∀ a, p a = true → m ≤ a.score) → cands.filter p = [] := by
      intro p hp
      rw [List.filter_eq_nil_iff]
      intro a ha hpa
      have h1 := hp a hpa
      have h2 := hle a ha
      linarith
    unfold listCandidatesFilter
    dsimp only
    simp only [Option.getD_some]
    rw [hfil _ (fun a hpa => by
      simp only [Bool.and_eq_true, decide_eq_true_eq] at hpa
      exact hpa.1.1.1)]
    simp

theorem final_score_bounded_witness :
    listCandidatesFilter [c4Cand] strategyZero none none 5 (some (95 / 100)) = [] :=
  final_score_bounded.2.2 [c4Cand] strategyZero none none 5 (95 / 100)
    (by intro c hc; simp at hc; rw [hc]; norm_num [c4Cand]) (by norm_num)

/-! ## Dedup invariants (claim C5) -/

/-- Invariant of the `by_dedupe_key` dict build: the accumulator is drawn
from the processed prefix, holds exactly one entry per key seen so far,
each entry maximal for its key with all strictly earlier same-key records
strictly smaller (first-seen wins ties). -/
def DedupInv (processed acc : List ContentCandidate) : Prop :=
  (∀ x ∈ acc, x ∈ processed) ∧
  (acc.map candKey).Nodup ∧
  (∀ k, k ∈ processed.map candKey ↔ k ∈ acc.map candKey) ∧
  (∀ x ∈ acc, ∀ y ∈ processed, candKey y = candKey x → y.score ≤ x.score) ∧
  (∀ x ∈ acc, ∃ pre suf, processed = pre ++ x :: suf ∧
    ∀ y ∈ pre, candKey y = candKey x → y.score < x.score)

theorem map_candKey_replace (acc : List ContentCandidate) (c : ContentCandidate) :
    ((acc.map fun e' => if candKey e' = candKey c then c else e').map candKey)
      = acc.map candKey := by
  rw [List.map_map]
  apply List.map_congr_left
  intro y _
  by_cases h : candKey y = candKey c
  · simp [Function.comp, h]
  · simp [Function.comp, h]

theorem dedup_step (processed acc : List ContentCandidate) (c : ContentCandidate)
    (hinv : DedupInv processed acc) :
    DedupInv (processed ++ [c]) (upsertMax acc c) := by
  obtain ⟨h1, h2, h3, h4, h5⟩ := hinv
  unfold upsertMax
  cases hf : acc.find? (fun e => candKey e = candKey c) with
  | none =>
    have hnk : candKey c ∉ acc.map candKey := by
      intro hk
      obtain ⟨e, he, hek⟩ := List.mem_map.mp hk
      have := List.find?_eq_none.mp hf e he
      simp [hek] at this
    refine ⟨?_, ?_, ?_, ?_, ?_⟩
    · intro x hx
      rcases List.mem_append.mp hx with h | h
      · exact List.mem_append.mpr (Or.inl (h1 x h))
      · exact List.mem_append.mpr (Or.inr h)
    · rw [List.map_append]
      simp only [List.map_cons, List.map_nil]
      rw [List.nodup_append]
      exact ⟨h2, List.nodup_singleton _, by
        intro a ha hb
        simp at hb
        subst hb
        exact hnk ha⟩
    · intro k
      rw [List.map_append, List.map_append]
      simp only [List.mem_append, List.map_cons, List.map_nil, List.mem_singleton]
      constructor
      · rintro (h | h)
        · exact Or.inl ((h3 k).mp h)
        · exact Or.inr h
      · rintro (h | h)
        · exact Or.inl ((h3 k).mpr h)
        · exact Or.inr h
    · intro x hx y hy hk
      rcases List.mem_append.mp hx with hxa | hxc
      · rcases List.mem_append.mp hy with hya | hyc
        · exact h4 x hxa y hya hk
        · simp at hyc
          subst hyc
          exfalso
          apply hnk
          rw [hk]
          exact List.mem_map_of_mem _ hxa
      · simp at hxc
        subst hxc
        rcases List.mem_append.mp hy with hya | hyc
        · exfalso
          apply hnk
          rw [← hk]
          exact (h3 (candKey y)).mp (List.mem_map_of_mem _ hya)
        · simp at hyc
          subst hyc
          exact le_refl _
    · intro x hx
      rcases List.mem_append.mp hx with hxa | hxc
      · obtain ⟨pre, suf, hps, hpre⟩ := h5 x hxa
        exact ⟨pre, suf ++ [c], by rw [hps]; simp, hpre⟩
      · simp at hxc
        subst hxc
        refine ⟨processed, [], rfl, ?_⟩
        intro y hy hk
        exfalso
        apply hnk
        rw [← hk]
        exact (h3 (candKey y)).mp (List.mem_map_of_mem _ hy)
  | some e =>
    have hemem : e ∈ acc := List.mem_of_find?_eq_some hf
    have hekey : candKey e = candKey c := by
      have := List.find?_some hf
      simpa using this
    have hkc : candKey c ∈ acc.map candKey := by
      rw [← hekey]
      exact List.mem_map_of_mem _ hemem
    dsimp only
    by_cases hs : e.score < c.score
    · rw [if_pos hs]
      refine ⟨?_, ?_, ?_, ?_, ?_⟩
      · intro x hx
        obtain ⟨y, hy, hxy⟩ := List.mem_map.mp hx
        by_cases hky : candKey y = candKey c
        · rw [if_pos hky] at hxy
          exact List.mem_append.mpr (Or.inr (by simp [← hxy]))
        · rw [if_neg hky] at hxy
          subst hxy
          exact List.mem_append.mpr (Or.inl (h1 y hy))
      · rw [map_candKey_replace]
        exact h2
      · intro k
        rw [map_candKey_replace, List.map_append]
        simp only [List.mem_append, List.map_cons, List.map_nil, List.mem_singleton]
        constructor
        · rintro (h | h)
          · exact (h3 k).mp h
          · subst h; exact hkc
        · intro h
          exact Or.inl ((h3 k).mpr h)
      · intro x hx y hy hk
        obtain ⟨z, hz, hxz⟩ := List.mem_map.mp hx
        by_cases hkz : candKey z = candKey c
        · rw [if_pos hkz] at hxz
          subst hxz
          rcases List.mem_append.mp hy with hyp | hyc
          · have := h4 e hemem y hyp (by rw [hk]; exact hekey.symm)
            exact le_trans this (le_of_lt hs)
          · simp at hyc
            subst hyc
            exact le_refl _
        · rw [if_neg hkz] at hxz
          subst hxz
          rcases List.mem_append.mp hy with hyp | hyc
          · exact h4 z hz y hyp hk
          · simp at hyc
            subst hyc
            exact absurd hk.symm hkz
      · intro x hx
        obtain ⟨z, hz, hxz⟩ := List.mem_map.mp hx
        by_cases hkz : candKey z = candKey c
        · rw [if_pos hkz] at hxz
          subst hxz
          refine ⟨processed, [], rfl, ?_⟩
          intro y hy hk
          have := h4 e hemem y hy (by rw [hk]; exact hekey.symm)
          exact lt_of_le_of_lt this hs
        · rw [if_neg hkz] at hxz
          subst hxz
          obtain ⟨pre, suf, hps, hpre⟩ := h5 z hz
          exact ⟨pre, suf ++ [c], by rw [hps]; simp, hpre⟩
    · rw [if_neg hs]
      refine ⟨?_, ?_, ?_, ?_, ?_⟩
      · intro x hx
        exact List.mem_append.mpr (Or.inl (h1 x hx))
      · exact h2
      · intro k
        rw [List.map_append]
        simp only [List.mem_append, List.map_cons, List.map_nil, List.mem_singleton]
        constructor
        · rintro (h | h)
          · exact (h3 k).mp h
          · subst h; exact hkc
        · intro h
          exact Or.inl ((h3 k).mpr h)
      · intro x hx y hy hk
        rcases List.mem_append.mp hy with hyp | hyc
        · exact h4 x hx y hyp hk
        · simp at hyc
          subst hyc
          have hxe : x = e := List.inj_on_of_nodup_map h2 hx hemem (by rw [← hk]; exact hekey.symm)
          rw [hxe]
          exact le_of_not_lt hs
      · intro x hx
        obtain ⟨pre, suf, hps, hpre⟩ := h5 x hx
        exact ⟨pre, suf ++ [c], by rw [hps]; simp, hpre⟩

theorem dedup_fold (cands : List ContentCandidate) :
    ∀ (processed acc : List ContentCandidate), DedupInv processed acc →
    DedupInv (processed ++ cands) (cands.foldl upsertMax acc) := by
  induction cands with
  | nil => intro processed acc h; simpa using h
  | cons c t ih =>
    intro processed acc h
    have h1 := dedup_step processed acc c h
    have h2 := ih (processed ++ [c]) (upsertMax acc c) h1
    rw [List.foldl_cons]
    simpa [List.append_assoc] using h2

theorem dedup_inv_total (cands : List ContentCandidate) :
    DedupInv cands (dedupeCandidates cands) := by
  have := dedup_fold cands [] [] ⟨by simp, by simp, by simp, by simp, by simp⟩
  simpa [dedupeCandidates] using this

def normalizerInputs (fresh : Nat → String) (raws : List RawCandidate) : List ContentCandidate :=
  raws.enum.map fun p => mkCandidate (fresh p.1) p.2

theorem normalizeAndRank_eq (fresh : Nat → String) (raws : List RawCandidate) :
    normalizeAndRankCandidates fresh raws
      = (dedupeCandidates (normalizerInputs fresh raws)).mergeSort rankLE := rfl

theorem filter_key_length (l : List ContentCandidate) (k : String) :
    (l.filter fun c => candKey c = k).length = (l.map candKey).count k := by
  induction l with
  | nil => rfl
  | cons a t ih =>
    by_cases h : candKey a = k
    · simp [List.filter_cons, h, List.count_cons, ih]
    · simp [List.filter_cons, h, List.count_cons, ih]

theorem rankLE_trans : ∀ a b c : ContentCandidate,
    rankLE a b = true → rankLE b c = true → rankLE a c = true := by
  intro a b c hab hbc
  simp only [rankLE, decide_eq_true_eq] at hab hbc ⊢
  rcases hab with h1 | ⟨h1, h1'⟩
  · rcases hbc with h2 | ⟨h2, _⟩
    · exact Or.inl (lt_trans h2 h1)
    · exact Or.inl (by rw [h2]; exact h1)
  · rcases hbc with h2 | ⟨h2, h2'⟩
    · exact Or.inl (by rw [← h1]; exact h2)
    · exact Or.inr ⟨h2.trans h1, le_trans h1' h2'⟩

theorem rankLE_total : ∀ a b : ContentCandidate, (rankLE a b || rankLE b a) = true := by
  intro a b
  simp only [rankLE, Bool.or_eq_true, decide_eq_true_eq]
  rcases lt_trichotomy a.score b.score with h | h | h
  · exact Or.inr (Or.inl h)
  · rcases le_total a.age_minutes b.age_minutes with h2 | h2
    · exact Or.inl (Or.inr ⟨h.symm, h2⟩)
    · exact Or.inr (Or.inr ⟨h, h2⟩)
  · exact Or.inl (Or.inl h)

/-- C5: the normalizer computes each record's dedup key as the sha256 hex
digest of `canonical_url|topic.lower()|summary.lower()` (topic and summary
whitespace-stripped as the loop does); every output candidate is one of the
normalized inputs; each dedup key of the input batch has exactly one
surviving candidate in the output; a survivor's final score is maximal among
all same-key inputs, and all same-key inputs strictly before it score
strictly lower (first-seen wins ties); and the output is pairwise sorted by
final score descending, ties broken by smaller `age_minutes` first. -/
theorem normalize_rank_dedup_sorted (fresh : Nat → String) (raws : List RawCandidate) :
    (∀ s r, candKey (mkCandidate s r) = sha256HexBytes (utf8EncodeStr
      (canonicalUrl r.url ++ "|" ++ lowerStr (stripStr r.topic) ++ "|"
        ++ lowerStr (stripStr r.summary)))) ∧
    (∀ c ∈ normalizeAndRankCandidates fresh raws, c ∈ normalizerInputs fresh raws) ∧
    (∀ k, k ∈ (normalizerInputs fresh raws).map candKey →
      ((normalizeAndRankCandidates fresh raws).filter fun c => candKey c = k).length = 1) ∧
    (∀ c ∈ normalizeAndRankCandidates fresh raws,
      ∀ c' ∈ normalizerInputs fresh raws, candKey c' = candKey c → c'.score ≤ c.score) ∧
    (∀ c ∈ normalizeAndRankCandidates fresh raws,
      ∃ pre suf, normalizerInputs fresh raws = pre ++ c :: suf ∧
        ∀ c' ∈ pre, candKey c' = candKey c → c'.score < c.score) ∧
    (normalizeAndRankCandidates fresh raws).Pairwise
      (fun a b => b.score < a.score ∨ (b.score = a.score ∧ a.age_minutes ≤ b.age_minutes)) := by
  obtain ⟨i1, i2, i3, i4, i5⟩ := dedup_inv_total (normalizerInputs fresh raws)
  rw [normalizeAndRank_eq]
  have hperm : ((dedupeCandidates (normalizerInputs fresh raws)).mergeSort rankLE).Perm
      (dedupeCandidates (normalizerInputs fresh raws)) :=
    List.mergeSort_perm _ rankLE
  refine ⟨fun s r => rfl, ?_, ?_, ?_, ?_, ?_⟩
  · intro c hcmem
    exact i1 c (hperm.mem_iff.mp hcmem)
  · intro k hk
    have h1 := (List.Perm.filter (fun c => decide (candKey c = k)) hperm).length_eq
    rw [h1, filter_key_length]
    exact List.count_eq_one_of_mem i2 ((i3 k).mp hk)
  · intro c hcm c' hc' hkk
    exact i4 c (hperm.mem_iff.mp hcm) c' hc' hkk
  · intro c hcm
    exact i5 c (hperm.mem_iff.mp hcm)
  · have hs := List.sorted_mergeSort rankLE_trans rankLE_total
      (dedupeCandidates (normalizerInputs fresh raws))
    exact hs.imp fun h => by simpa [rankLE] using h

def c5fresh : Nat → String := fun n => "gen-" ++ toString n

def c5raw1 : RawCandidate :=
  ⟨some "r1", "rss", "https://example.org/post?utm_source=x&id=1", "AI", "s", "en", 10⟩

def c5raw2 : RawCandidate :=
  ⟨some "r2", "rss", "https://example.org/post?id=1&utm_medium=y", "AI", "s", "en", 200⟩

def c5key : String := candKey (mkCandidate "gen-0" c5raw1)

set_option maxRecDepth 40000 in
/-- Closed instance of the C5 theorem: two raw records whose URLs differ
only in tracking parameters share a dedup key, and exactly one candidate
with that key survives normalization. -/
theorem normalize_rank_dedup_sorted_witness :
    c5key ∈ (normalizerInputs c5fresh [c5raw1, c5raw2]).map candKey ∧
    ((normalizeAndRankCandidates c5fresh [c5raw1, c5raw2]).filter
      fun c => candKey c = c5key).length = 1 :=
  ⟨by with_unfolding_all decide,
   (normalize_rank_dedup_sorted c5fresh [c5raw1, c5raw2]).2.2.1 c5key
     (by with_unfolding_all decide)⟩

/-! ## Round-trip lemmas for the canonicalizer (claim C7)

`_canonical_url` re-encodes the surviving query pairs with `urlencode` and
reassembles the URL with `urlunsplit`; the claim compares the result's
parse against the original parse.  The development below proves the two
round trips this needs: `parse_qsl ∘ urlencode` is the identity on decoded
pairs, and `urlsplit ∘ urlunsplit` is the identity on component tuples that
arise from a parse. -/

theorem char_toNat_valid (c : Char) :
    c.toNat < 0xD800 ∨ (0xDFFF < c.toNat ∧ c.toNat < 0x110000) := by
  have h := c.valid
  rcases h with h | ⟨h1, h2⟩
  · exact Or.inl h
  · exact Or.inr ⟨h1, h2⟩

theorem toNat_ofNat_valid (n : Nat) (h : n < 0xD800 ∨ (0xDFFF < n ∧ n < 0x110000)) :
    (Char.ofNat n).toNat = n := by
  have hv : n.isValidChar := by
    rcases h with h | ⟨h1, h2⟩
    · exact Or.inl h
    · exact Or.inr ⟨h1, h2⟩
  have h32 : n < 2 ^ 32 := by rcases h with h | ⟨_, h⟩ <;> omega
  simp [Char.ofNat, hv, Char.ofNatAux, Char.toNat, UInt32.toNat, BitVec.toNat_ofNat]

theorem hexVal_hexCharUpper (n : Nat) (h : n < 16) :
    hexVal? (hexCharUpper n) = some n := by
  interval_cases n <;> rfl

theorem utf8Encode_lt (c : Char) : ∀ b ∈ utf8Encode c, b < 256 := by
  have hv := char_toNat_valid c
  intro b hb
  unfold utf8Encode at hb
  dsimp only at hb
  split_ifs at hb with h1 h2 h3 <;> simp [List.mem_cons] at hb <;>
    rcases hb with hb | hb | hb | hb <;> omega

theorem utf8DecodeAll_cons (b0 : Nat) (rest : List Nat) :
    utf8DecodeAll (b0 :: rest) =
      (if b0 < 0x80 then Char.ofNat b0 :: utf8DecodeAll rest
      else if 0xC2 ≤ b0 ∧ b0 ≤ 0xDF then
        match rest with
        | [] => [Char.ofNat 0xFFFD]
        | b1 :: rest1 =>
          if 0x80 ≤ b1 ∧ b1 ≤ 0xBF then
            Char.ofNat ((b0 - 0xC0) * 64 + (b1 - 0x80)) :: utf8DecodeAll rest1
          else Char.ofNat 0xFFFD :: utf8DecodeAll (b1 :: rest1)
      else if 0xE0 ≤ b0 ∧ b0 ≤ 0xEF then
        match rest with
        | [] => [Char.ofNat 0xFFFD]
        | [b1] =>
          if utf8Cont1Lo b0 ≤ b1 ∧ b1 ≤ utf8Cont1Hi b0 then [Char.ofNat 0xFFFD]
          else Char.ofNat 0xFFFD :: utf8DecodeAll [b1]
        | b1 :: b2 :: rest2 =>
          if utf8Cont1Lo b0 ≤ b1 ∧ b1 ≤ utf8Cont1Hi b0 then
            if 0x80 ≤ b2 ∧ b2 ≤ 0xBF then
              Char.ofNat ((b0 - 0xE0) * 4096 + (b1 - 0x80) * 64 + (b2 - 0x80))
                :: utf8DecodeAll rest2
            else Char.ofNat 0xFFFD :: utf8DecodeAll (b2 :: rest2)
          else Char.ofNat 0xFFFD :: utf8DecodeAll (b1 :: b2 :: rest2)
      else if 0xF0 ≤ b0 ∧ b0 ≤ 0xF4 then
        match rest with
        | [] => [Char.ofNat 0xFFFD]
        | [b1] =>
          if utf8Cont1Lo b0 ≤ b1 ∧ b1 ≤ utf8Cont1Hi b0 then [Char.ofNat 0xFFFD]
          else Char.ofNat 0xFFFD :: utf8DecodeAll [b1]
        | [b1, b2] =>
          if utf8Cont1Lo b0 ≤ b1 ∧ b1 ≤ utf8Cont1Hi b0 then
            if 0x80 ≤ b2 ∧ b2 ≤ 0xBF then [Char.ofNat 0xFFFD]
            else Char.ofNat 0xFFFD :: utf8DecodeAll [b2]
          else Char.ofNat 0xFFFD :: utf8DecodeAll [b1, b2]
        | b1 :: b2 :: b3 :: rest3 =>
          if utf8Cont1Lo b0 ≤ b1 ∧ b1 ≤ utf8Cont1Hi b0 then
            if 0x80 ≤ b2 ∧ b2 ≤ 0xBF then
              if 0x80 ≤ b3 ∧ b3 ≤ 0xBF then
                Char.ofNat ((b0 - 0xF0) * 262144 + (b1 - 0x80) * 4096
                    + (b2 - 0x80) * 64 + (b3 - 0x80)) :: utf8DecodeAll rest3
              else Char.ofNat 0xFFFD :: utf8DecodeAll (b3 :: rest3)
            else Char.ofNat 0xFFFD :: utf8DecodeAll (b2 :: b3 :: rest3)
          else Char.ofNat 0xFFFD :: utf8DecodeAll (b1 :: b2 :: b3 :: rest3)
      else Char.ofNat 0xFFFD :: utf8DecodeAll rest) := by
  rcases rest with _ | ⟨b1, _ | ⟨b2, _ | ⟨b3, r⟩⟩⟩ <;> rfl

theorem utf8DecodeAll_encode (c : Char) (bs : List Nat) :
    utf8DecodeAll (utf8Encode c ++ bs) = c :: utf8DecodeAll bs := by
  rcases char_toNat_valid c with hv | hv
  case' inr => obtain ⟨hv1, hv2⟩ := hv
  all_goals (
    have hofn : Char.ofNat c.toNat = c := Char.ofNat_toNat c
    unfold utf8Encode
    dsimp only
    by_cases h1 : c.toNat < 0x80
    · rw [if_pos h1]
      show utf8DecodeAll (c.toNat :: bs) = _
      rw [utf8DecodeAll_cons]
      rw [if_pos h1, hofn]
    · rw [if_neg h1]
      by_cases h2 : c.toNat < 0x800
      · rw [if_pos h2]
        show utf8DecodeAll ((0xC0 + c.toNat / 64) :: (0x80 + c.toNat % 64) :: bs) = _
        rw [utf8DecodeAll_cons]
        rw [if_neg (by omega), if_pos
          (by omega : (0xC2:Nat) ≤ 0xC0 + c.toNat / 64 ∧ 0xC0 + c.toNat / 64 ≤ 0xDF)]
        dsimp only
        rw [if_pos (by omega : (0x80:Nat) ≤ 0x80 + c.toNat % 64 ∧ 0x80 + c.toNat % 64 ≤ 0xBF)]
        have hval : (0xC0 + c.toNat / 64 - 0xC0) * 64 + (0x80 + c.toNat % 64 - 0x80)
            = c.toNat := by omega
        rw [hval, hofn]
      · rw [if_neg h2]
        by_cases h3 : c.toNat < 0x10000
        · rw [if_pos h3]
          show utf8DecodeAll ((0xE0 + c.toNat / 4096) :: (0x80 + c.toNat / 64 % 64)
              :: (0x80 + c.toNat % 64) :: bs) = _
          rw [utf8DecodeAll_cons]
          rw [if_neg (by omega), if_neg (by omega), if_pos
            (by omega : (0xE0:Nat) ≤ 0xE0 + c.toNat / 4096 ∧ 0xE0 + c.toNat / 4096 ≤ 0xEF)]
          dsimp only
          have hcond : utf8Cont1Lo (0xE0 + c.toNat / 4096) ≤ 0x80 + c.toNat / 64 % 64 ∧
              0x80 + c.toNat / 64 % 64 ≤ utf8Cont1Hi (0xE0 + c.toNat / 4096) := by
            unfold utf8Cont1Lo utf8Cont1Hi
            constructor <;> split_ifs <;> omega
          rw [if_pos hcond]
          rw [if_pos (by omega : (0x80:Nat) ≤ 0x80 + c.toNat % 64 ∧ 0x80 + c.toNat % 64 ≤ 0xBF)]
          have hval : (0xE0 + c.toNat / 4096 - 0xE0) * 4096
              + (0x80 + c.toNat / 64 % 64 - 0x80) * 64 + (0x80 + c.toNat % 64 - 0x80)
              = c.toNat := by omega
          rw [hval, hofn]
        · rw [if_neg h3]
          show utf8DecodeAll ((0xF0 + c.toNat / 262144) :: (0x80 + c.toNat / 4096 % 64)
              :: (0x80 + c.toNat / 64 % 64) :: (0x80 + c.toNat % 64) :: bs) = _
          rw [utf8DecodeAll_cons]
          rw [if_neg (by omega), if_neg (by omega), if_neg (by omega), if_pos
            (by omega : (0xF0:Nat) ≤ 0xF0 + c.toNat / 262144 ∧ 0xF0 + c.toNat / 262144 ≤ 0xF4)]
          dsimp only
          have hcond : utf8Cont1Lo (0xF0 + c.toNat / 262144) ≤ 0x80 + c.toNat / 4096 % 64 ∧
              0x80 + c.toNat / 4096 % 64 ≤ utf8Cont1Hi (0xF0 + c.toNat / 262144) := by
            unfold utf8Cont1Lo utf8Cont1Hi
            constructor <;> split_ifs <;> omega
          rw [if_pos hcond]
          rw [if_pos
            (by omega : (0x80:Nat) ≤ 0x80 + c.toNat / 64 % 64 ∧ 0x80 + c.toNat / 64 % 64 ≤ 0xBF)]
          rw [if_pos (by omega : (0x80:Nat) ≤ 0x80 + c.toNat % 64 ∧ 0x80 + c.toNat % 64 ≤ 0xBF)]
          have hval : (0xF0 + c.toNat / 262144 - 0xF0) * 262144
              + (0x80 + c.toNat / 4096 % 64 - 0x80) * 4096
              + (0x80 + c.toNat / 64 % 64 - 0x80) * 64 + (0x80 + c.toNat % 64 - 0x80)
              = c.toNat := by omega
          rw [hval, hofn])

theorem utf8DecodeAll_flatMap (cs : List Char) :
    utf8DecodeAll (cs.flatMap utf8Encode) = cs := by
  induction cs with
  | nil => rfl
  | cons c t ih =>
    rw [List.flatMap_cons, utf8DecodeAll_encode, ih]

theorem unquoteAux_nil (acc : List Nat) : unquoteAux acc [] = utf8DecodeAll acc := rfl

theorem unquoteAux_pct (acc : List Nat) (x y : Char) (a b : Nat) (rest : List Char)
    (hx : hexVal? x = some a) (hy : hexVal? y = some b) :
    unquoteAux acc ('%' :: x :: y :: rest) = unquoteAux (acc ++ [16 * a + b]) rest := by
  have h0 : unquoteAux acc ('%' :: x :: y :: rest) =
      (match hexVal? x, hexVal? y with
       | some a, some b => unquoteAux (acc ++ [16 * a + b]) rest
       | _, _ => utf8DecodeAll acc ++ '%' :: unquoteAux [] (x :: y :: rest)) := rfl
  rw [h0, hx, hy]

theorem unquoteAux_cons_nonpct (acc : List Nat) (c : Char) (rest : List Char)
    (hc : c ≠ '%') :
    unquoteAux acc (c :: rest) = utf8DecodeAll acc ++ c :: unquoteAux [] rest := by
  rcases rest with _ | ⟨h1, _ | ⟨h2, r⟩⟩ <;> simp [unquoteAux, hc]

theorem hexCharUpper_safe (n : Nat) (h : n < 16) : isAlwaysSafe (hexCharUpper n) = true := by
  interval_cases n <;> rfl

theorem safe_ne (c x : Char) (h : isAlwaysSafe c = true) (hx : isAlwaysSafe x = false) :
    c ≠ x := by
  intro he
  rw [he, hx] at h
  exact absurd h (by simp)

theorem safe_gt32 (c : Char) (h : isAlwaysSafe c = true) : 32 < c.toNat := by
  simp only [isAlwaysSafe, decide_eq_true_eq] at h
  rcases h with ⟨h1, _⟩ | ⟨h1, _⟩ | ⟨h1, _⟩ | h1 | h1 | h1 | h1
  · have h2 : (65:Nat) ≤ c.toNat := h1
    omega
  · have h2 : (97:Nat) ≤ c.toNat := h1
    omega
  · have h2 : (48:Nat) ≤ c.toNat := h1
    omega
  · rw [h1]; decide
  · rw [h1]; decide
  · rw [h1]; decide
  · rw [h1]; decide

theorem pct_chars (b : Nat) (hb : b < 256) :
    ∀ c ∈ pctEncodeByte b, c = '%' ∨ isAlwaysSafe c = true := by
  intro c hc
  unfold pctEncodeByte at hc
  simp only [List.mem_cons, List.not_mem_nil, or_false] at hc
  rcases hc with hc | hc | hc
  · exact Or.inl hc
  · exact Or.inr (hc ▸ hexCharUpper_safe _ (by omega))
  · exact Or.inr (hc ▸ hexCharUpper_safe _ (by omega))

theorem plusToSpace_of_no_plus (l : List Char) (h : ∀ c ∈ l, c ≠ '+') :
    plusToSpace l = l := by
  unfold plusToSpace
  rw [List.map_congr_left fun c hc => if_neg (h c hc)]
  exact List.map_id l

theorem unquoteAux_consume (bytes : List Nat) (hb : ∀ b ∈ bytes, b < 256) :
    ∀ (acc : List Nat) (rest : List Char),
      unquoteAux acc (bytes.flatMap pctEncodeByte ++ rest) = unquoteAux (acc ++ bytes) rest := by
  induction bytes with
  | nil => intro acc rest; simp
  | cons b bt ih =>
    intro acc rest
    have hb0 : b < 256 := hb b (by simp)
    have hbt : ∀ x ∈ bt, x < 256 := fun x hx => hb x (by simp [hx])
    show unquoteAux acc ('%' :: hexCharUpper (b / 16) :: hexCharUpper (b % 16)
        :: (bt.flatMap pctEncodeByte ++ rest)) = _
    rw [unquoteAux_pct acc _ _ (b / 16) (b % 16) _
      (hexVal_hexCharUpper _ (by omega)) (hexVal_hexCharUpper _ (by omega))]
    have hbv : 16 * (b / 16) + b % 16 = b := by omega
    rw [hbv, ih hbt (acc ++ [b]) rest]
    rw [List.append_assoc]
    rfl

theorem plusToSpace_append (a b : List Char) :
    plusToSpace (a ++ b) = plusToSpace a ++ plusToSpace b := by
  simp [plusToSpace]

theorem unquote_quote (s : List Char) : ∀ cs : List Char,
    unquoteAux (cs.flatMap utf8Encode) (plusToSpace (quotePlus s)) = cs ++ s := by
  induction s with
  | nil =>
    intro cs
    rw [show plusToSpace (quotePlus []) = ([] : List Char) from rfl]
    rw [unquoteAux_nil, utf8DecodeAll_flatMap]
    simp
  | cons c t ih =>
    intro cs
    have ih0 : unquoteAux [] (plusToSpace (quotePlus t)) = t := by simpa using ih []
    show unquoteAux _ (plusToSpace (quotePlusChar c ++ quotePlus t)) = _
    rw [plusToSpace_append]
    by_cases hsafe : isAlwaysSafe c
    · have hplus : c ≠ '+' := safe_ne c '+' hsafe (by decide)
      have hpct : c ≠ '%' := safe_ne c '%' hsafe (by decide)
      rw [show quotePlusChar c = [c] from by unfold quotePlusChar; rw [if_pos hsafe]]
      rw [plusToSpace_of_no_plus [c] (by
        intro x hx
        simp at hx
        rw [hx]
        exact hplus)]
      rw [List.singleton_append, unquoteAux_cons_nonpct _ _ _ hpct, utf8DecodeAll_flatMap, ih0]
    · by_cases hsp : c = ' '
      · subst hsp
        rw [show quotePlusChar ' ' = ['+'] from rfl]
        rw [show plusToSpace ['+'] = [' '] from rfl]
        rw [List.singleton_append, unquoteAux_cons_nonpct _ _ _ (by decide),
          utf8DecodeAll_flatMap, ih0]
      · have hnp : ∀ x ∈ (utf8Encode c).flatMap pctEncodeByte, x ≠ '+' := by
          intro x hx
          obtain ⟨b, hbmem, hxp⟩ := List.mem_flatMap.mp hx
          rcases pct_chars b (utf8Encode_lt c b hbmem) x hxp with h | h
          · rw [h]; decide
          · exact safe_ne x '+' h (by decide)
        rw [show quotePlusChar c = (utf8Encode c).flatMap pctEncodeByte from by
          unfold quotePlusChar; rw [if_neg hsafe, if_neg hsp]]
        rw [plusToSpace_of_no_plus _ hnp]
        rw [unquoteAux_consume (utf8Encode c) (utf8Encode_lt c) _ _]
        rw [show cs.flatMap utf8Encode ++ utf8Encode c = (cs ++ [c]).flatMap utf8Encode from by
          simp]
        rw [ih (cs ++ [c])]
        simp

theorem unquote_quotePlus (s : List Char) :
    unquoteL (plusToSpace (quotePlus s)) = s := by
  have h := unquote_quote s []
  simpa [unquoteL] using h

theorem takeWhile_append_all {p : Char → Bool} (l₁ l₂ : List Char)
    (h : ∀ c ∈ l₁, p c = true) :
    (l₁ ++ l₂).takeWhile p = l₁ ++ l₂.takeWhile p := by
  have h1 : l₁.takeWhile p = l₁ := List.takeWhile_eq_self_iff.mpr h
  rw [List.takeWhile_append, h1, if_pos rfl]

theorem takeWhile_append_stop {p : Char → Bool} (l₁ l₂ : List Char) (c : Char)
    (hc : p c = false) (hall : ∀ x ∈ l₁, p x = true) :
    (l₁ ++ c :: l₂).takeWhile p = l₁ := by
  rw [takeWhile_append_all _ _ hall, List.takeWhile_cons_of_neg (by simp [hc])]
  simp

theorem splitOnceQ_sep (sep : Char) (l₁ l₂ : List Char) (h : ∀ c ∈ l₁, c ≠ sep) :
    splitOnce? sep (l₁ ++ sep :: l₂) = (l₁, some l₂) := by
  unfold splitOnce?
  have hpre : (l₁ ++ sep :: l₂).takeWhile (· ≠ sep) = l₁ :=
    takeWhile_append_stop _ _ sep (by simp) (fun x hx => by simp [h x hx])
  dsimp only
  rw [hpre, if_pos (by simp)]
  congr 1
  rw [show l₁ ++ sep :: l₂ = (l₁ ++ [sep]) ++ l₂ from by simp]
  rw [show l₁.length + 1 = (l₁ ++ [sep]).length from by simp]
  rw [List.drop_left]

theorem splitOnceQ_no_sep (sep : Char) (l : List Char) (h : ∀ c ∈ l, c ≠ sep) :
    splitOnce? sep l = (l, none) := by
  unfold splitOnce?
  have hpre : l.takeWhile (· ≠ sep) = l :=
    List.takeWhile_eq_self_iff.mpr (fun x hx => by simp [h x hx])
  dsimp only
  rw [hpre, if_neg (by omega)]

theorem splitChar_cons (sep c : Char) (t : List Char) :
    splitChar sep (c :: t) =
      (if c = sep then [] :: splitChar sep t
      else match splitChar sep t with
        | [] => [[c]]
        | h :: r => (c :: h) :: r) := rfl

theorem splitChar_no_sep (sep : Char) (l : List Char) (h : ∀ c ∈ l, c ≠ sep) :
    splitChar sep l = [l] := by
  induction l with
  | nil => rfl
  | cons c t ih =>
    rw [splitChar_cons, if_neg (h c (by simp)), ih (fun x hx => h x (by simp [hx]))]

theorem splitChar_append_sep (sep : Char) (l₁ l₂ : List Char) (h : ∀ c ∈ l₁, c ≠ sep) :
    splitChar sep (l₁ ++ sep :: l₂) = l₁ :: splitChar sep l₂ := by
  induction l₁ with
  | nil =>
    rw [List.nil_append, splitChar_cons, if_pos rfl]
  | cons c t ih =>
    rw [List.cons_append, splitChar_cons, if_neg (h c (by simp)),
      ih (fun x hx => h x (by simp [hx]))]

theorem urlencodePairs_single (p : List Char × List Char) :
    urlencodePairs [p] = quotePlus p.1 ++ '=' :: quotePlus p.2 := by
  simp [urlencodePairs, List.intercalate]

theorem urlencodePairs_cons2 (p q : List Char × List Char)
    (t : List (List Char × List Char)) :
    urlencodePairs (p :: q :: t) =
      (quotePlus p.1 ++ '=' :: quotePlus p.2) ++ '&' :: urlencodePairs (q :: t) := by
  simp [urlencodePairs, List.intercalate, List.intersperse_cons_cons]

theorem quotePlus_chars (l : List Char) :
    ∀ c ∈ quotePlus l, isAlwaysSafe c = true ∨ c = '+' ∨ c = '%' := by
  intro c hc
  obtain ⟨x, hx, hcx⟩ := List.mem_flatMap.mp hc
  unfold quotePlusChar at hcx
  split_ifs at hcx with h1 h2
  · simp at hcx
    subst hcx
    exact Or.inl h1
  · simp at hcx
    subst hcx
    exact Or.inr (Or.inl rfl)
  · obtain ⟨b, hb, hxb⟩ := List.mem_flatMap.mp hcx
    rcases pct_chars b (utf8Encode_lt x b hb) c hxb with h | h
    · exact Or.inr (Or.inr h)
    · exact Or.inl h

theorem field_no_amp (p : List Char × List Char) :
    ∀ c ∈ quotePlus p.1 ++ '=' :: quotePlus p.2, c ≠ '&' := by
  intro c hc
  rcases List.mem_append.mp hc with h | h
  · rcases quotePlus_chars _ c h with hs | hs | hs
    · exact safe_ne c '&' hs (by decide)
    · rw [hs]; decide
    · rw [hs]; decide
  · rcases List.mem_cons.mp h with h | h
    · rw [h]; decide
    · rcases quotePlus_chars _ c h with hs | hs | hs
      · exact safe_ne c '&' hs (by decide)
      · rw [hs]; decide
      · rw [hs]; decide

theorem quotePlus_no_eq (l : List Char) : ∀ c ∈ quotePlus l, c ≠ '=' := by
  intro c hc
  rcases quotePlus_chars _ c hc with hs | hs | hs
  · exact safe_ne c '=' hs (by decide)
  · rw [hs]; decide
  · rw [hs]; decide

theorem parseQsl_urlencode (l : List (List Char × List Char)) :
    parseQsl (urlencodePairs l) = l := by
  induction l with
  | nil => rfl
  | cons p t ih =>
    cases t with
    | nil =>
      rw [urlencodePairs_single]
      unfold parseQsl
      rw [splitChar_no_sep '&' _ (field_no_amp p)]
      simp only [List.filterMap_cons, List.filterMap_nil]
      rw [if_neg (by simp)]
      rw [splitOnceQ_sep '=' _ _ (quotePlus_no_eq p.1)]
      dsimp only
      simp only [Option.getD_some]
      rw [unquote_quotePlus, unquote_quotePlus]
    | cons q t' =>
      rw [urlencodePairs_cons2]
      unfold parseQsl
      rw [splitChar_append_sep '&' _ _ (field_no_amp p)]
      simp only [List.filterMap_cons]
      rw [if_neg (by simp)]
      rw [splitOnceQ_sep '=' _ _ (quotePlus_no_eq p.1)]
      dsimp only
      simp only [Option.getD_some]
      rw [unquote_quotePlus, unquote_quotePlus]
      have ih2 := ih
      unfold parseQsl at ih2
      rw [ih2]

theorem asciiLower_toNat (c : Char) :
    (asciiLower c).toNat = if 65 ≤ c.toNat ∧ c.toNat ≤ 90 then c.toNat + 32 else c.toNat := by
  unfold asciiLower
  by_cases h : 'A' ≤ c ∧ c ≤ 'Z'
  · have h1 : (65:Nat) ≤ c.toNat := h.1
    have h2 : c.toNat ≤ 90 := h.2
    rw [if_pos h, if_pos ⟨h1, h2⟩]
    exact toNat_ofNat_valid _ (Or.inl (by omega))
  · have h' : ¬(65 ≤ c.toNat ∧ c.toNat ≤ 90) := by
      intro ⟨h1, h2⟩
      exact h ⟨h1, h2⟩
    rw [if_neg h, if_neg h']

theorem toNat_inj (c d : Char) (h : c.toNat = d.toNat) : c = d := by
  have := Char.ofNat_toNat c
  rw [h, Char.ofNat_toNat d] at this
  exact this.symm

theorem isSchemeChar_props (c : Char) (h : isSchemeChar c = true) :
    32 < c.toNat ∧ c.toNat ≠ 58 ∧ c.toNat ≠ 47 ∧ c.toNat ≠ 63 ∧ c.toNat ≠ 35 := by
  simp only [isSchemeChar, isAsciiAlphaChar, decide_eq_true_eq] at h
  rcases h with (⟨h1, h2⟩ | ⟨h1, h2⟩) | ⟨h1, h2⟩ | h1 | h1 | h1
  · have g1 : (65:Nat) ≤ c.toNat := h1
    have g2 : c.toNat ≤ 90 := h2
    omega
  · have g1 : (97:Nat) ≤ c.toNat := h1
    have g2 : c.toNat ≤ 122 := h2
    omega
  · have g1 : (48:Nat) ≤ c.toNat := h1
    have g2 : c.toNat ≤ 57 := h2
    omega
  · rw [h1]; decide
  · rw [h1]; decide
  · rw [h1]; decide

theorem isAsciiAlpha_toNat (c : Char) (h : isAsciiAlphaChar c = true) :
    (65 ≤ c.toNat ∧ c.toNat ≤ 90) ∨ (97 ≤ c.toNat ∧ c.toNat ≤ 122) := by
  simp only [isAsciiAlphaChar, decide_eq_true_eq] at h
  rcases h with ⟨h1, h2⟩ | ⟨h1, h2⟩
  · exact Or.inl ⟨h1, h2⟩
  · exact Or.inr ⟨h1, h2⟩

theorem asciiLower_scheme (c : Char) (h : isSchemeChar c = true) :
    isSchemeChar (asciiLower c) = true := by
  simp only [isSchemeChar, isAsciiAlphaChar, decide_eq_true_eq] at h ⊢
  have ht := asciiLower_toNat c
  rcases h with (⟨h1, h2⟩ | ⟨h1, h2⟩) | ⟨h1, h2⟩ | h1 | h1 | h1
  · have g1 : (65:Nat) ≤ c.toNat := h1
    have g2 : c.toNat ≤ 90 := h2
    rw [if_pos ⟨g1, g2⟩] at ht
    refine Or.inl (Or.inr ⟨?_, ?_⟩)
    · show (97:Nat) ≤ (asciiLower c).toNat
      omega
    · show (asciiLower c).toNat ≤ 122
      omega
  · have g1 : (97:Nat) ≤ c.toNat := h1
    have g2 : c.toNat ≤ 122 := h2
    rw [if_neg (by omega)] at ht
    refine Or.inl (Or.inr ⟨?_, ?_⟩)
    · show (97:Nat) ≤ (asciiLower c).toNat
      omega
    · show (asciiLower c).toNat ≤ 122
      omega
  · have g1 : (48:Nat) ≤ c.toNat := h1
    have g2 : c.toNat ≤ 57 := h2
    rw [if_neg (by omega)] at ht
    refine Or.inr (Or.inl ⟨?_, ?_⟩)
    · show (48:Nat) ≤ (asciiLower c).toNat
      omega
    · show (asciiLower c).toNat ≤ 57
      omega
  · rw [h1]; right; right; left; rfl
  · rw [h1]; right; right; right; left; rfl
  · rw [h1]; right; right; right; right; rfl

theorem asciiLower_idem (c : Char) : asciiLower (asciiLower c) = asciiLower c := by
  apply toNat_inj
  have h1 := asciiLower_toNat c
  have h2 := asciiLower_toNat (asciiLower c)
  by_cases h : 65 ≤ c.toNat ∧ c.toNat ≤ 90
  · rw [if_pos h] at h1
    rw [h1] at h2
    rw [if_neg (by omega)] at h2
    rw [h2, h1]
  · rw [if_neg h] at h1
    rw [h1] at h2
    rw [if_neg h] at h2
    rw [h2, h1]

theorem asciiLower_alpha (c : Char) (h : isAsciiAlphaChar c = true) :
    isAsciiAlphaChar (asciiLower c) = true := by
  have ht := asciiLower_toNat c
  rcases isAsciiAlpha_toNat c h with ⟨h1, h2⟩ | ⟨h1, h2⟩
  · rw [if_pos ⟨h1, h2⟩] at ht
    simp only [isAsciiAlphaChar, decide_eq_true_eq]
    refine Or.inr ⟨?_, ?_⟩
    · show (97:Nat) ≤ (asciiLower c).toNat
      omega
    · show (asciiLower c).toNat ≤ 122
      omega
  · rw [if_neg (by omega)] at ht
    simp only [isAsciiAlphaChar, decide_eq_true_eq]
    refine Or.inr ⟨?_, ?_⟩
    · show (97:Nat) ≤ (asciiLower c).toNat
      omega
    · show (asciiLower c).toNat ≤ 122
      omega

theorem validSchemePre_lower (s : List Char) (h : validSchemePre s = true) :
    validSchemePre (lowerList s) = true := by
  unfold validSchemePre at h ⊢
  cases s with
  | nil => exact h
  | cons c t =>
    simp only [Bool.and_eq_true, List.all_eq_true] at h
    unfold lowerList
    simp only [List.map_cons, Bool.and_eq_true, List.all_eq_true]
    refine ⟨asciiLower_alpha c h.1, ?_⟩
    intro x hx
    obtain ⟨y, hy, hxy⟩ := List.mem_map.mp hx
    exact hxy ▸ asciiLower_scheme y (h.2 y hy)

theorem lowerList_idem (s : List Char) : lowerList (lowerList s) = lowerList s := by
  unfold lowerList
  rw [List.map_map]
  exact List.map_congr_left fun c _ => asciiLower_idem c

theorem validSchemePre_chars (s : List Char) (h : validSchemePre s = true) :
    ∀ c ∈ s, isSchemeChar c = true := by
  unfold validSchemePre at h
  cases s with
  | nil => simp at h
  | cons c t =>
    simp only [Bool.and_eq_true, List.all_eq_true] at h
    intro x hx
    rcases List.mem_cons.mp hx with hx | hx
    · subst hx
      simp only [isSchemeChar, Bool.decide_or]
      rw [show isAsciiAlphaChar x = true from h.1]
      rfl
    · exact h.2 x hx

theorem validSchemePre_slash (t : List Char) : validSchemePre ('/' :: t) = false := by
  show (isAsciiAlphaChar '/' && t.all isSchemeChar) = false
  rw [show isAsciiAlphaChar '/' = false from rfl]
  rfl

theorem schemeSplit_of_valid (s tail : List Char)
    (hv : validSchemePre s = true) (hl : lowerList s = s) :
    schemeSplit (s ++ ':' :: tail) = (s, tail) := by
  have hnc : ∀ c ∈ s, c ≠ ':' := by
    intro c hc he
    have := (isSchemeChar_props c (validSchemePre_chars s hv c hc)).2.1
    rw [he] at this
    exact this rfl
  unfold schemeSplit
  have hpre : (s ++ ':' :: tail).takeWhile (· ≠ ':') = s :=
    takeWhile_append_stop _ _ ':' (by simp) (fun x hx => by simp [hnc x hx])
  dsimp only
  rw [hpre]
  rw [if_pos (by simp [hv])]
  rw [hl]
  congr 1
  rw [show s ++ ':' :: tail = (s ++ [':']) ++ tail from by simp]
  rw [show s.length + 1 = (s ++ [':']).length from by simp]
  rw [List.drop_left]

theorem schemeSplit_none (url : List Char)
    (h : (':' ∉ url) ∨ validSchemePre (url.takeWhile (· ≠ ':')) = false) :
    schemeSplit url = ([], url) := by
  unfold schemeSplit
  dsimp only
  rcases h with h | h
  · have hpre : url.takeWhile (· ≠ ':') = url :=
      List.takeWhile_eq_self_iff.mpr (fun x hx => by
        simp only [decide_eq_true_eq]
        intro he
        exact h (he ▸ hx))
    rw [hpre, if_neg (by simp)]
  · rw [if_neg]
    simp only [Bool.and_eq_true, not_and]
    intro _ hvp
    rw [h] at hvp
    exact absurd hvp (by simp)

theorem dropWhile_append_all {p : Char → Bool} (l₁ l₂ : List Char)
    (h : ∀ c ∈ l₁, p c = true) :
    (l₁ ++ l₂).dropWhile p = l₂.dropWhile p := by
  induction l₁ with
  | nil => rfl
  | cons c t ih =>
    rw [List.cons_append, List.dropWhile_cons_of_pos (h c (by simp))]
    exact ih (fun x hx => h x (by simp [hx]))

theorem netlocSplit_append (n rest : List Char)
    (hn : ∀ c ∈ n, isNetlocDelim c = false)
    (hrest : rest = [] ∨ ∃ d t, rest = d :: t ∧ isNetlocDelim d = true) :
    netlocSplit (n ++ rest) = (n, rest) := by
  unfold netlocSplit
  have hall : ∀ c ∈ n, (fun c => ¬ isNetlocDelim c : Char → Bool) c = true := by
    intro c hc
    simp [hn c hc]
  rcases hrest with hrest | ⟨d, t, hrest, hd⟩
  · subst hrest
    rw [List.append_nil]
    rw [List.takeWhile_eq_self_iff.mpr hall]
    rw [List.dropWhile_eq_nil_iff.mpr (fun x hx => by simp [hn x hx])]
  · subst hrest
    rw [takeWhile_append_stop _ _ d (by simp [hd]) hall,
      dropWhile_append_all _ _ hall,
      List.dropWhile_cons_of_neg (by simp [hd])]

theorem gt32_not_ws (c : Char) (h : 32 < c.toNat) :
    ¬(c = '\t' ∨ c = '\r' ∨ c = '\n') := by
  rintro (he | he | he) <;> rw [he] at h <;> exact absurd h (by decide)

theorem qchar_facts (c : Char)
    (h : isAlwaysSafe c = true ∨ c = '+' ∨ c = '%' ∨ c = '&' ∨ c = '=') :
    c ≠ ':' ∧ c ≠ '/' ∧ c ≠ '?' ∧ c ≠ '#' ∧ isC0OrSpace c = false ∧
      ¬(c = '\t' ∨ c = '\r' ∨ c = '\n') := by
  rcases h with h | h | h | h | h
  · have g := safe_gt32 c h
    refine ⟨safe_ne c ':' h (by decide), safe_ne c '/' h (by decide),
      safe_ne c '?' h (by decide), safe_ne c '#' h (by decide), ?_, gt32_not_ws c g⟩
    simp only [isC0OrSpace, decide_eq_false_iff_not]
    omega
  all_goals subst h
  all_goals exact ⟨by decide, by decide, by decide, by decide, by decide, by decide⟩

/-- Post-scheme phase of `urlsplit` (netloc, then fragment, then query) as a
standalone function, for stepwise reasoning. -/
def urlsplitTail (rest : List Char) : List Char × List Char × List Char × List Char :=
  let np := if rest.take 2 = ['/', '/'] then netlocSplit (rest.drop 2) else ([], rest)
  let fp := splitOnce '#' np.2
  let qp := splitOnce '?' fp.1
  (np.1, qp.1, qp.2, fp.2)

theorem urlsplitL_decomp (u : List Char) :
    urlsplitL u =
      ⟨(schemeSplit (removeUnsafeBytes (u.dropWhile isC0OrSpace))).1,
       (urlsplitTail (schemeSplit (removeUnsafeBytes (u.dropWhile isC0OrSpace))).2).1,
       (urlsplitTail (schemeSplit (removeUnsafeBytes (u.dropWhile isC0OrSpace))).2).2.1,
       (urlsplitTail (schemeSplit (removeUnsafeBytes (u.dropWhile isC0OrSpace))).2).2.2.1,
       (urlsplitTail (schemeSplit (removeUnsafeBytes (u.dropWhile isC0OrSpace))).2).2.2.2⟩ := rfl

theorem splitOnce_no_sep (sep : Char) (l : List Char) (h : ∀ c ∈ l, c ≠ sep) :
    splitOnce sep l = (l, []) := by
  unfold splitOnce
  rw [splitOnceQ_no_sep sep l h]
  rfl

theorem splitOnce_at_sep (sep : Char) (l₁ l₂ : List Char) (h : ∀ c ∈ l₁, c ≠ sep) :
    splitOnce sep (l₁ ++ sep :: l₂) = (l₁, l₂) := by
  unfold splitOnce
  rw [splitOnceQ_sep sep l₁ l₂ h]
  rfl

theorem frag_query_split (pa q' : List Char)
    (hpa : ∀ c ∈ pa, c ≠ '#' ∧ c ≠ '?')
    (hq : ∀ c ∈ q', isAlwaysSafe c = true ∨ c = '+' ∨ c = '%' ∨ c = '&' ∨ c = '=') :
    splitOnce '#' (pa ++ (if q' ≠ [] then '?' :: q' else []))
        = (pa ++ (if q' ≠ [] then '?' :: q' else []), []) ∧
      splitOnce '?' (pa ++ (if q' ≠ [] then '?' :: q' else [])) = (pa, q') := by
  by_cases hq0 : q' = []
  · subst hq0
    rw [if_neg (by simp)]
    rw [List.append_nil]
    exact ⟨splitOnce_no_sep '#' pa (fun c hc => (hpa c hc).1),
      splitOnce_no_sep '?' pa (fun c hc => (hpa c hc).2)⟩
  · rw [if_pos hq0]
    constructor
    · apply splitOnce_no_sep
      intro c hc
      rcases List.mem_append.mp hc with h | h
      · exact (hpa c h).1
      · rcases List.mem_cons.mp h with h | h
        · rw [h]; decide
        · exact (qchar_facts c (hq c h)).2.2.2.1
    · exact splitOnce_at_sep '?' pa q' (fun c hc => (hpa c hc).2)

theorem urlsplitTail_slash (n pa q' : List Char)
    (hn : ∀ c ∈ n, isNetlocDelim c = false)
    (hpa : ∀ c ∈ pa, c ≠ '#' ∧ c ≠ '?')
    (hq : ∀ c ∈ q', isAlwaysSafe c = true ∨ c = '+' ∨ c = '%' ∨ c = '&' ∨ c = '=')
    (hdelim : pa = [] ∨ pa.take 1 = ['/']) :
    urlsplitTail ('/' :: '/' :: (n ++ (pa ++ (if q' ≠ [] then '?' :: q' else []))))
      = (n, pa, q', []) := by
  unfold urlsplitTail
  rw [show ('/' :: '/' :: (n ++ (pa ++ (if q' ≠ [] then '?' :: q' else [])))).take 2
      = ['/', '/'] from rfl]
  rw [if_pos rfl]
  rw [show ('/' :: '/' :: (n ++ (pa ++ (if q' ≠ [] then '?' :: q' else [])))).drop 2
      = n ++ (pa ++ (if q' ≠ [] then '?' :: q' else [])) from rfl]
  rw [netlocSplit_append n _ hn ?hdel]
  case hdel =>
    rcases hdelim with hd | hd
    · subst hd
      rw [List.nil_append]
      by_cases hq0 : q' = []
      · subst hq0
        exact Or.inl (by simp)
      · rw [if_pos hq0]
        exact Or.inr ⟨'?', q', rfl, by decide⟩
    · cases pa with
      | nil => simp at hd
      | cons a t =>
        simp only [List.take, List.cons.injEq] at hd
        exact Or.inr ⟨a, t ++ (if q' ≠ [] then '?' :: q' else []), by simp, by
          rw [hd.1]; decide⟩
  dsimp only
  obtain ⟨hf, hqq⟩ := frag_query_split pa q' hpa hq
  rw [hf]
  dsimp only
  rw [hqq]

theorem urlsplitTail_plain (pa q' : List Char)
    (hpa : ∀ c ∈ pa, c ≠ '#' ∧ c ≠ '?')
    (hq : ∀ c ∈ q', isAlwaysSafe c = true ∨ c = '+' ∨ c = '%' ∨ c = '&' ∨ c = '=')
    (hnoslash : (pa ++ (if q' ≠ [] then '?' :: q' else [])).take 2 ≠ ['/', '/']) :
    urlsplitTail (pa ++ (if q' ≠ [] then '?' :: q' else [])) = ([], pa, q', []) := by
  unfold urlsplitTail
  rw [if_neg hnoslash]
  dsimp only
  obtain ⟨hf, hqq⟩ := frag_query_split pa q' hpa hq
  rw [hf]
  dsimp only
  rw [hqq]

theorem clean_id (l : List Char)
    (hhead : ∀ c, l.head? = some c → isC0OrSpace c = false)
    (hbytes : ∀ c ∈ l, ¬(c = '\t' ∨ c = '\r' ∨ c = '\n')) :
    removeUnsafeBytes (l.dropWhile isC0OrSpace) = l := by
  have h1 : l.dropWhile isC0OrSpace = l := by
    cases l with
    | nil => rfl
    | cons c t => exact List.dropWhile_cons_of_neg (by simp [hhead c rfl])
  rw [h1]
  unfold removeUnsafeBytes
  rw [List.filter_eq_self.mpr]
  intro c hc
  simp [hbytes c hc]

theorem take2_append_ne (pa q' : List Char) (hpa2 : pa.take 2 ≠ ['/', '/']) :
    (pa ++ (if q' ≠ [] then '?' :: q' else [])).take 2 ≠ ['/', '/'] := by
  cases pa with
  | nil =>
    by_cases hq0 : q' = []
    · subst hq0
      simp
    · rw [if_pos hq0]
      intro h
      simp only [List.nil_append] at h
      have h2 := congrArg (fun l => l.head?) h
      simp only [List.take, List.head?_cons] at h2
      exact absurd h2 (by decide)
  | cons a t =>
    cases t with
    | nil =>
      by_cases hq0 : q' = []
      · subst hq0
        simp only [ne_eq, not_true_eq_false, if_false, List.append_nil]
        exact hpa2
      · rw [if_pos hq0]
        intro h
        simp only [List.cons_append, List.nil_append] at h
        rw [show (a :: '?' :: q').take 2 = [a, '?'] from rfl] at h
        have : '?' = '/' := (List.cons.injEq _ _ _ _).mp ((List.cons.injEq _ _ _ _).mp h).2 |>.1
        exact absurd this (by decide)
    | cons b t' =>
      intro h
      rw [show ((a :: b :: t') ++ _).take 2 = [a, b] from rfl] at h
      exact hpa2 (by rw [show (a :: b :: t').take 2 = [a, b] from rfl]; exact h)

theorem tail_bytes (n pa q' : List Char)
    (hclean : ∀ c ∈ n ++ pa, ¬(c = '\t' ∨ c = '\r' ∨ c = '\n'))
    (hq : ∀ c ∈ q', isAlwaysSafe c = true ∨ c = '+' ∨ c = '%' ∨ c = '&' ∨ c = '=') :
    ∀ c ∈ n ++ (pa ++ (if q' ≠ [] then '?' :: q' else [])),
      ¬(c = '\t' ∨ c = '\r' ∨ c = '\n') := by
  intro c hc
  rcases List.mem_append.mp hc with h | h
  · exact hclean c (List.mem_append.mpr (Or.inl h))
  · rcases List.mem_append.mp h with h | h
    · exact hclean c (List.mem_append.mpr (Or.inr h))
    · by_cases hq0 : q' = []
      · subst hq0
        rw [if_neg (by simp)] at h
        simp at h
      · rw [if_pos hq0] at h
        rcases List.mem_cons.mp h with h | h
        · rw [h]; decide
        · exact (qchar_facts c (hq c h)).2.2.2.2.2

theorem scheme_head_not_c0 (s : List Char) (hsv : validSchemePre s = true) :
    ∀ c, s.head? = some c → isC0OrSpace c = false := by
  cases s with
  | nil => exact absurd hsv (by decide)
  | cons a t =>
    intro c hc
    simp only [List.head?_cons, Option.some.injEq] at hc
    unfold validSchemePre at hsv
    simp only [Bool.and_eq_true] at hsv
    rcases isAsciiAlpha_toNat a hsv.1 with ⟨h1, _⟩ | ⟨h1, _⟩ <;>
      (subst hc; simp only [isC0OrSpace, decide_eq_false_iff_not]; omega)

theorem urlsplit_urlunsplit (s n pa q' : List Char)
    (hs : s = [] ∨ (validSchemePre s = true ∧ lowerList s = s))
    (hn : ∀ c ∈ n, isNetlocDelim c = false)
    (hpa : ∀ c ∈ pa, c ≠ '#' ∧ c ≠ '?')
    (hslash : n ≠ [] → pa = [] ∨ pa.take 1 = ['/'])
    (hq : ∀ c ∈ q', isAlwaysSafe c = true ∨ c = '+' ∨ c = '%' ∨ c = '&' ∨ c = '=')
    (hclean : ∀ c ∈ n ++ pa, ¬(c = '\t' ∨ c = '\r' ∨ c = '\n'))
    (hpaC0 : s = [] → n = [] → pa.take 2 ≠ ['/', '/'] →
      ∀ c, pa.head? = some c → isC0OrSpace c = false)
    (hscheme0 : s = [] → n = [] → pa.take 2 ≠ ['/', '/'] →
      (':' ∉ pa) ∨ validSchemePre (pa.takeWhile (· ≠ ':')) = false) :
    urlsplitL (urlunsplitL ⟨s, n, pa, q', []⟩) = ⟨s, n, pa, q', []⟩ := by
  by_cases hB : n ≠ [] ∨ (pa ≠ [] ∧ pa.take 2 = ['/', '/'])
  · -- the reassembled URL carries a `//` netloc section
    have hdelim : pa = [] ∨ pa.take 1 = ['/'] := by
      rcases hB with hB | ⟨hpa0, hB2⟩
      · exact hslash hB
      · right
        have h3 : pa.take 1 = (pa.take 2).take 1 := by simp [List.take_take]
        rw [hB2] at h3
        simpa using h3
    have hpre : ¬(pa ≠ [] ∧ pa.take 1 ≠ ['/']) := by
      rintro ⟨hpa0, hp1⟩
      rcases hdelim with h | h
      · exact hpa0 h
      · exact hp1 h
    have hbytes := tail_bytes n pa q' hclean hq
    rcases hs with hs0 | ⟨hsv, hsl⟩
    · subst hs0
      have hout : urlunsplitL ⟨[], n, pa, q', []⟩ =
          '/' :: '/' :: (n ++ (pa ++ (if q' ≠ [] then '?' :: q' else []))) := by
        unfold urlunsplitL
        dsimp only
        rw [if_pos hB, if_neg hpre]
        by_cases hq0 : q' = []
        · subst hq0
          simp
        · simp [hq0, List.append_assoc]
      rw [hout, urlsplitL_decomp]
      rw [clean_id _ ?hh ?hb]
      case hh =>
        intro c hc
        simp only [List.head?_cons, Option.some.injEq] at hc
        subst hc
        decide
      case hb =>
        intro c hc
        rcases List.mem_cons.mp hc with h | h
        · rw [h]; decide
        · rcases List.mem_cons.mp h with h | h
          · rw [h]; decide
          · exact hbytes c h
      rw [schemeSplit_none _ (Or.inr (by
        rw [List.takeWhile_cons_of_pos (by decide)]
        exact validSchemePre_slash _))]
      rw [urlsplitTail_slash n pa q' hn hpa hq hdelim]
    · have hs0 : s ≠ [] := by
        intro h
        rw [h] at hsv
        exact absurd hsv (by decide)
      have hout : urlunsplitL ⟨s, n, pa, q', []⟩ =
          s ++ ':' :: ('/' :: '/' :: (n ++ (pa ++ (if q' ≠ [] then '?' :: q' else [])))) := by
        unfold urlunsplitL
        dsimp only
        rw [if_pos hB, if_neg hpre]
        by_cases hq0 : q' = []
        · subst hq0
          simp [hs0]
        · simp [hs0, hq0, List.append_assoc]
      rw [hout, urlsplitL_decomp]
      rw [clean_id _ ?hh ?hb]
      case hh =>
        intro c hc
        cases s with
        | nil => exact absurd rfl hs0
        | cons a t =>
          rw [List.cons_append, List.head?_cons] at hc
          exact scheme_head_not_c0 (a :: t) hsv c (by
            rw [List.head?_cons]
            exact hc)
      case hb =>
        intro c hc
        rcases List.mem_append.mp hc with h | h
        · exact gt32_not_ws c (isSchemeChar_props c (validSchemePre_chars s hsv c h)).1
        · rcases List.mem_cons.mp h with h | h
          · rw [h]; decide
          · rcases List.mem_cons.mp h with h | h
            · rw [h]; decide
            · rcases List.mem_cons.mp h with h | h
              · rw [h]; decide
              · exact hbytes c h
      rw [schemeSplit_of_valid s _ hsv hsl]
      rw [urlsplitTail_slash n pa q' hn hpa hq hdelim]
  · -- no netloc section in the reassembled URL
    push_neg at hB
    obtain ⟨hn0, hB2⟩ := hB
    subst hn0
    have hpa2 : pa.take 2 ≠ ['/', '/'] := by
      by_cases hp0 : pa = []
      · subst hp0
        simp
      · exact hB2 hp0
    have hnoslash := take2_append_ne pa q' hpa2
    have hbytes := tail_bytes [] pa q' hclean hq
    have hBc : ¬(([] : List Char) ≠ [] ∨ (pa ≠ [] ∧ pa.take 2 = ['/', '/'])) := by
      rintro (h | ⟨h1, h2⟩)
      · exact h rfl
      · exact hpa2 h2
    have hCq : ∀ hm : ':' ∈ (if q' ≠ [] then '?' :: q' else []), False := by
      intro hm
      by_cases hq0 : q' = []
      · subst hq0
        rw [if_neg (by simp)] at hm
        simp at hm
      · rw [if_pos hq0] at hm
        rcases List.mem_cons.mp hm with hm | hm
        · exact absurd hm (by decide)
        · exact absurd rfl (qchar_facts ':' (hq ':' hm)).1
    rcases hs with hs0 | ⟨hsv, hsl⟩
    · subst hs0
      have hout : urlunsplitL ⟨[], [], pa, q', []⟩ =
          pa ++ (if q' ≠ [] then '?' :: q' else []) := by
        unfold urlunsplitL
        dsimp only
        rw [if_neg hBc]
        by_cases hq0 : q' = []
        · subst hq0
          simp
        · simp [hq0]
      rw [hout, urlsplitL_decomp]
      rw [clean_id _ ?hh ?hb]
      case hh =>
        intro c hc
        cases pa with
        | nil =>
          by_cases hq0 : q' = []
          · subst hq0
            rw [if_neg (by simp)] at hc
            simp at hc
          · rw [if_pos hq0] at hc
            simp only [List.nil_append, List.head?_cons, Option.some.injEq] at hc
            subst hc
            decide
        | cons a t =>
          rw [List.cons_append, List.head?_cons] at hc
          exact hpaC0 rfl rfl hpa2 c (by
            rw [List.head?_cons]
            exact hc)
      case hb =>
        intro c hc
        exact hbytes c (by simpa using hc)
      rw [schemeSplit_none _ ?hsc]
      case hsc =>
        rcases hscheme0 rfl rfl hpa2 with h | h
        · left
          intro hmem
          rcases List.mem_append.mp hmem with hm | hm
          · exact h hm
          · exact hCq hm
        · by_cases hcol : ':' ∈ pa
          · right
            have heq : (pa ++ (if q' ≠ [] then '?' :: q' else [])).takeWhile (· ≠ ':')
                = pa.takeWhile (· ≠ ':') := by
              rw [List.takeWhile_append, if_neg ?hlen]
              case hlen =>
                intro hlen
                have hself : pa.takeWhile (· ≠ ':') = pa :=
                  (List.takeWhile_prefix _).eq_of_length hlen
                have h2 := List.takeWhile_eq_self_iff.mp hself ':' hcol
                simp at h2
            rw [heq]
            exact h
          · left
            intro hmem
            rcases List.mem_append.mp hmem with hm | hm
            · exact hcol hm
            · exact hCq hm
      rw [urlsplitTail_plain pa q' hpa hq hnoslash]
    · have hs0 : s ≠ [] := by
        intro h
        rw [h] at hsv
        exact absurd hsv (by decide)
      have hout : urlunsplitL ⟨s, [], pa, q', []⟩ =
          s ++ ':' :: (pa ++ (if q' ≠ [] then '?' :: q' else [])) := by
        unfold urlunsplitL
        dsimp only
        rw [if_neg hBc]
        by_cases hq0 : q' = []
        · subst hq0
          simp [hs0]
        · simp [hs0, hq0, List.append_assoc]
      rw [hout, urlsplitL_decomp]
      rw [clean_id _ ?hh ?hb]
      case hh =>
        intro c hc
        cases s with
        | nil => exact absurd rfl hs0
        | cons a t =>
          rw [List.cons_append, List.head?_cons] at hc
          exact scheme_head_not_c0 (a :: t) hsv c (by
            rw [List.head?_cons]
            exact hc)
      case hb =>
        intro c hc
        rcases List.mem_append.mp hc with h | h
        · exact gt32_not_ws c (isSchemeChar_props c (validSchemePre_chars s hsv c h)).1
        · rcases List.mem_cons.mp h with h | h
          · rw [h]; decide
          · exact hbytes c (by simpa using h)
      rw [schemeSplit_of_valid s _ hsv hsl]
      rw [urlsplitTail_plain pa q' hpa hq hnoslash]

theorem splitOnce_fst (sep : Char) (l : List Char) :
    (splitOnce sep l).1 = l.takeWhile (· ≠ sep) := by
  unfold splitOnce splitOnce?
  dsimp only
  by_cases h : (l.takeWhile (· ≠ sep)).length < l.length
  · rw [if_pos h]
  · rw [if_neg h]
    have hle := (List.takeWhile_prefix (l := l) (· ≠ sep)).length_le
    have : (l.takeWhile (· ≠ sep)).length = l.length := by omega
    exact ((List.takeWhile_prefix _).eq_of_length this).symm

theorem dropWhile_head {p : Char → Bool} (l : List Char) :
    ∀ c, (l.dropWhile p).head? = some c → p c = false := by
  induction l with
  | nil => intro c hc; simp at hc
  | cons a t ih =>
    intro c hc
    by_cases hp : p a
    · rw [List.dropWhile_cons_of_pos hp] at hc
      exact ih c hc
    · rw [List.dropWhile_cons_of_neg hp] at hc
      simp only [List.head?_cons, Option.some.injEq] at hc
      subst hc
      exact Bool.eq_false_iff.mpr hp

theorem takeWhile_length_lt {p : Char → Bool} (l : List Char) (c : Char)
    (hmem : c ∈ l) (hc : p c = false) :
    (l.takeWhile p).length < l.length := by
  induction l with
  | nil => simp at hmem
  | cons a t ih =>
    rcases List.mem_cons.mp hmem with h | h
    · subst h
      rw [List.takeWhile_cons_of_neg (by simp [hc])]
      simp
    · by_cases hp : p a
      · rw [List.takeWhile_cons_of_pos hp]
        have := ih h
        simpa using this
      · rw [List.takeWhile_cons_of_neg hp]
        simp

theorem takeWhile_head {p : Char → Bool} (l : List Char) (c : Char) (t : List Char)
    (h : l.takeWhile p = c :: t) : l.head? = some c := by
  obtain ⟨sfx, hsfx⟩ := List.takeWhile_prefix (l := l) p
  rw [h] at hsfx
  rw [← hsfx]
  rfl

theorem lowerList_ne_nil (l : List Char) (h : l ≠ []) : lowerList l ≠ [] := by
  cases l with
  | nil => exact absurd rfl h
  | cons a t => simp [lowerList]

theorem schemeSplit_snd_subset (url : List Char) : (schemeSplit url).2 ⊆ url := by
  unfold schemeSplit
  dsimp only
  by_cases h : ((url.takeWhile (· ≠ ':')).length < url.length && validSchemePre (url.takeWhile (· ≠ ':'))) = true
  · rw [if_pos h]
    exact List.drop_subset _ _
  · rw [if_neg h]
    exact fun _ hx => hx

theorem url1_head_not_c0 (u : List Char) :
    ∀ c, (removeUnsafeBytes (u.dropWhile isC0OrSpace)).head? = some c →
      isC0OrSpace c = false := by
  intro c hc
  unfold removeUnsafeBytes at hc
  cases hv : u.dropWhile isC0OrSpace with
  | nil => rw [hv] at hc; simp at hc
  | cons a t =>
    have ha : isC0OrSpace a = false := dropWhile_head u a (by rw [hv]; rfl)
    have hka : (decide ¬(a = '\t' ∨ a = '\r' ∨ a = '\n')) = true := by
      simp only [decide_eq_true_eq]
      have h32 : ¬ a.toNat ≤ 32 := by
        simp only [isC0OrSpace, decide_eq_false_iff_not] at ha
        exact ha
      rintro (he | he | he) <;> rw [he] at h32 <;> exact h32 (by decide)
    rw [hv] at hc
    rw [show List.filter (fun c => decide ¬(c = '\t' ∨ c = '\r' ∨ c = '\n')) (a :: t)
        = a :: List.filter (fun c => decide ¬(c = '\t' ∨ c = '\r' ∨ c = '\n')) t
      from List.filter_cons_of_pos hka] at hc
    simp only [List.head?_cons, Option.some.injEq] at hc
    subst hc
    exact ha

theorem urlsplit_facts (u : List Char) :
    ((urlsplitL u).scheme = [] ∨
      (validSchemePre (urlsplitL u).scheme = true ∧
        lowerList (urlsplitL u).scheme = (urlsplitL u).scheme)) ∧
    (∀ c ∈ (urlsplitL u).netloc, isNetlocDelim c = false) ∧
    (∀ c ∈ (urlsplitL u).path, c ≠ '#' ∧ c ≠ '?') ∧
    ((urlsplitL u).netloc ≠ [] → (urlsplitL u).path = [] ∨ (urlsplitL u).path.take 1 = ['/']) ∧
    (∀ c ∈ (urlsplitL u).netloc ++ (urlsplitL u).path, ¬(c = '\t' ∨ c = '\r' ∨ c = '\n')) ∧
    ((urlsplitL u).scheme = [] → (urlsplitL u).netloc = [] →
      (urlsplitL u).path.take 2 ≠ ['/', '/'] →
      ∀ c, (urlsplitL u).path.head? = some c → isC0OrSpace c = false) ∧
    ((urlsplitL u).scheme = [] → (urlsplitL u).netloc = [] →
      (urlsplitL u).path.take 2 ≠ ['/', '/'] →
      (':' ∉ (urlsplitL u).path) ∨
        validSchemePre ((urlsplitL u).path.takeWhile (· ≠ ':')) = false) := by
  have hpath_fst : ∀ X : List Char,
      (splitOnce '?' ((splitOnce '#' X).1)).1 = (X.takeWhile (· ≠ '#')).takeWhile (· ≠ '?') := by
    intro X
    rw [splitOnce_fst, splitOnce_fst]
  have hpathchars : ∀ X : List Char, ∀ c ∈ (X.takeWhile (· ≠ '#')).takeWhile (· ≠ '?'),
      c ≠ '#' ∧ c ≠ '?' := by
    intro X c hc
    have h2 : c ∈ X.takeWhile (· ≠ '#') := List.takeWhile_subset _ hc
    have g1 := List.mem_takeWhile_imp h2
    have g2 := List.mem_takeWhile_imp hc
    simp only [decide_eq_true_eq] at g1 g2
    exact ⟨g1, g2⟩
  have hpathsub : ∀ X : List Char, ∀ c ∈ (X.takeWhile (· ≠ '#')).takeWhile (· ≠ '?'), c ∈ X :=
    fun X c hc => List.takeWhile_subset _ (List.takeWhile_subset _ hc)
  have hpath_np2 : ∀ Y : List Char, (∀ c, Y.head? = some c → isNetlocDelim c = true) →
      ((Y.takeWhile (· ≠ '#')).takeWhile (· ≠ '?')) = [] ∨
      ∃ t2, ((Y.takeWhile (· ≠ '#')).takeWhile (· ≠ '?')) = '/' :: t2 := by
    intro Y hY
    cases Y with
    | nil => exact Or.inl rfl
    | cons d t =>
      have hd := hY d rfl
      simp only [isNetlocDelim, decide_eq_true_eq] at hd
      rcases hd with hd | hd | hd
      · subst hd
        right
        exact ⟨_, by rw [List.takeWhile_cons_of_pos (by decide),
          List.takeWhile_cons_of_pos (by decide)]⟩
      · subst hd
        left
        rw [List.takeWhile_cons_of_pos (by decide), List.takeWhile_cons_of_neg (by decide)]
      · subst hd
        left
        rw [List.takeWhile_cons_of_neg (by decide)]
        rfl
  have hclean1 : ∀ c ∈ removeUnsafeBytes (u.dropWhile isC0OrSpace),
      ¬(c = '\t' ∨ c = '\r' ∨ c = '\n') := by
    intro c hc
    unfold removeUnsafeBytes at hc
    have := List.of_mem_filter hc
    simpa using this
  have hh1 := url1_head_not_c0 u
  rw [urlsplitL_decomp]
  dsimp only
  unfold urlsplitTail
  dsimp only
  have hsch : (schemeSplit (removeUnsafeBytes (u.dropWhile isC0OrSpace))).1 = [] ∨
      (validSchemePre (schemeSplit (removeUnsafeBytes (u.dropWhile isC0OrSpace))).1 = true ∧
        lowerList (schemeSplit (removeUnsafeBytes (u.dropWhile isC0OrSpace))).1
          = (schemeSplit (removeUnsafeBytes (u.dropWhile isC0OrSpace))).1) := by
    unfold schemeSplit
    dsimp only
    by_cases h : (((removeUnsafeBytes (u.dropWhile isC0OrSpace)).takeWhile (· ≠ ':')).length
        < (removeUnsafeBytes (u.dropWhile isC0OrSpace)).length &&
        validSchemePre ((removeUnsafeBytes (u.dropWhile isC0OrSpace)).takeWhile (· ≠ ':'))) = true
    · rw [if_pos h]
      rw [Bool.and_eq_true] at h
      exact Or.inr ⟨validSchemePre_lower _ h.2, lowerList_idem _⟩
    · rw [if_neg h]
      exact Or.inl rfl
  have hsch0 : (schemeSplit (removeUnsafeBytes (u.dropWhile isC0OrSpace))).1 = [] →
      ¬((((removeUnsafeBytes (u.dropWhile isC0OrSpace)).takeWhile (· ≠ ':')).length
          < (removeUnsafeBytes (u.dropWhile isC0OrSpace)).length) ∧
        validSchemePre ((removeUnsafeBytes (u.dropWhile isC0OrSpace)).takeWhile (· ≠ ':')) = true) ∧
      (schemeSplit (removeUnsafeBytes (u.dropWhile isC0OrSpace))).2
        = removeUnsafeBytes (u.dropWhile isC0OrSpace) := by
    intro h0
    unfold schemeSplit at h0 ⊢
    dsimp only at h0 ⊢
    by_cases h : (((removeUnsafeBytes (u.dropWhile isC0OrSpace)).takeWhile (· ≠ ':')).length
        < (removeUnsafeBytes (u.dropWhile isC0OrSpace)).length &&
        validSchemePre ((removeUnsafeBytes (u.dropWhile isC0OrSpace)).takeWhile (· ≠ ':'))) = true
    · rw [if_pos h] at h0
      rw [Bool.and_eq_true] at h
      exfalso
      have hpre0 : (removeUnsafeBytes (u.dropWhile isC0OrSpace)).takeWhile (· ≠ ':') ≠ [] := by
        intro he
        rw [he] at h
        exact absurd h.2 (by decide)
      exact lowerList_ne_nil _ hpre0 h0
    · rw [if_neg h]
      refine ⟨?_, rfl⟩
      rintro ⟨h1, h2⟩
      exact h (by
        simp only [Bool.and_eq_true, decide_eq_true_eq]
        exact ⟨h1, h2⟩)
  have hsub2 := schemeSplit_snd_subset (removeUnsafeBytes (u.dropWhile isC0OrSpace))
  by_cases hsl2 : (schemeSplit (removeUnsafeBytes (u.dropWhile isC0OrSpace))).2.take 2
      = ['/', '/']
  · rw [if_pos hsl2]
    unfold netlocSplit
    dsimp only
    have hnp2head : ∀ c, ((((schemeSplit (removeUnsafeBytes (u.dropWhile isC0OrSpace))).2.drop 2).dropWhile
          (fun c => ¬ isNetlocDelim c)).head? = some c) → isNetlocDelim c = true := by
      intro c hc
      have := dropWhile_head _ c hc
      simpa using this
    refine ⟨hsch, ?_, ?_, ?_, ?_, ?_, ?_⟩
    · intro c hc
      have := List.mem_takeWhile_imp hc
      simpa using this
    · rw [hpath_fst]
      exact hpathchars _
    · intro _
      rw [hpath_fst]
      rcases hpath_np2 _ hnp2head with h | ⟨t2, h⟩
      · exact Or.inl h
      · right
        rw [h]
        rfl
    · intro c hc
      rcases List.mem_append.mp hc with h | h
      · have h2 : c ∈ (schemeSplit (removeUnsafeBytes (u.dropWhile isC0OrSpace))).2.drop 2 :=
          List.takeWhile_subset _ h
        exact hclean1 c (hsub2 (List.drop_subset _ _ h2))
      · rw [hpath_fst] at h
        have h2 := hpathsub _ c h
        have h3 : c ∈ (schemeSplit (removeUnsafeBytes (u.dropWhile isC0OrSpace))).2.drop 2 :=
          List.dropWhile_subset _ h2
        exact hclean1 c (hsub2 (List.drop_subset _ _ h3))
    · intro _ _ _ c hc
      rw [hpath_fst] at hc
      rcases hpath_np2 _ hnp2head with h | ⟨t2, h⟩
      · rw [h] at hc
        simp at hc
      · rw [h] at hc
        simp only [List.head?_cons, Option.some.injEq] at hc
        rw [← hc]
        decide
    · intro _ _ _
      rw [hpath_fst]
      rcases hpath_np2 _ hnp2head with h | ⟨t2, h⟩
      · rw [h]
        exact Or.inl (by simp)
      · rw [h]
        right
        rw [List.takeWhile_cons_of_pos (by decide)]
        exact validSchemePre_slash _
  · rw [if_neg hsl2]
    dsimp only
    refine ⟨hsch, ?_, ?_, ?_, ?_, ?_, ?_⟩
    · intro c hc
      simp at hc
    · rw [hpath_fst]
      exact hpathchars _
    · intro h
      exact absurd rfl h
    · intro c hc
      rw [List.nil_append, hpath_fst] at hc
      exact hclean1 c (hsub2 (hpathsub _ c hc))
    · intro hs0 _ _ c hc
      rw [hpath_fst] at hc
      have hrest : (schemeSplit (removeUnsafeBytes (u.dropWhile isC0OrSpace))).2
          = removeUnsafeBytes (u.dropWhile isC0OrSpace) := (hsch0 hs0).2
      rw [hrest] at hc
      rcases hp : ((removeUnsafeBytes (u.dropWhile isC0OrSpace)).takeWhile
          (· ≠ '#')).takeWhile (· ≠ '?') with _ | ⟨d, t⟩
      · rw [hp] at hc
        simp at hc
      · rw [hp] at hc
        simp only [List.head?_cons, Option.some.injEq] at hc
        have h2 := takeWhile_head _ d t hp
        rcases hq2 : (removeUnsafeBytes (u.dropWhile isC0OrSpace)).takeWhile
            (· ≠ '#') with _ | ⟨d', t'⟩
        · rw [hq2] at h2
          simp at h2
        · rw [hq2] at h2
          simp only [List.head?_cons, Option.some.injEq] at h2
          have h3 := takeWhile_head _ d' t' hq2
          have h4 := hh1 d' h3
          rw [← hc, ← h2]
          exact h4
    · intro hs0 _ _
      rw [hpath_fst]
      have hcond := (hsch0 hs0).1
      have hrest : (schemeSplit (removeUnsafeBytes (u.dropWhile isC0OrSpace))).2
          = removeUnsafeBytes (u.dropWhile isC0OrSpace) := (hsch0 hs0).2
      rw [hrest]
      by_cases hcol : ':' ∈ ((removeUnsafeBytes (u.dropWhile isC0OrSpace)).takeWhile
          (· ≠ '#')).takeWhile (· ≠ '?')
      · right
        have hcolu : ':' ∈ removeUnsafeBytes (u.dropWhile isC0OrSpace) :=
          hpathsub _ ':' hcol
        have hlen : (((removeUnsafeBytes (u.dropWhile isC0OrSpace)).takeWhile (· ≠ ':')).length
            < (removeUnsafeBytes (u.dropWhile isC0OrSpace)).length) :=
          takeWhile_length_lt _ ':' hcolu (by simp)
        have hvfalse : validSchemePre ((removeUnsafeBytes (u.dropWhile isC0OrSpace)).takeWhile
            (· ≠ ':')) = false := by
          by_cases hv : validSchemePre ((removeUnsafeBytes (u.dropWhile isC0OrSpace)).takeWhile
              (· ≠ ':')) = true
          · exact absurd ⟨hlen, hv⟩ hcond
          · exact Bool.eq_false_iff.mpr hv
        have heq : (((removeUnsafeBytes (u.dropWhile isC0OrSpace)).takeWhile
            (· ≠ '#')).takeWhile (· ≠ '?')).takeWhile (· ≠ ':')
            = (removeUnsafeBytes (u.dropWhile isC0OrSpace)).takeWhile (· ≠ ':') := by
          obtain ⟨sfx, hsfx⟩ := ((List.takeWhile_prefix (· ≠ '?')).trans
            (List.takeWhile_prefix (· ≠ '#')) :
            ((removeUnsafeBytes (u.dropWhile isC0OrSpace)).takeWhile
              (· ≠ '#')).takeWhile (· ≠ '?') <+:
              removeUnsafeBytes (u.dropWhile isC0OrSpace))
          conv_rhs => rw [← hsfx]
          rw [List.takeWhile_append, if_neg ?hl]
          case hl =>
            intro hlen2
            have hself := (List.takeWhile_prefix (l :=
              ((removeUnsafeBytes (u.dropWhile isC0OrSpace)).takeWhile
                (· ≠ '#')).takeWhile (· ≠ '?')) (· ≠ ':')).eq_of_length hlen2
            have h2 := List.takeWhile_eq_self_iff.mp hself ':' hcol
            simp at h2
        rw [heq]
        exact hvfalse
      · exact Or.inl hcol

theorem urlencode_chars (l : List (List Char × List Char)) :
    ∀ c ∈ urlencodePairs l,
      isAlwaysSafe c = true ∨ c = '+' ∨ c = '%' ∨ c = '&' ∨ c = '=' := by
  have hfield : ∀ p : List Char × List Char, ∀ c ∈ quotePlus p.1 ++ '=' :: quotePlus p.2,
      isAlwaysSafe c = true ∨ c = '+' ∨ c = '%' ∨ c = '&' ∨ c = '=' := by
    intro p c hc
    rcases List.mem_append.mp hc with h | h
    · rcases quotePlus_chars _ c h with h | h | h
      · exact Or.inl h
      · exact Or.inr (Or.inl h)
      · exact Or.inr (Or.inr (Or.inl h))
    · rcases List.mem_cons.mp h with h | h
      · exact Or.inr (Or.inr (Or.inr (Or.inr h)))
      · rcases quotePlus_chars _ c h with h | h | h
        · exact Or.inl h
        · exact Or.inr (Or.inl h)
        · exact Or.inr (Or.inr (Or.inl h))
  induction l with
  | nil =>
    intro c hc
    simp [urlencodePairs, List.intercalate] at hc
  | cons p t ih =>
    cases t with
    | nil =>
      rw [urlencodePairs_single]
      exact hfield p
    | cons q t' =>
      rw [urlencodePairs_cons2]
      intro c hc
      rcases List.mem_append.mp hc with h | h
      · exact hfield p c h
      · rcases List.mem_cons.mp h with h | h
        · exact Or.inr (Or.inr (Or.inr (Or.inl h)))
        · exact ih c h

set_option maxHeartbeats 4000000 in
set_option maxRecDepth 10000 in
theorem canonicalUrl_example :
    canonicalUrl "https://example.org/post?utm_source=a&utm_medium=b&ref=r&id=1&gclid=foo"
      = "https://example.org/post?id=1" := by
  decide

set_option maxHeartbeats 2000000 in
theorem urlsplit_canonical_components (u : List Char) :
    (urlsplitL (canonicalUrlL u)).scheme = (urlsplitL u).scheme ∧
    (urlsplitL (canonicalUrlL u)).netloc = (urlsplitL u).netloc ∧
    (urlsplitL (canonicalUrlL u)).path = (urlsplitL u).path ∧
    (urlsplitL (canonicalUrlL u)).fragment = [] ∧
    parseQsl (urlsplitL (canonicalUrlL u)).query
      = (parseQsl (urlsplitL u).query).filter (fun kv => ¬ isTrackingKey kv.1) := by
  obtain ⟨f1, f2, f3, f4, f5, f6, f7⟩ := urlsplit_facts u
  have hre : urlsplitL (canonicalUrlL u) =
      ⟨(urlsplitL u).scheme, (urlsplitL u).netloc, (urlsplitL u).path,
        urlencodePairs ((parseQsl (urlsplitL u).query).filter
          (fun kv => ¬ isTrackingKey kv.1)), []⟩ := by
    show urlsplitL (urlunsplitL ⟨(urlsplitL u).scheme, (urlsplitL u).netloc,
      (urlsplitL u).path,
      urlencodePairs ((parseQsl (urlsplitL u).query).filter
        (fun kv => ¬ isTrackingKey kv.1)), []⟩) = _
    exact urlsplit_urlunsplit _ _ _ _ f1 f2 f3 f4 (urlencode_chars _) f5 f6 f7
  rw [hre]
  refine ⟨rfl, rfl, rfl, rfl, ?_⟩
  exact parseQsl_urlencode _

theorem netlocChecks_of_clean (env : UrlCheckEnv) (n : List Char)
    (h1 : '[' ∉ n) (h2 : ']' ∉ n) (h3 : n.all isAsciiChar = true) :
    netlocChecks env n = none := by
  have ha : ¬ (('[' ∈ n ∧ ']' ∉ n) ∨ (']' ∈ n ∧ '[' ∉ n)) := by
    rintro (⟨h, _⟩ | ⟨h, _⟩)
    exacts [h1 h, h2 h]
  have hb : ¬ ('[' ∈ n ∧ ']' ∈ n) := fun hx => h1 hx.1
  have hc : ¬ (n ≠ [] ∧ ¬ n.all isAsciiChar = true) := fun hx => hx.2 h3
  unfold netlocChecks
  rw [if_neg ha, if_neg hb]
  dsimp only
  rw [if_neg hc]

theorem urlsplitE_ok_iff (env : UrlCheckEnv) (u : List Char) (r : UrlSplitResult) :
    urlsplitE env u = .ok r ↔
      (netlocChecks env (urlsplitL u).netloc = none ∧ r = urlsplitL u) := by
  show (match netlocChecks env (urlsplitL u).netloc with
    | some e => Except.error e
    | none => Except.ok (urlsplitL u)) = .ok r ↔ _
  cases h : netlocChecks env (urlsplitL u).netloc with
  | some e => simp
  | none => simp [eq_comm]

theorem canonicalUrlE_ok (env : UrlCheckEnv) (u : List Char)
    (hchk : netlocChecks env (urlsplitL u).netloc = none) :
    canonicalUrlE env u = .ok (canonicalUrlL u) := by
  have h : urlsplitE env u = .ok (urlsplitL u) :=
    (urlsplitE_ok_iff env u (urlsplitL u)).mpr ⟨hchk, rfl⟩
  show (match urlsplitE env u with
    | .error e => Except.error e
    | .ok parsed => Except.ok (urlunsplitL ⟨parsed.scheme, parsed.netloc, parsed.path,
        urlencodePairs ((parseQsl parsed.query).filter
          fun kv => ¬ isTrackingKey kv.1), []⟩)) = _
  rw [h]
  rfl

set_option maxRecDepth 10000 in
/-- An unbalanced bracketed netloc (`[::1`) makes `urlsplit`, and hence
`_canonical_url`, raise `ValueError("Invalid IPv6 URL")`, regardless of
what the deferred validators would say: the canonicalizer does not return
a URL for every URL string. -/
theorem canonical_url_invalid_ipv6 :
    canonicalUrlE envAllOk "http://[::1/post?utm_source=a&id=1".data
      = .error "Invalid IPv6 URL" := by
  rfl

set_option maxHeartbeats 4000000 in
set_option maxRecDepth 10000 in
/-- C7 (amended): `_canonical_url` propagates `urlsplit`'s `ValueError`
raises (unbalanced bracketed netlocs, bracketed hosts rejected by
`_check_bracketed_host`, non-ASCII netlocs rejected by `_checknetloc`), so
it does not return a URL for every string.  On every URL string that
`urlsplit` accepts it returns, under every behavior of the two deferred
validators, a URL that `urlsplit` again accepts, preserving the parsed
scheme, netloc and path, dropping any fragment, and whose query parses
back to exactly the original parameters with the tracking keys (prefix
`utm_` or one of `ref`, `source`, `fbclid`, `gclid`) removed and all other
parameters kept in their original order; in particular the spec's example
URL maps to exactly `https://example.org/post?id=1`. -/
theorem canonical_url_spec :
    (∀ env : UrlCheckEnv,
      canonicalUrlE env
          "https://example.org/post?utm_source=a&utm_medium=b&ref=r&id=1&gclid=foo".data
        = .ok "https://example.org/post?id=1".data) ∧
    ∀ (env : UrlCheckEnv) (u : List Char) (r : UrlSplitResult),
      urlsplitE env u = .ok r →
      canonicalUrlE env u = .ok (canonicalUrlL u) ∧
      urlsplitE env (canonicalUrlL u) = .ok (urlsplitL (canonicalUrlL u)) ∧
      (urlsplitL (canonicalUrlL u)).scheme = r.scheme ∧
      (urlsplitL (canonicalUrlL u)).netloc = r.netloc ∧
      (urlsplitL (canonicalUrlL u)).path = r.path ∧
      (urlsplitL (canonicalUrlL u)).fragment = [] ∧
      parseQsl (urlsplitL (canonicalUrlL u)).query
        = (parseQsl r.query).filter (fun kv => ¬ isTrackingKey kv.1) := by
  constructor
  · intro env
    have hchk : netlocChecks env
        (urlsplitL "https://example.org/post?utm_source=a&utm_medium=b&ref=r&id=1&gclid=foo".data).netloc
        = none :=
      netlocChecks_of_clean env _ (by decide) (by decide) (by decide)
    rw [canonicalUrlE_ok env _ hchk]
    have h2 : canonicalUrlL
        "https://example.org/post?utm_source=a&utm_medium=b&ref=r&id=1&gclid=foo".data
        = "https://example.org/post?id=1".data := congrArg String.data canonicalUrl_example
    rw [h2]
  · intro env u r h
    obtain ⟨hchk, hr⟩ := (urlsplitE_ok_iff env u r).mp h
    subst hr
    obtain ⟨f1, f2, f3, f4, f5⟩ := urlsplit_canonical_components u
    refine ⟨canonicalUrlE_ok env u hchk,
      (urlsplitE_ok_iff env (canonicalUrlL u) _).mpr ⟨?_, rfl⟩, f1, f2, f3, f4, f5⟩
    rw [f2]
    exact hchk

set_option maxRecDepth 10000 in
theorem canonical_url_spec_witness :
    urlsplitE envAllOk "https://a.example/p?ref=1&x=2".data
        = .ok (urlsplitL "https://a.example/p?ref=1&x=2".data) ∧
    canonicalUrlE envAllOk "https://a.example/p?ref=1&x=2".data
        = .ok (canonicalUrlL "https://a.example/p?ref=1&x=2".data) :=
  ⟨by rfl,
    (canonical_url_spec.2 envAllOk "https://a.example/p?ref=1&x=2".data
      (urlsplitL "https://a.example/p?ref=1&x=2".data) (by rfl)).1⟩
